import Mathlib

/-!
Verification of the bplus repository: an ordered key-value map implemented as a
B+Tree with an in-memory backend (src/mem) and a disk backend (src/disk).

The development contains shallow embeddings of the relevant source functions:

- namespace Mem: a functional embedding of the in-memory backend
  (src/mem/node.rs, src/mem/insert.rs, src/mem/remove.rs, src/mem/get.rs,
  src/mem/iter.rs).  The Rust code links nodes with raw parent and next-leaf
  pointers; the functional embedding represents the same tree as an inductive
  value, so the parent of a node is the node that lists it among its children
  and the next-leaf chain is the in-order sequence of leaves.  All key, value,
  index and size computations are transcribed operation by operation.
- namespace MemHeap: a store-based embedding of src/mem/insert.rs and
  src/mem/iter.rs that keeps the parent and next_leaf pointers explicit,
  used to run the concrete iteration scenario over the leaf chain.
- namespace Disk: embeddings of the disk backend (src/disk/insert.rs,
  src/disk/remove.rs, src/disk/node.rs, src/disk/persist.rs) including the
  dirty flags and the filesystem image, and of the older variant kept in
  src/disk/mod.rs.
-/

namespace Mem

variable {K V : Type} [LinearOrder K]

/-- Node type of the in-memory backend, from src/mem/node.rs.  An internal
node holds separator keys and children; a leaf holds keys and the aligned
values.  The parent back-pointer and the next_leaf pointer of the Rust
structs are represented structurally (see the file comment). -/
inductive Node (K V : Type) where
  | internal (keys : List K) (children : List (Node K V))
  | leaf (keys : List K) (values : List V)
deriving Repr

/-- Internal::is_underfull and Leaf::is_underfull from src/mem/node.rs:
an internal node is underfull below order / 2 keys, a leaf below
order.div_ceil(2) = (order + 1) / 2 keys. -/
def Node.is_underfull (order : Nat) : Node K V → Prop
  | .internal keys _ => keys.length < order / 2
  | .leaf keys _ => keys.length < (order + 1) / 2

/-- Internal::is_overfull and Leaf::is_overfull from src/mem/node.rs: more
than order keys. -/
def Node.is_overfull (order : Nat) : Node K V → Prop
  | .internal keys _ => keys.length > order
  | .leaf keys _ => keys.length > order

/-- Internal::has_extra_keys and Leaf::has_extra_keys from src/mem/node.rs. -/
def Node.has_extra_keys (order : Nat) : Node K V → Prop
  | .internal keys _ => keys.length > order / 2
  | .leaf keys _ => keys.length > (order + 1) / 2

instance (order : Nat) (n : Node K V) : Decidable (n.is_underfull order) :=
  match n with
  | .internal keys _ => inferInstanceAs (Decidable (keys.length < order / 2))
  | .leaf keys _ => inferInstanceAs (Decidable (keys.length < (order + 1) / 2))

instance (order : Nat) (n : Node K V) : Decidable (n.is_overfull order) :=
  match n with
  | .internal keys _ => inferInstanceAs (Decidable (keys.length > order))
  | .leaf keys _ => inferInstanceAs (Decidable (keys.length > order))

instance (order : Nat) (n : Node K V) : Decidable (n.has_extra_keys order) :=
  match n with
  | .internal keys _ => inferInstanceAs (Decidable (keys.length > order / 2))
  | .leaf keys _ => inferInstanceAs (Decidable (keys.length > (order + 1) / 2))

/-- Contract of Rust std binary_search on the (sorted, duplicate-free) key
list of a node: ok i when the key is at index i, error i with i the
insertion point otherwise.  On a strictly sorted list both indices equal the
number of keys strictly below the probe.  The standard library is an
external collaborator; this definition is its documented contract. -/
def binarySearch (keys : List K) (key : K) : Except Nat Nat :=
  if key ∈ keys then .ok (keys.countP (fun x => decide (x < key)))
  else .error (keys.countP (fun x => decide (x < key)))

/-- Descent index used by get, insert and remove (src/mem/get.rs,
src/mem/insert.rs, src/mem/remove.rs): on an exact separator hit at i the
search descends to child i + 1, on a miss at insertion point i to child i. -/
def descentIndex (keys : List K) (key : K) : Nat :=
  match binarySearch keys key with
  | .ok index => index + 1
  | .error index => index

/-- Tree container from src/mem/mod.rs: optional root, branching order and
element count. -/
structure BPTreeMap (K V : Type) where
  root : Option (Node K V)
  order : Nat
  len : Nat
deriving Repr

/-- BPTreeMap::with_order from src/mem/mod.rs. -/
def BPTreeMap.with_order (order : Nat) : BPTreeMap K V :=
  { root := none, order := order, len := 0 }

/-- DEFAULT_ORDER = 3 and BPTreeMap::new from src/mem/mod.rs. -/
def BPTreeMap.new : BPTreeMap K V := BPTreeMap.with_order 3

mutual

/-- In-order list of the key-value entries stored below a node. -/
def Node.entries : Node K V → List (K × V)
  | .leaf keys values => keys.zip values
  | .internal _ children => entriesOfList children

/-- In-order concatenation of the entries below each node of a list. -/
def entriesOfList : List (Node K V) → List (K × V)
  | [] => []
  | c :: cs => c.entries ++ entriesOfList cs

end

mutual

/-- In-order sequence of the per-leaf entry blocks below a node: the leaf
chain that the next_leaf pointers of the Rust code thread together. -/
def Node.leafBlocks : Node K V → List (List (K × V))
  | .leaf keys values => [keys.zip values]
  | .internal _ children => leafBlocksOfList children

/-- In-order concatenation of the leaf blocks below each node of a list. -/
def leafBlocksOfList : List (Node K V) → List (List (K × V))
  | [] => []
  | c :: cs => c.leafBlocks ++ leafBlocksOfList cs

end

mutual

/-- Height of a node: leaves have height 0. -/
def Node.height : Node K V → Nat
  | .leaf _ _ => 0
  | .internal _ children => heightOfList children + 1

/-- Maximum height of the nodes of a list. -/
def heightOfList : List (Node K V) → Nat
  | [] => 0
  | c :: cs => max c.height (heightOfList cs)

end

mutual

/-- Descent of get_key_value from src/mem/get.rs: walk to the responsible
leaf with descentIndex, then binary-search the leaf keys. -/
def Node.get_key_value (key : K) : Node K V → Option (K × V)
  | .leaf keys values =>
      match binarySearch keys key with
      | .ok index =>
          match keys[index]?, values[index]? with
          | some k, some v => some (k, v)
          | _, _ => none
      | .error _ => none
  | .internal keys children => getInChild key children (descentIndex keys key)

/-- Descent into children[index] (the list is walked structurally while the
index counts down; past the end the Rust code would have panicked). -/
def getInChild (key : K) : List (Node K V) → Nat → Option (K × V)
  | [], _ => none
  | c :: _, 0 => c.get_key_value key
  | _ :: cs, index + 1 => getInChild key cs index

end

/-- BPTreeMap::get_key_value from src/mem/get.rs. -/
def BPTreeMap.get_key_value (t : BPTreeMap K V) (key : K) : Option (K × V) :=
  match t.root with
  | none => none
  | some r => r.get_key_value key

/-- BPTreeMap::get from src/mem/get.rs. -/
def BPTreeMap.get (t : BPTreeMap K V) (key : K) : Option V :=
  (t.get_key_value key).map (fun p => p.2)

/- Recursive core of BPTreeMap::insert and BPTreeMap::insert_internal from
src/mem/insert.rs.  The result is the prior value when the key was present,
the updated node, and, when the node overflowed and split, the promoted
separator together with the freshly created right sibling (whose parent and
next-leaf hookup the Rust code performs through pointers).  At a leaf:
on a hit swap in the value; on a miss insert at the sorted position and, if
the leaf became overfull, split at keys.len() / 2, promoting the first key
of the right half.  The propagation of a child split into an internal node
re-binary-searches the separator, inserts key and child, and splits at
keys.len() / 2 popping the key at the split index.  Out-of-range accesses
are impossible on well-formed trees; the corresponding fall-through arms
return the node unchanged where the Rust code would have panicked. -/
mutual

/-- Leaf insertion, internal split propagation; see the comment above. -/
def insertNode (order : Nat) (key : K) (value : V) :
    Node K V → Option V × Node K V × Option (K × Node K V)
  | .leaf keys values =>
    match binarySearch keys key with
    | .ok index =>
        -- the key exists: mem::swap the value, return the old one
        (values[index]?, .leaf keys (values.set index value), none)
    | .error index =>
        -- the key does not exist: insert it at the sorted position
        let keys1 := keys.insertIdx index key
        let values1 := values.insertIdx index value
        if ¬ (Node.leaf keys1 values1 : Node K V).is_overfull order then
          (none, .leaf keys1 values1, none)
        else
          -- split the overfull leaf in two
          let split_index := keys1.length / 2
          match keys1.drop split_index with
          | [] => (none, .leaf keys1 values1, none)
          | split_key :: rest =>
              (none, .leaf (keys1.take split_index) (values1.take split_index),
               some (split_key,
                     .leaf (split_key :: rest) (values1.drop split_index)))
  | .internal keys children =>
    match insertInChild order key value children (descentIndex keys key) with
    | (old, children1, none) => (old, .internal keys children1, none)
    | (old, children1, some (split_key, sibling)) =>
        -- insert_internal: find where the promoted key should go
        let index2 := descentIndex keys split_key
        let keys2 := keys.insertIdx index2 split_key
        let children2 := children1.insertIdx (index2 + 1) sibling
        if ¬ (Node.internal keys2 children2 : Node K V).is_overfull order then
          (old, .internal keys2 children2, none)
        else
          -- split the overfull internal node in two
          let split_index := keys2.length / 2
          match keys2[split_index]? with
          | none => (old, .internal keys2 children2, none)
          | some split_key2 =>
              (old,
               .internal (keys2.take split_index) (children2.take (split_index + 1)),
               some (split_key2,
                     .internal (keys2.drop (split_index + 1))
                               (children2.drop (split_index + 1))))

/-- Recursive insertion into children[index], replacing that child in place
and propagating the prior value and a possible split of the child upward
(the list is walked structurally while the index counts down; past the end
the Rust code would have panicked on the child access). -/
def insertInChild (order : Nat) (key : K) (value : V) :
    List (Node K V) → Nat →
    Option V × List (Node K V) × Option (K × Node K V)
  | [], _ => (none, [], none)
  | c :: cs, 0 =>
      match insertNode order key value c with
      | (old, c1, sp) => (old, c1 :: cs, sp)
  | c :: cs, index + 1 =>
      match insertInChild order key value cs index with
      | (old, cs1, sp) => (old, c :: cs1, sp)

end

/-- BPTreeMap::insert from src/mem/insert.rs: create a root leaf when the
tree is empty; otherwise run the descent and, when the split propagates out
of the old root, grow a new internal root holding the promoted separator
and the children old root and new sibling. -/
def BPTreeMap.insert (t : BPTreeMap K V) (key : K) (value : V) :
    Option V × BPTreeMap K V :=
  match t.root with
  | none =>
      (none, { t with root := some (.leaf [key] [value]), len := t.len + 1 })
  | some r =>
    match insertNode t.order key value r with
    | (old, r1, sp) =>
      let root1 : Node K V :=
        match sp with
        | none => r1
        | some (split_key, sibling) => .internal [split_key] [r1, sibling]
      let len1 : Nat := if old.isSome then t.len else t.len + 1
      (old, { t with root := some root1, len := len1 })

/-- Removal of a separator and a child from an internal node, the
non-root path of BPTreeMap::remove_entry_internal (src/mem/remove.rs,
lines 177-189): the separator is located by binary search, the child is
dropped at its position in the children list (the Rust code finds that
position by pointer identity).  Returns none where the Rust code would
have panicked on a failed unwrap. -/
def eraseSeparator (keys : List K) (children : List (Node K V))
    (sepKey : K) (childIdx : Nat) : Option (List K × List (Node K V)) :=
  match binarySearch keys sepKey with
  | .error _ => none
  | .ok index => some (keys.eraseIdx index, children.eraseIdx childIdx)

/-- Borrow from the left sibling of an underfull leaf, src/mem/remove.rs
lines 48-71: the max key/value pair of the left sibling moves to the front
of the cursor and the parent separator at cursor_index - 1 becomes the new
first cursor key (which is the moved key).  keys and children belong to the
parent.  none means the branch does not fire (the Rust if-lets fail or the
sibling has no extra keys); none is also returned where the Rust code would
have panicked on an unwrap, which cannot happen on well-formed trees. -/
def tryBorrowLeafLeft (order : Nat) (keys : List K)
    (children : List (Node K V)) (cursor_index : Nat) :
    Option (List K × List (Node K V)) :=
  if cursor_index > 0 then
    match children[cursor_index]?, children[cursor_index - 1]? with
    | some (.leaf ckeys cvalues), some (.leaf lkeys lvalues) =>
      if (Node.leaf lkeys lvalues : Node K V).has_extra_keys order then
        match lkeys.getLast?, lvalues.getLast? with
        | some max_key, some max_value =>
            let cursor1 : Node K V := .leaf (max_key :: ckeys) (max_value :: cvalues)
            let left1 : Node K V := .leaf lkeys.dropLast lvalues.dropLast
            -- parent.keys[cursor_index - 1] = node.keys[0].clone()
            some (keys.set (cursor_index - 1) max_key,
                  (children.set (cursor_index - 1) left1).set cursor_index cursor1)
        | _, _ => none
      else none
    | _, _ => none
  else none

/-- Borrow from the right sibling of an underfull leaf, src/mem/remove.rs
lines 73-96: the min key/value pair of the right sibling moves to the back
of the cursor and the parent separator at cursor_index becomes the first
key remaining in the right sibling. -/
def tryBorrowLeafRight (order : Nat) (keys : List K)
    (children : List (Node K V)) (cursor_index : Nat) :
    Option (List K × List (Node K V)) :=
  match children[cursor_index]?, children[cursor_index + 1]? with
  | some (.leaf ckeys cvalues), some (.leaf rkeys rvalues) =>
    if (Node.leaf rkeys rvalues : Node K V).has_extra_keys order then
      match rkeys, rvalues with
      | min_key :: rkeys1, min_value :: rvalues1 =>
          let cursor1 : Node K V := .leaf (ckeys ++ [min_key]) (cvalues ++ [min_value])
          let right1 : Node K V := .leaf rkeys1 rvalues1
          -- parent.keys[cursor_index] = right_sibling.keys[0].clone()
          match rkeys1 with
          | r0 :: _ =>
              some (keys.set cursor_index r0,
                    (children.set cursor_index cursor1).set (cursor_index + 1) right1)
          | [] => none
      | _, _ => none
    else none
  | _, _ => none

/-- Merge of an underfull leaf into its left sibling, src/mem/remove.rs
lines 98-119: the cursor keys and values are appended to the left sibling,
the left sibling inherits the cursor next_leaf (structurally implicit), and
the separator at cursor_index - 1 together with the cursor child are removed
from the parent via remove_entry_internal. -/
def tryMergeLeafLeft (keys : List K) (children : List (Node K V))
    (cursor_index : Nat) : Option (List K × List (Node K V)) :=
  if cursor_index > 0 then
    match children[cursor_index]?, children[cursor_index - 1]? with
    | some (.leaf ckeys cvalues), some (.leaf lkeys lvalues) =>
      match keys[cursor_index - 1]? with
      | some sepKey =>
          let left1 : Node K V := .leaf (lkeys ++ ckeys) (lvalues ++ cvalues)
          eraseSeparator keys (children.set (cursor_index - 1) left1) sepKey cursor_index
      | none => none
    | _, _ => none
  else none

/-- Merge of the right sibling into an underfull leaf, src/mem/remove.rs
lines 121-143: the right sibling keys and values are appended to the cursor,
the cursor inherits the right sibling next_leaf (structurally implicit), and
the separator at cursor_index — the one between the cursor and the right
sibling — together with the right sibling child are removed from the parent. -/
def tryMergeLeafRight (keys : List K) (children : List (Node K V))
    (cursor_index : Nat) : Option (List K × List (Node K V)) :=
  match children[cursor_index]?, children[cursor_index + 1]? with
  | some (.leaf ckeys cvalues), some (.leaf rkeys rvalues) =>
    match keys[cursor_index]? with
    | some sepKey =>
        let cursor1 : Node K V := .leaf (ckeys ++ rkeys) (cvalues ++ rvalues)
        eraseSeparator keys (children.set cursor_index cursor1) sepKey (cursor_index + 1)
    | none => none
  | _, _ => none

/-- Borrow from the left sibling of an underfull internal node,
src/mem/remove.rs lines 202-231: rotate through the parent — the parent
separator at cursor_index - 1 moves to the front of the cursor keys, the
max key of the left sibling replaces it in the parent, and the max child of
the left sibling moves to the front of the cursor children (its parent
pointer is fixed up to the cursor, structurally implicit). -/
def tryBorrowInternalLeft (order : Nat) (keys : List K)
    (children : List (Node K V)) (cursor_index : Nat) :
    Option (List K × List (Node K V)) :=
  if cursor_index > 0 then
    match children[cursor_index]?, children[cursor_index - 1]? with
    | some (.internal ckeys cchildren), some (.internal lkeys lchildren) =>
      if (Node.internal lkeys lchildren : Node K V).has_extra_keys order then
        match lkeys.getLast?, lchildren.getLast?, keys[cursor_index - 1]? with
        | some max_key, some max_child, some pkey =>
            let cursor1 : Node K V := .internal (pkey :: ckeys) (max_child :: cchildren)
            let left1 : Node K V := .internal lkeys.dropLast lchildren.dropLast
            some (keys.set (cursor_index - 1) max_key,
                  (children.set (cursor_index - 1) left1).set cursor_index cursor1)
        | _, _, _ => none
      else none
    | _, _ => none
  else none

/-- Borrow from the right sibling of an underfull internal node,
src/mem/remove.rs lines 233-261: the parent separator at cursor_index moves
to the back of the cursor keys, the min key of the right sibling replaces
it in the parent, and the min child of the right sibling moves to the back
of the cursor children. -/
def tryBorrowInternalRight (order : Nat) (keys : List K)
    (children : List (Node K V)) (cursor_index : Nat) :
    Option (List K × List (Node K V)) :=
  match children[cursor_index]?, children[cursor_index + 1]? with
  | some (.internal ckeys cchildren), some (.internal rkeys rchildren) =>
    if (Node.internal rkeys rchildren : Node K V).has_extra_keys order then
      match rkeys, rchildren, keys[cursor_index]? with
      | min_key :: rkeys1, min_child :: rchildren1, some pkey =>
          let cursor1 : Node K V := .internal (ckeys ++ [pkey]) (cchildren ++ [min_child])
          let right1 : Node K V := .internal rkeys1 rchildren1
          some (keys.set cursor_index min_key,
                (children.set cursor_index cursor1).set (cursor_index + 1) right1)
      | _, _, _ => none
    else none
  | _, _ => none

/-- Merge of an underfull internal node into its left sibling,
src/mem/remove.rs lines 263-299: left sibling keys, the pulled-down parent
separator at cursor_index - 1, then the cursor keys; the children lists are
concatenated (their parent pointers move to the left sibling, structurally
implicit); the separator and the cursor child are removed from the parent. -/
def tryMergeInternalLeft (keys : List K) (children : List (Node K V))
    (cursor_index : Nat) : Option (List K × List (Node K V)) :=
  if cursor_index > 0 then
    match children[cursor_index]?, children[cursor_index - 1]? with
    | some (.internal ckeys cchildren), some (.internal lkeys lchildren) =>
      match keys[cursor_index - 1]? with
      | some pkey =>
          let left1 : Node K V := .internal (lkeys ++ pkey :: ckeys) (lchildren ++ cchildren)
          eraseSeparator keys (children.set (cursor_index - 1) left1) pkey cursor_index
      | none => none
    | _, _ => none
  else none

/-- Merge of the right sibling into an underfull internal node,
src/mem/remove.rs lines 301-333: cursor keys, the pulled-down parent
separator at cursor_index, then the right sibling keys; children
concatenated; the separator and the right sibling child are removed from
the parent. -/
def tryMergeInternalRight (keys : List K) (children : List (Node K V))
    (cursor_index : Nat) : Option (List K × List (Node K V)) :=
  match children[cursor_index]?, children[cursor_index + 1]? with
  | some (.internal ckeys cchildren), some (.internal rkeys rchildren) =>
    match keys[cursor_index]? with
    | some pkey =>
        let cursor1 : Node K V := .internal (ckeys ++ pkey :: rkeys) (cchildren ++ rchildren)
        eraseSeparator keys (children.set cursor_index cursor1) pkey (cursor_index + 1)
    | none => none
  | _, _ => none

/-- Four-way rebalance policy applied to the underfull child at
cursor_index, in the strict source order borrow-left, borrow-right,
merge-left, merge-right (src/mem/remove.rs lines 47-143 for a leaf cursor,
lines 195-334 for an internal cursor; the dispatch on the cursor kind
mirrors which of the two code paths runs).  The Bool of the result records
whether a separator was removed from the parent (a merge), after which
the caller checks the parent for underflow. -/
def rebalanceChild (order : Nat) (keys : List K) (children : List (Node K V))
    (cursor_index : Nat) : List K × List (Node K V) × Bool :=
  match children[cursor_index]? with
  | some (.leaf _ _) =>
    match tryBorrowLeafLeft order keys children cursor_index with
    | some (k1, c1) => (k1, c1, false)
    | none =>
    match tryBorrowLeafRight order keys children cursor_index with
    | some (k1, c1) => (k1, c1, false)
    | none =>
    match tryMergeLeafLeft keys children cursor_index with
    | some (k1, c1) => (k1, c1, true)
    | none =>
    match tryMergeLeafRight keys children cursor_index with
    | some (k1, c1) => (k1, c1, true)
    | none => (keys, children, false)
  | some (.internal _ _) =>
    match tryBorrowInternalLeft order keys children cursor_index with
    | some (k1, c1) => (k1, c1, false)
    | none =>
    match tryBorrowInternalRight order keys children cursor_index with
    | some (k1, c1) => (k1, c1, false)
    | none =>
    match tryMergeInternalLeft keys children cursor_index with
    | some (k1, c1) => (k1, c1, true)
    | none =>
    match tryMergeInternalRight keys children cursor_index with
    | some (k1, c1) => (k1, c1, true)
    | none => (keys, children, false)
  | none => (keys, children, false)

/- Recursive core of BPTreeMap::remove_entry from src/mem/remove.rs.  The
descent uses the same index rule as the search; at the leaf the key and the
aligned value are removed on a hit and the search reports absent on a miss.
An underfull non-root node is rebalanced by its parent level through
rebalanceChild.  The Bool of the result records whether this node lost a
key (an entry for a leaf, a separator for an internal node), which is what
makes the caller run the underflow check of the source. -/
mutual

/-- Leaf removal and recursive rebalance; see the comment above. -/
def removeNode (order : Nat) (key : K) :
    Node K V → Option ((K × V) × Node K V × Bool)
  | .leaf keys values =>
    match binarySearch keys key with
    | .error _ => none
    | .ok index =>
      match keys[index]?, values[index]? with
      | some k, some v =>
          some ((k, v), .leaf (keys.eraseIdx index) (values.eraseIdx index), true)
      | _, _ => none
  | .internal keys children =>
    let cursor_index := descentIndex keys key
    match removeInChild order key children cursor_index with
    | none => none
    | some ((k, v), children1, shrank) =>
      match children1[cursor_index]? with
      | none => some ((k, v), .internal keys children1, false)
      | some c1 =>
        if shrank ∧ c1.is_underfull order then
          match rebalanceChild order keys children1 cursor_index with
          | (keys1, children2, sh) => some ((k, v), .internal keys1 children2, sh)
        else some ((k, v), .internal keys children1, false)

/-- Recursive removal from children[index], replacing that child in place
(the list is walked structurally while the index counts down; none past the
end, where the Rust child access would have panicked). -/
def removeInChild (order : Nat) (key : K) :
    List (Node K V) → Nat → Option ((K × V) × List (Node K V) × Bool)
  | [], _ => none
  | c :: cs, 0 =>
      match removeNode order key c with
      | none => none
      | some (kv, c1, sh) => some (kv, c1 :: cs, sh)
  | c :: cs, index + 1 =>
      match removeInChild order key cs index with
      | none => none
      | some (kv, cs1, sh) => some (kv, c :: cs1, sh)

end

/-- BPTreeMap::remove_entry from src/mem/remove.rs: absent on an empty tree;
otherwise run the descent and removal.  A root leaf that was emptied is
dropped (lines 38-42); a root internal node whose final key was consumed by
a child merge is replaced by its surviving child (the root special case of
remove_entry_internal, lines 157-174). -/
def BPTreeMap.remove_entry (t : BPTreeMap K V) (key : K) :
    Option (K × V) × BPTreeMap K V :=
  match t.root with
  | none => (none, t)
  | some r =>
    match removeNode t.order key r with
    | none => (none, t)
    | some ((k, v), r1, _) =>
      let root1 : Option (Node K V) :=
        match r1 with
        | .leaf [] _ => none
        | .internal [] (c :: _) => some c
        | n => some n
      (some (k, v), { t with root := root1, len := t.len - 1 })

/-- BPTreeMap::remove from src/mem/remove.rs. -/
def BPTreeMap.remove (t : BPTreeMap K V) (key : K) : Option V × BPTreeMap K V :=
  match t.remove_entry key with
  | (r, t1) => (r.map (fun p => p.2), t1)

/-- BPTreeMap::iter from src/mem/iter.rs: walk to the leftmost leaf by
taking children[0] repeatedly from the root (the head of the leaf-block
sequence), then follow the next_leaf chain (the successive blocks),
yielding at most len entries (the len counter captured by the iterator and
decremented by Iter::next). -/
def BPTreeMap.iterEntries (t : BPTreeMap K V) : List (K × V) :=
  match t.root with
  | none => []
  | some r => (r.leafBlocks.flatten).take t.len

/-- In-order entry list of the whole map. -/
def BPTreeMap.toList (t : BPTreeMap K V) : List (K × V) :=
  match t.root with
  | none => []
  | some r => r.entries

/-- Lower-bound test for an optional inclusive bound (none means minus
infinity). -/
def lowOk : Option K → K → Prop
  | none, _ => True
  | some l, k => l ≤ k

/-- Upper-bound test for an optional exclusive bound (none means plus
infinity).  Keys of the right subtree of a separator s satisfy s ≤ k, keys
of the left subtree satisfy k < s, matching the right-leaning duplicate
rule of the search. -/
def highOk : Option K → K → Prop
  | none, _ => True
  | some h, k => k < h

instance (lo : Option K) (k : K) : Decidable (lowOk lo k) :=
  match lo with
  | none => isTrue trivial
  | some l => inferInstanceAs (Decidable (l ≤ k))

/-- Strict lower-bound test, used for the separator keys of internal nodes:
a separator always lies strictly above the lower bound of its node, because
the left subtree it cuts off is nonempty. -/
def lowLt : Option K → K → Prop
  | none, _ => True
  | some l, k => l < k

instance (lo : Option K) (k : K) : Decidable (lowLt lo k) :=
  match lo with
  | none => isTrue trivial
  | some l => inferInstanceAs (Decidable (l < k))

instance (hi : Option K) (k : K) : Decidable (highOk hi k) :=
  match hi with
  | none => isTrue trivial
  | some h => inferInstanceAs (Decidable (k < h))

/-- Role of a node for the size bounds: an ordinary child obeys the full
minimum, the root is exempt down to one key (spec invariant 3), and a node
that just lost a key pending rebalance by its parent may be one below the
minimum (the intermediate state between the removal and the rebalance in
remove_entry / remove_entry_internal). -/
inductive TopRole where
  | child
  | root
  | shrunk
deriving DecidableEq, Repr

/-- Minimum number of keys of a leaf in a given role; the child minimum is
the underflow threshold order.div_ceil(2) of Leaf::is_underfull. -/
def leafMin (m : Nat) : TopRole → Nat
  | .child => (m + 1) / 2
  | .root => 1
  | .shrunk => 0

/-- Minimum number of keys of an internal node in a given role; the child
minimum is the underflow threshold order / 2 of Internal::is_underfull. -/
def internalMin (m : Nat) : TopRole → Nat
  | .child => m / 2
  | .root => 1
  | .shrunk => 0

/-- Strict ascending order of a key list (spec invariant P2). -/
def keysSorted : List K → Prop
  | [] => True
  | [_] => True
  | a :: b :: rest => a < b ∧ keysSorted (b :: rest)

instance decKeysSorted : (ks : List K) → Decidable (keysSorted ks)
  | [] => isTrue trivial
  | [_] => isTrue trivial
  | a :: b :: rest =>
      @instDecidableAnd _ _ (inferInstanceAs (Decidable (a < b)))
        (decKeysSorted (b :: rest))

/-- Well-formedness of the children of an internal node with separator keys
ks against the key interval [lo, hi): child i is bounded below by the
separator at i - 1 (inclusive, or lo for the first child) and above by the
separator at i (exclusive, or hi for the last child), and there is exactly
one more child than there are separators. -/
def ChildrenWf (P : Option K → Option K → Node K V → Prop) :
    Option K → Option K → List K → List (Node K V) → Prop
  | lo, hi, [], [c] => P lo hi c
  | lo, hi, k :: ks, c :: cs => P lo (some k) c ∧ ChildrenWf P (some k) hi ks cs
  | _, _, _, _ => False

/-- Well-formedness of a node of depth d within the key interval [lo, hi):
strictly sorted keys, keys within the interval, size bounds for the role
(with order m as the maximum), aligned values in leaves, all leaves at
depth 0, and recursively well-formed children on the subintervals cut by
the separators.  This packages spec invariants P1-P3 plus uniform depth. -/
def NodeWf (m : Nat) : Nat → TopRole → Option K → Option K → Node K V → Prop
  | 0, role, lo, hi, .leaf ks vs =>
      vs.length = ks.length ∧ keysSorted ks ∧
      (∀ k ∈ ks, lowOk lo k ∧ highOk hi k) ∧
      leafMin m role ≤ ks.length ∧ ks.length ≤ m
  | _ + 1, _, _, _, .leaf _ _ => False
  | 0, _, _, _, .internal _ _ => False
  | d + 1, role, lo, hi, .internal ks cs =>
      keysSorted ks ∧
      (∀ k ∈ ks, lowLt lo k ∧ highOk hi k) ∧
      internalMin m role ≤ ks.length ∧ ks.length ≤ m ∧
      ChildrenWf (NodeWf m d .child) lo hi ks cs

/-- Decidability of ChildrenWf, by recursion along the separator list. -/
def decChildrenWf (P : Option K → Option K → Node K V → Prop)
    (dP : ∀ lo hi n, Decidable (P lo hi n)) :
    ∀ (lo hi : Option K) (ks : List K) (cs : List (Node K V)),
      Decidable (ChildrenWf P lo hi ks cs)
  | lo, hi, [], [] => isFalse (fun h => h)
  | lo, hi, [], [c] => dP lo hi c
  | lo, hi, [], _ :: _ :: _ => isFalse (fun h => h)
  | lo, hi, _ :: _, [] => isFalse (fun h => h)
  | lo, hi, k :: ks, c :: cs =>
      @instDecidableAnd _ _ (dP lo (some k) c) (decChildrenWf P dP (some k) hi ks cs)

/-- Decidability of NodeWf, by recursion on the depth. -/
def decNodeWf (m : Nat) :
    ∀ (d : Nat) (role : TopRole) (lo hi : Option K) (n : Node K V),
      Decidable (NodeWf m d role lo hi n)
  | 0, role, lo, hi, .leaf ks vs =>
      inferInstanceAs (Decidable (vs.length = ks.length ∧ keysSorted ks ∧
        (∀ k ∈ ks, lowOk lo k ∧ highOk hi k) ∧
        leafMin m role ≤ ks.length ∧ ks.length ≤ m))
  | _ + 1, _, _, _, .leaf _ _ => isFalse (fun h => h)
  | 0, _, _, _, .internal _ _ => isFalse (fun h => h)
  | d + 1, role, lo, hi, .internal ks cs =>
      @instDecidableAnd _ _ (inferInstanceAs (Decidable (keysSorted ks)))
        (@instDecidableAnd _ _
          (inferInstanceAs (Decidable (∀ k ∈ ks, lowLt lo k ∧ highOk hi k)))
          (@instDecidableAnd _ _
            (inferInstanceAs (Decidable (internalMin m role ≤ ks.length)))
            (@instDecidableAnd _ _
              (inferInstanceAs (Decidable (ks.length ≤ m)))
              (decChildrenWf (NodeWf m d .child)
                (fun lo hi n => decNodeWf m d .child lo hi n) lo hi ks cs))))

instance (m d : Nat) (role : TopRole) (lo hi : Option K) (n : Node K V) :
    Decidable (NodeWf m d role lo hi n) := decNodeWf m d role lo hi n

/-- Number of keys held directly in a node. -/
def Node.keyCount : Node K V → Nat
  | .leaf ks _ => ks.length
  | .internal ks _ => ks.length

/-- Well-formedness of the optional root of a map holding len entries. -/
def RootWf (m len : Nat) : Option (Node K V) → Prop
  | none => len = 0
  | some r => NodeWf m r.height .root none none r ∧ len = r.entries.length

instance (m len : Nat) (root : Option (Node K V)) : Decidable (RootWf m len root) :=
  match root with
  | none => inferInstanceAs (Decidable (len = 0))
  | some r => inferInstanceAs (Decidable (_ ∧ _))

/-- Well-formedness of a map: valid order (construction requires at least
3, spec section 6), a well-formed root in the root role at uniform depth,
and a count equal to the number of stored entries (spec invariant P6). -/
def BPTreeMap.Wf (t : BPTreeMap K V) : Prop :=
  3 ≤ t.order ∧ RootWf t.order t.len t.root

instance (t : BPTreeMap K V) : Decidable t.Wf :=
  inferInstanceAs (Decidable (_ ∧ _))

mutual

/-- Size bounds of claim property P1, phrased as in the specification:
every non-root leaf holds between order.div_ceil(2) and order keys, every
non-root internal node between order / 2 and order keys, every internal
node has exactly one more child than it has keys, and the root alone is
exempt from the minimum. -/
def SizeOk (m : Nat) (isRoot : Bool) : Node K V → Prop
  | .leaf ks _ =>
      (isRoot = false → (m + 1) / 2 ≤ ks.length) ∧ ks.length ≤ m
  | .internal ks cs =>
      (isRoot = false → m / 2 ≤ ks.length) ∧ ks.length ≤ m ∧
      cs.length = ks.length + 1 ∧ SizeOkList m cs

/-- SizeOk for every node of a list of (non-root) children. -/
def SizeOkList (m : Nat) : List (Node K V) → Prop
  | [] => True
  | c :: cs => SizeOk m false c ∧ SizeOkList m cs

end

/-- Maps reachable from an empty tree of order at least 3 (the construction
bound of spec section 6) by insert and remove_entry operations. -/
inductive Reachable : BPTreeMap K V → Prop where
  | empty (order : Nat) (h : 3 ≤ order) :
      Reachable (BPTreeMap.with_order order)
  | insert (t : BPTreeMap K V) (key : K) (value : V) :
      Reachable t → Reachable (t.insert key value).2
  | remove (t : BPTreeMap K V) (key : K) :
      Reachable t → Reachable (t.remove_entry key).2

end Mem

namespace Disk

variable {K V : Type} [LinearOrder K]

/-- Node type of the disk backend, from src/disk/node.rs together with the
dirty flag carried by resident nodes (constructed as dirty: true in
src/disk/insert.rs and tested as is_dirty in src/disk/persist.rs and
src/disk/guard.rs).  The stable identity (a 128-bit UUID in the source) is
modelled as a natural number drawn from a fresh counter.  Nodes are kept
resident (loaded); parent and next_leaf pointers are structural as in the
Mem model. -/
inductive Node (K V : Type) where
  | internal (uuid : Nat) (keys : List K) (children : List (Node K V)) (dirty : Bool)
  | leaf (uuid : Nat) (keys : List K) (values : List V) (dirty : Bool)
deriving Repr

/-- Internal::is_underfull and Leaf::is_underfull from src/disk/node.rs. -/
def Node.is_underfull (order : Nat) : Node K V → Prop
  | .internal _ keys _ _ => keys.length < order / 2
  | .leaf _ keys _ _ => keys.length < (order + 1) / 2

/-- Internal::is_overfull and Leaf::is_overfull from src/disk/node.rs. -/
def Node.is_overfull (order : Nat) : Node K V → Prop
  | .internal _ keys _ _ => keys.length > order
  | .leaf _ keys _ _ => keys.length > order

/-- Internal::has_extra_keys and Leaf::has_extra_keys from
src/disk/node.rs. -/
def Node.has_extra_keys (order : Nat) : Node K V → Prop
  | .internal _ keys _ _ => keys.length > order / 2
  | .leaf _ keys _ _ => keys.length > (order + 1) / 2

instance (order : Nat) (n : Node K V) : Decidable (n.is_underfull order) :=
  match n with
  | .internal _ keys _ _ => inferInstanceAs (Decidable (keys.length < order / 2))
  | .leaf _ keys _ _ => inferInstanceAs (Decidable (keys.length < (order + 1) / 2))

instance (order : Nat) (n : Node K V) : Decidable (n.is_overfull order) :=
  match n with
  | .internal _ keys _ _ => inferInstanceAs (Decidable (keys.length > order))
  | .leaf _ keys _ _ => inferInstanceAs (Decidable (keys.length > order))

instance (order : Nat) (n : Node K V) : Decidable (n.has_extra_keys order) :=
  match n with
  | .internal _ keys _ _ => inferInstanceAs (Decidable (keys.length > order / 2))
  | .leaf _ keys _ _ => inferInstanceAs (Decidable (keys.length > (order + 1) / 2))

/-- Identity of a node. -/
def Node.uuidOf : Node K V → Nat
  | .internal uuid _ _ _ => uuid
  | .leaf uuid _ _ _ => uuid

/-- Dirty flag of a (resident) node. -/
def Node.dirtyOf : Node K V → Bool
  | .internal _ _ _ dirty => dirty
  | .leaf _ _ _ dirty => dirty

mutual

/-- In-order list of the key-value entries stored below a disk node. -/
def Node.entries : Node K V → List (K × V)
  | .leaf _ keys values _ => keys.zip values
  | .internal _ _ children _ => entriesOfList children

/-- In-order concatenation of the entries below each node of a list. -/
def entriesOfList : List (Node K V) → List (K × V)
  | [] => []
  | c :: cs => c.entries ++ entriesOfList cs

end

/-- Error type of the disk backend, from src/disk/error.rs (the BadBPTree
variant is referenced by src/disk/persist.rs; the io-failure variant is
written Io here). -/
inductive Error where
  | Io
  | UnknownKey
  | Serde
  | BadBPTree
deriving DecidableEq, Repr

/-- Rust panics of the transcribed code paths: an out-of-bounds Vec index
or a failed Option unwrap.  These abort the process in Rust instead of
returning through the Result type. -/
inductive RunErr where
  | indexOutOfBounds
  | unwrapFailed
deriving DecidableEq, Repr

/-- Tree container of the disk backend, from src/disk/mod.rs together with
the per-metadata dirty flags constructed by load in src/disk/persist.rs.
The directory path is a fixed ambient directory here; nextUuid models the
source of fresh identities (Uuid::new_v4). -/
structure BPTree (K V : Type) where
  root : Option (Node K V)
  root_is_dirty : Bool
  order : Nat
  order_is_dirty : Bool
  len : Nat
  len_is_dirty : Bool
  nextUuid : Nat
deriving Repr

/-- Construction of an empty disk tree with the given order.  A fresh tree
exists only in memory, so its metadata is marked dirty. -/
def BPTree.with_order (order : Nat) : BPTree K V :=
  { root := none, root_is_dirty := true, order := order, order_is_dirty := true,
    len := 0, len_is_dirty := true, nextUuid := 0 }

/-- DEFAULT_ORDER = 3. -/
def BPTree.new : BPTree K V := BPTree.with_order 3

/- BPTree::insert and BPTree::insert_internal from src/disk/insert.rs,
value-for-value the same algorithm as the Mem model, with the disk
differences transcribed: every node carries its identity and dirty flag,
freshly created nodes (split siblings and new roots) are constructed with
dirty: true, and nodes that are modified in place through access_mut keep
whatever dirty flag they had — the source never sets the flag on them.
All nodes being resident, the access calls cannot fail, so the Result
wrapper of the source is always Ok and is omitted. -/
mutual

/-- Leaf insertion and internal split propagation, threading the fresh
identity counter; see the comment above. -/
def insertNode (order : Nat) (key : K) (value : V) (fresh : Nat) :
    Node K V → Option V × Node K V × Option (K × Node K V) × Nat
  | .leaf uuid keys values dirty =>
    match Mem.binarySearch keys key with
    | .ok index =>
        -- the key exists: swap the value; the dirty flag is not touched
        (values[index]?, .leaf uuid keys (values.set index value) dirty, none, fresh)
    | .error index =>
        let keys1 := keys.insertIdx index key
        let values1 := values.insertIdx index value
        if ¬ (Node.leaf uuid keys1 values1 dirty : Node K V).is_overfull order then
          (none, .leaf uuid keys1 values1 dirty, none, fresh)
        else
          let split_index := keys1.length / 2
          match keys1.drop split_index with
          | [] => (none, .leaf uuid keys1 values1 dirty, none, fresh)
          | split_key :: rest =>
              (none,
               .leaf uuid (keys1.take split_index) (values1.take split_index) dirty,
               some (split_key,
                     .leaf fresh (split_key :: rest) (values1.drop split_index) true),
               fresh + 1)
  | .internal uuid keys children dirty =>
    match insertInChild order key value fresh children (Mem.descentIndex keys key) with
    | (old, children1, none, fresh1) =>
        (old, .internal uuid keys children1 dirty, none, fresh1)
    | (old, children1, some (split_key, sibling), fresh1) =>
        let index2 := Mem.descentIndex keys split_key
        let keys2 := keys.insertIdx index2 split_key
        let children2 := children1.insertIdx (index2 + 1) sibling
        if ¬ (Node.internal uuid keys2 children2 dirty : Node K V).is_overfull order then
          (old, .internal uuid keys2 children2 dirty, none, fresh1)
        else
          let split_index := keys2.length / 2
          match keys2[split_index]? with
          | none => (old, .internal uuid keys2 children2 dirty, none, fresh1)
          | some split_key2 =>
              (old,
               .internal uuid (keys2.take split_index)
                 (children2.take (split_index + 1)) dirty,
               some (split_key2,
                     .internal fresh1 (keys2.drop (split_index + 1))
                       (children2.drop (split_index + 1)) true),
               fresh1 + 1)

/-- Recursive insertion into children[index] (as in the Mem model). -/
def insertInChild (order : Nat) (key : K) (value : V) (fresh : Nat) :
    List (Node K V) → Nat →
    Option V × List (Node K V) × Option (K × Node K V) × Nat
  | [], _ => (none, [], none, fresh)
  | c :: cs, 0 =>
      match insertNode order key value fresh c with
      | (old, c1, sp, fresh1) => (old, c1 :: cs, sp, fresh1)
  | c :: cs, index + 1 =>
      match insertInChild order key value fresh cs index with
      | (old, cs1, sp, fresh1) => (old, c :: cs1, sp, fresh1)

end

/-- BPTree::insert from src/disk/insert.rs: a new root leaf is created
dirty; root growth creates the new internal root dirty; in both cases the
children of the new root were already updated by the split. -/
def BPTree.insert (t : BPTree K V) (key : K) (value : V) :
    Option V × BPTree K V :=
  match t.root with
  | none =>
      let newRoot : Node K V := .leaf t.nextUuid [key] [value] true
      (none, { t with root := some newRoot, len := t.len + 1, nextUuid := t.nextUuid + 1 })
  | some r =>
    match insertNode t.order key value t.nextUuid r with
    | (old, r1, sp, fresh1) =>
      let len1 : Nat := if old.isSome then t.len else t.len + 1
      match sp with
      | none => (old, { t with root := some r1, len := len1, nextUuid := fresh1 })
      | some (split_key, sibling) =>
          let newRoot : Node K V := .internal fresh1 [split_key] [r1, sibling] true
          (old, { t with root := some newRoot, len := len1, nextUuid := fresh1 + 1 })

/-- Removal of a separator and a child from an internal node, the non-root
path of BPTree::remove_entry_internal in src/disk/remove.rs (lines
194-206): the separator is located by binary search — a miss makes the
unwrap of the source panic — and the dropped child (found by pointer
position in the source) is freed with Link::free, which releases memory
and does not touch its backing file. -/
def eraseSeparator (keys : List K) (children : List (Node K V))
    (sepKey : K) (childIdx : Nat) : Except RunErr (List K × List (Node K V)) :=
  match Mem.binarySearch keys sepKey with
  | .error _ => .error .unwrapFailed
  | .ok index => .ok (keys.eraseIdx index, children.eraseIdx childIdx)

/-- Borrow from the left leaf sibling, src/disk/remove.rs lines 59-82 (the
same moves as the Mem model; dirty flags of the touched nodes are not
modified by the source). -/
def tryBorrowLeafLeft (order : Nat) (keys : List K)
    (children : List (Node K V)) (cursor_index : Nat) :
    Except RunErr (Option (List K × List (Node K V))) :=
  if cursor_index > 0 then
    match children[cursor_index]?, children[cursor_index - 1]? with
    | some (.leaf cu ckeys cvalues cd), some (.leaf lu lkeys lvalues ld) =>
      if (Node.leaf lu lkeys lvalues ld : Node K V).has_extra_keys order then
        match lkeys.getLast?, lvalues.getLast? with
        | some max_key, some max_value =>
            let cursor1 : Node K V := .leaf cu (max_key :: ckeys) (max_value :: cvalues) cd
            let left1 : Node K V := .leaf lu lkeys.dropLast lvalues.dropLast ld
            .ok (some (keys.set (cursor_index - 1) max_key,
                  (children.set (cursor_index - 1) left1).set cursor_index cursor1))
        | _, _ => .error .unwrapFailed
      else .ok none
    | _, _ => .ok none
  else .ok none

/-- Borrow from the right leaf sibling, src/disk/remove.rs lines 84-107. -/
def tryBorrowLeafRight (order : Nat) (keys : List K)
    (children : List (Node K V)) (cursor_index : Nat) :
    Except RunErr (Option (List K × List (Node K V))) :=
  match children[cursor_index]?, children[cursor_index + 1]? with
  | some (.leaf cu ckeys cvalues cd), some (.leaf ru rkeys rvalues rd) =>
    if (Node.leaf ru rkeys rvalues rd : Node K V).has_extra_keys order then
      match rkeys, rvalues with
      | min_key :: rkeys1, min_value :: rvalues1 =>
          let cursor1 : Node K V :=
            .leaf cu (ckeys ++ [min_key]) (cvalues ++ [min_value]) cd
          let right1 : Node K V := .leaf ru rkeys1 rvalues1 rd
          match rkeys1 with
          | r0 :: _ =>
              .ok (some (keys.set cursor_index r0,
                    (children.set cursor_index cursor1).set (cursor_index + 1) right1))
          | [] => .error .indexOutOfBounds
      | _, _ => .error .indexOutOfBounds
    else .ok none
  | _, _ => .ok none

/-- Merge into the left leaf sibling, src/disk/remove.rs lines 109-130: the
separator removed from the parent is parent.keys[cursor_index - 1]. -/
def tryMergeLeafLeft (keys : List K) (children : List (Node K V))
    (cursor_index : Nat) : Except RunErr (Option (List K × List (Node K V))) :=
  if cursor_index > 0 then
    match children[cursor_index]?, children[cursor_index - 1]? with
    | some (.leaf _ ckeys cvalues _), some (.leaf lu lkeys lvalues ld) =>
      match keys[cursor_index - 1]? with
      | some sepKey =>
          let left1 : Node K V := .leaf lu (lkeys ++ ckeys) (lvalues ++ cvalues) ld
          (eraseSeparator keys (children.set (cursor_index - 1) left1)
            sepKey cursor_index).map some
      | none => .error .indexOutOfBounds
    | _, _ => .ok none
  else .ok none

/-- Merge of the right leaf sibling, src/disk/remove.rs lines 132-155: the
source fetches the separator to remove as parent.keys[cursor_index + 1]
(line 148) — not the separator between the cursor and the right sibling,
which sits at cursor_index — and panics on the index when cursor_index + 1
equals the parent key count. -/
def tryMergeLeafRight (keys : List K) (children : List (Node K V))
    (cursor_index : Nat) : Except RunErr (Option (List K × List (Node K V))) :=
  match children[cursor_index]?, children[cursor_index + 1]? with
  | some (.leaf cu ckeys cvalues cd), some (.leaf _ rkeys rvalues _) =>
    match keys[cursor_index + 1]? with
    | some sepKey =>
        let cursor1 : Node K V := .leaf cu (ckeys ++ rkeys) (cvalues ++ rvalues) cd
        (eraseSeparator keys (children.set cursor_index cursor1)
          sepKey (cursor_index + 1)).map some
    | none => .error .indexOutOfBounds
  | _, _ => .ok none

/-- Borrow from the left internal sibling, src/disk/remove.rs lines
221-246. -/
def tryBorrowInternalLeft (order : Nat) (keys : List K)
    (children : List (Node K V)) (cursor_index : Nat) :
    Except RunErr (Option (List K × List (Node K V))) :=
  if cursor_index > 0 then
    match children[cursor_index]?, children[cursor_index - 1]? with
    | some (.internal cu ckeys cchildren cd), some (.internal lu lkeys lchildren ld) =>
      if (Node.internal lu lkeys lchildren ld : Node K V).has_extra_keys order then
        match lkeys.getLast?, lchildren.getLast?, keys[cursor_index - 1]? with
        | some max_key, some max_child, some pkey =>
            let cursor1 : Node K V :=
              .internal cu (pkey :: ckeys) (max_child :: cchildren) cd
            let left1 : Node K V := .internal lu lkeys.dropLast lchildren.dropLast ld
            .ok (some (keys.set (cursor_index - 1) max_key,
                  (children.set (cursor_index - 1) left1).set cursor_index cursor1))
        | _, _, _ => .error .unwrapFailed
      else .ok none
    | _, _ => .ok none
  else .ok none

/-- Borrow from the right internal sibling, src/disk/remove.rs lines
248-274. -/
def tryBorrowInternalRight (order : Nat) (keys : List K)
    (children : List (Node K V)) (cursor_index : Nat) :
    Except RunErr (Option (List K × List (Node K V))) :=
  match children[cursor_index]?, children[cursor_index + 1]? with
  | some (.internal cu ckeys cchildren cd), some (.internal ru rkeys rchildren rd) =>
    if (Node.internal ru rkeys rchildren rd : Node K V).has_extra_keys order then
      match rkeys, rchildren, keys[cursor_index]? with
      | min_key :: rkeys1, min_child :: rchildren1, some pkey =>
          let cursor1 : Node K V :=
            .internal cu (ckeys ++ [pkey]) (cchildren ++ [min_child]) cd
          let right1 : Node K V := .internal ru rkeys1 rchildren1 rd
          .ok (some (keys.set cursor_index min_key,
                (children.set cursor_index cursor1).set (cursor_index + 1) right1))
      | _, _, _ => .error .indexOutOfBounds
    else .ok none
  | _, _ => .ok none

/-- Merge into the left internal sibling, src/disk/remove.rs lines
276-313. -/
def tryMergeInternalLeft (keys : List K) (children : List (Node K V))
    (cursor_index : Nat) : Except RunErr (Option (List K × List (Node K V))) :=
  if cursor_index > 0 then
    match children[cursor_index]?, children[cursor_index - 1]? with
    | some (.internal _ ckeys cchildren _), some (.internal lu lkeys lchildren ld) =>
      match keys[cursor_index - 1]? with
      | some pkey =>
          let left1 : Node K V :=
            .internal lu (lkeys ++ pkey :: ckeys) (lchildren ++ cchildren) ld
          (eraseSeparator keys (children.set (cursor_index - 1) left1)
            pkey cursor_index).map some
      | none => .error .indexOutOfBounds
    | _, _ => .ok none
  else .ok none

/-- Merge of the right internal sibling, src/disk/remove.rs lines 315-348:
at the internal level the source correctly removes
parent.keys[cursor_index]. -/
def tryMergeInternalRight (keys : List K) (children : List (Node K V))
    (cursor_index : Nat) : Except RunErr (Option (List K × List (Node K V))) :=
  match children[cursor_index]?, children[cursor_index + 1]? with
  | some (.internal cu ckeys cchildren cd), some (.internal _ rkeys rchildren _) =>
    match keys[cursor_index]? with
    | some pkey =>
        let cursor1 : Node K V :=
          .internal cu (ckeys ++ pkey :: rkeys) (cchildren ++ rchildren) cd
        (eraseSeparator keys (children.set cursor_index cursor1)
          pkey (cursor_index + 1)).map some
    | none => .error .indexOutOfBounds
  | _, _ => .ok none

/-- Four-way rebalance of the underfull child at cursor_index, in the
source order of src/disk/remove.rs. -/
def rebalanceChild (order : Nat) (keys : List K) (children : List (Node K V))
    (cursor_index : Nat) :
    Except RunErr (List K × List (Node K V) × Bool) :=
  match children[cursor_index]? with
  | some (.leaf _ _ _ _) => do
    match ← tryBorrowLeafLeft order keys children cursor_index with
    | some (k1, c1) => return (k1, c1, false)
    | none =>
    match ← tryBorrowLeafRight order keys children cursor_index with
    | some (k1, c1) => return (k1, c1, false)
    | none =>
    match ← tryMergeLeafLeft keys children cursor_index with
    | some (k1, c1) => return (k1, c1, true)
    | none =>
    match ← tryMergeLeafRight keys children cursor_index with
    | some (k1, c1) => return (k1, c1, true)
    | none => return (keys, children, false)
  | some (.internal _ _ _ _) => do
    match ← tryBorrowInternalLeft order keys children cursor_index with
    | some (k1, c1) => return (k1, c1, false)
    | none =>
    match ← tryBorrowInternalRight order keys children cursor_index with
    | some (k1, c1) => return (k1, c1, false)
    | none =>
    match ← tryMergeInternalLeft keys children cursor_index with
    | some (k1, c1) => return (k1, c1, true)
    | none =>
    match ← tryMergeInternalRight keys children cursor_index with
    | some (k1, c1) => return (k1, c1, true)
    | none => return (keys, children, false)
  | none => return (keys, children, false)

mutual

/-- Recursive core of BPTree::remove_entry from src/disk/remove.rs, as in
the Mem model but with the panics of the source surfaced as RunErr. -/
def removeNode (order : Nat) (key : K) :
    Node K V → Except RunErr (Option ((K × V) × Node K V × Bool))
  | .leaf uuid keys values dirty =>
    match Mem.binarySearch keys key with
    | .error _ => .ok none
    | .ok index =>
      match keys[index]?, values[index]? with
      | some k, some v =>
          .ok (some ((k, v),
            .leaf uuid (keys.eraseIdx index) (values.eraseIdx index) dirty, true))
      | _, _ => .error .indexOutOfBounds
  | .internal uuid keys children dirty =>
    match removeInChild order key children (Mem.descentIndex keys key) with
    | .error e => .error e
    | .ok none => .ok none
    | .ok (some ((k, v), children1, shrank)) =>
      match children1[Mem.descentIndex keys key]? with
      | none => .ok (some ((k, v), .internal uuid keys children1 dirty, false))
      | some c1 =>
        if shrank ∧ c1.is_underfull order then
          match rebalanceChild order keys children1 (Mem.descentIndex keys key) with
          | .error e => .error e
          | .ok (keys1, children2, sh) =>
              .ok (some ((k, v), .internal uuid keys1 children2 dirty, sh))
        else .ok (some ((k, v), .internal uuid keys children1 dirty, false))

/-- Recursive removal from children[index] (an out-of-range descent index
panics in the source). -/
def removeInChild (order : Nat) (key : K) :
    List (Node K V) → Nat → Except RunErr (Option ((K × V) × List (Node K V) × Bool))
  | [], _ => .error .indexOutOfBounds
  | c :: cs, 0 =>
      match removeNode order key c with
      | .error e => .error e
      | .ok none => .ok none
      | .ok (some (kv, c1, sh)) => .ok (some (kv, c1 :: cs, sh))
  | c :: cs, index + 1 =>
      match removeInChild order key cs index with
      | .error e => .error e
      | .ok none => .ok none
      | .ok (some (kv, cs1, sh)) => .ok (some (kv, c :: cs1, sh))

end

/-- BPTree::remove_entry from src/disk/remove.rs: absent on an empty tree,
root cleanup and root shrink as in the Mem model (both free the dropped
nodes with Link::free, leaving their backing files in place). -/
def BPTree.remove_entry (t : BPTree K V) (key : K) :
    Except RunErr (Option (K × V) × BPTree K V) :=
  match t.root with
  | none => .ok (none, t)
  | some r =>
    match removeNode t.order key r with
    | .error e => .error e
    | .ok none => .ok (none, t)
    | .ok (some ((k, v), r1, _)) =>
      let root1 : Option (Node K V) :=
        match r1 with
        | .leaf _ [] _ _ => none
        | .internal _ [] (c :: _) _ => some c
        | n => some n
      .ok (some (k, v), { t with root := root1, len := t.len - 1 })

/-- BPTree::remove from src/disk/remove.rs. -/
def BPTree.remove (t : BPTree K V) (key : K) :
    Except RunErr (Option V × BPTree K V) :=
  (t.remove_entry key).map (fun r => (r.1.map (fun p => p.2), r.2))

/-- Files of the tree directory: the three metadata files root, order and
len, and one file per persisted node named by its identity. -/
inductive FileName where
  | rootMeta
  | orderMeta
  | lenMeta
  | node (uuid : Nat)
deriving DecidableEq, Repr

/-- Filesystem operations performed by the persistence code, in order. -/
inductive FsEvent where
  | createDirAll
  | write (f : FileName)
  | removeFile (f : FileName)
deriving DecidableEq, Repr

/-- Effect of one filesystem operation on the set of present files. -/
def applyEvent (fs : List FileName) : FsEvent → List FileName
  | .createDirAll => fs
  | .write f => if f ∈ fs then fs else fs ++ [f]
  | .removeFile f => fs.erase f

/-- Effect of a sequence of filesystem operations. -/
def applyEvents (fs : List FileName) (events : List FsEvent) : List FileName :=
  events.foldl applyEvent fs

/-- NodeRef::reclaim and Link::reclaim from src/disk/node.rs (lines 29-35
and 128-143): remove the backing file named by the node identity; the
Result of fs::remove_file is discarded, so a missing file is ignored and
the operation always succeeds. -/
def reclaim (uuid : Nat) (fs : List FileName) : List FileName × Option Error :=
  (fs.erase (FileName.node uuid), none)

/-- BPTree::remove_entry together with the filesystem image.  The body of
src/disk/remove.rs touches the filesystem only through access and
access_mut — reads that fault missing nodes in; with every node resident
they read nothing — and drops structurally deleted nodes with Link::free,
which only releases memory (src/disk/node.rs lines 23-27).  No code path
of remove writes or removes a file, so the image passes through unchanged;
Link::reclaim is never called by remove. -/
def BPTree.remove_entryFs (t : BPTree K V) (key : K) (fs : List FileName) :
    Except RunErr ((Option (K × V) × BPTree K V) × List FileName) :=
  (t.remove_entry key).map (fun r => (r, fs))

/-- BPTree::persist_metadata from src/disk/persist.rs (lines 50-78):
create the directory, then write each metadata file whose dirty flag is
set, clearing the flag. -/
def BPTree.persist_metadata (t : BPTree K V) : BPTree K V × List FsEvent :=
  let e0 : List FsEvent := [.createDirAll]
  let p1 : BPTree K V × List FsEvent :=
    if t.root_is_dirty then ({ t with root_is_dirty := false }, e0 ++ [.write .rootMeta])
    else (t, e0)
  let p2 : BPTree K V × List FsEvent :=
    if p1.1.order_is_dirty then
      ({ p1.1 with order_is_dirty := false }, p1.2 ++ [.write .orderMeta])
    else p1
  if p2.1.len_is_dirty then
    ({ p2.1 with len_is_dirty := false }, p2.2 ++ [.write .lenMeta])
  else p2

/-- Modelled from the spec: Node::persist, the single-node write helper
called by persist_recursive and persist_key, is declared on the node type
whose defining file is not among the sources; per spec section 4.8 it
writes the file {directory}/{identity} for the node and clears the node
dirty flag (children are serialized as identities only and are not
visited). -/
def Node.persist : Node K V → Node K V × FsEvent
  | .internal uuid keys children _ => (.internal uuid keys children false, .write (.node uuid))
  | .leaf uuid keys values _ => (.leaf uuid keys values false, .write (.node uuid))

mutual

/-- BPTree::persist_recursive from src/disk/persist.rs (lines 80-101):
depth-first, children before the node itself, writing each resident node
whose dirty flag is set. -/
def persist_recursive : Node K V → Node K V × List FsEvent
  | .internal uuid keys children dirty =>
      let p := persistChildren children
      if dirty then
        match (Node.internal uuid keys p.1 dirty : Node K V).persist with
        | (n1, e) => (n1, p.2 ++ [e])
      else (.internal uuid keys p.1 dirty, p.2)
  | .leaf uuid keys values dirty =>
      if dirty then
        match (Node.leaf uuid keys values dirty : Node K V).persist with
        | (n1, e) => (n1, [e])
      else (.leaf uuid keys values dirty, [])

/-- persist_recursive over a child list, left to right. -/
def persistChildren : List (Node K V) → List (Node K V) × List FsEvent
  | [] => ([], [])
  | c :: cs =>
      let p := persist_recursive c
      let q := persistChildren cs
      (p.1 :: q.1, p.2 ++ q.2)

end

/-- BPTree::persist from src/disk/persist.rs (lines 103-116): when the
tree has no root the call returns Ok immediately, before any filesystem
access — no directory is created, no metadata is written and no dirty
flag changes; otherwise the metadata step runs first and the tree is then
flushed depth-first. -/
def BPTree.persist (t : BPTree K V) : BPTree K V × List FsEvent :=
  match t.root with
  | none => (t, [])
  | some root =>
    let p := t.persist_metadata
    let q := persist_recursive root
    ({ p.1 with root := some q.1 }, p.2 ++ q.2)

mutual

/-- Descent loop of BPTree::persist_key from src/disk/persist.rs (lines
129-157): at an internal node compute the descent index, write the node if
dirty (clearing its flag), and continue with the child; at the leaf fail
with UnknownKey when the key is absent — before any write of the leaf —
and otherwise write the leaf if dirty.  An out-of-range descent index
would panic in the source (inl); the failure of the claim is inr. -/
def persist_key_walk (key : K) : Node K V → Node K V × List FsEvent × Option (RunErr ⊕ Error)
  | .internal uuid keys children dirty =>
      let selfEvents : List FsEvent := if dirty then [.write (.node uuid)] else []
      match persistKeyChild key children (Mem.descentIndex keys key) with
      | (children1, e1, err) =>
          (.internal uuid keys children1 false, selfEvents ++ e1, err)
  | .leaf uuid keys values dirty =>
      match Mem.binarySearch keys key with
      | .error _ => (.leaf uuid keys values dirty, [], some (.inr .UnknownKey))
      | .ok _ =>
          if dirty then (.leaf uuid keys values false, [.write (.node uuid)], none)
          else (.leaf uuid keys values dirty, [], none)

/-- Continuation of the persist_key descent into children[index]. -/
def persistKeyChild (key : K) :
    List (Node K V) → Nat → List (Node K V) × List FsEvent × Option (RunErr ⊕ Error)
  | [], _ => ([], [], some (.inl .indexOutOfBounds))
  | c :: cs, 0 =>
      match persist_key_walk key c with
      | (c1, e, err) => (c1 :: cs, e, err)
  | c :: cs, index + 1 =>
      match persistKeyChild key cs index with
      | (cs1, e, err) => (c :: cs1, e, err)

end

/-- BPTree::persist_key from src/disk/persist.rs (lines 118-160): fail
with UnknownKey on a tree without a root (before the metadata step), else
write the dirty metadata first and then walk the search path for the key,
writing dirty nodes on the way down. -/
def BPTree.persist_key (t : BPTree K V) (key : K) :
    BPTree K V × List FsEvent × Option (RunErr ⊕ Error) :=
  match t.root with
  | none => (t, [], some (.inr .UnknownKey))
  | some root =>
    let p := t.persist_metadata
    match persist_key_walk key root with
    | (root1, e2, err) => ({ p.1 with root := some root1 }, p.2 ++ e2, err)

end Disk

namespace MemHeap

variable {K V : Type} [LinearOrder K]

/-- Heap node of the in-memory backend with the pointers of
src/mem/node.rs explicit: a NonNull pointer is an index into the store,
parent and next_leaf are optional indices. -/
inductive HNode (K V : Type) where
  | internal (keys : List K) (children : List Nat) (parent : Option Nat)
  | leaf (keys : List K) (values : List V) (parent : Option Nat) (next_leaf : Option Nat)
deriving Repr

/-- BPTreeMap of src/mem/mod.rs over an explicit store: Box::into_raw is
modelled by appending to the store, so established pointers never move;
the insert paths never free nodes. -/
structure HTree (K V : Type) where
  store : List (HNode K V)
  root : Option Nat
  order : Nat
  len : Nat
deriving Repr

/-- BPTreeMap::with_order. -/
def HTree.with_order (order : Nat) : HTree K V :=
  { store := [], root := none, order := order, len := 0 }

/-- BPTreeMap::new with DEFAULT_ORDER = 3. -/
def HTree.new : HTree K V := HTree.with_order 3

/-- Store update through a pointer. -/
def putNode (t : HTree K V) (p : Nat) (n : HNode K V) : HTree K V :=
  { t with store := t.store.set p n }

/-- Parent-pointer update of the node at p. -/
def setParentAt (t : HTree K V) (p : Nat) (parent : Option Nat) : HTree K V :=
  match t.store[p]? with
  | some (.internal keys children _) => putNode t p (.internal keys children parent)
  | some (.leaf keys values _ next_leaf) => putNode t p (.leaf keys values parent next_leaf)
  | none => t

/-- Parent-pointer update of every node of a list (the fix-up loop over
the sibling children in src/mem/insert.rs lines 146-158). -/
def reparentAll (t : HTree K V) (ps : List Nat) (parent : Option Nat) : HTree K V :=
  ps.foldl (fun t p => setParentAt t p parent) t

/-- Descent loop of BPTreeMap::insert (src/mem/insert.rs lines 29-35):
follow descentIndex while the cursor is internal.  The fuel is the store
size, a bound on the length of any simple pointer path. -/
def descend (t : HTree K V) (key : K) : Nat → Nat → Nat
  | 0, cursor => cursor
  | fuel + 1, cursor =>
    match t.store[cursor]? with
    | some (.internal keys children _) =>
        match children[Mem.descentIndex keys key]? with
        | some c => descend t key fuel c
        | none => cursor
    | _ => cursor

/-- BPTreeMap::insert_internal from src/mem/insert.rs (lines 111-181):
insert the promoted key and the new child into the cursor node, split on
overflow, fix the parent pointers of the children moved to the sibling,
grow the root or recurse into the parent.  The fuel bounds the ascent. -/
def insert_internal (t : HTree K V) (key : K) (cursor : Nat) (child : Nat) :
    Nat → HTree K V
  | 0 => t
  | fuel + 1 =>
    match t.store[cursor]? with
    | some (.internal keys children parent) =>
      let index := Mem.descentIndex keys key
      let keys1 := keys.insertIdx index key
      let children1 := children.insertIdx (index + 1) child
      if ¬ (keys1.length > t.order) then
        putNode t cursor (.internal keys1 children1 parent)
      else
        let split_index := keys1.length / 2
        match keys1[split_index]? with
        | none => putNode t cursor (.internal keys1 children1 parent)
        | some split_key =>
          let sibling_keys := keys1.drop (split_index + 1)
          let sibling_children := children1.drop (split_index + 1)
          let siblingPtr := t.store.length
          let t1 := putNode t cursor
            (.internal (keys1.take split_index) (children1.take (split_index + 1)) parent)
          let t2 := { t1 with store := t1.store ++ [.internal sibling_keys sibling_children parent] }
          -- fix up the parent for the sibling children
          let t3 := reparentAll t2 sibling_children (some siblingPtr)
          if t.root = some cursor then
            let newRootPtr := t3.store.length
            let t4 := { t3 with store := t3.store ++ [.internal [split_key] [cursor, siblingPtr] none] }
            let t5 := setParentAt t4 siblingPtr (some newRootPtr)
            let t6 := setParentAt t5 cursor (some newRootPtr)
            { t6 with root := some newRootPtr }
          else
            match parent with
            | some parentPtr => insert_internal t3 split_key parentPtr siblingPtr fuel
            | none => t3
    | _ => t

/-- BPTreeMap::insert from src/mem/insert.rs (lines 8-107) over the
explicit store: create the root leaf, or descend, swap or insert in the
leaf, split on overflow linking node.next_leaf to the new sibling, and
grow the root (setting both children's parent to it) or propagate into the
parent. -/
def HTree.insert (t : HTree K V) (key : K) (value : V) : Option V × HTree K V :=
  match t.root with
  | none =>
      let t1 := { t with store := t.store ++ [(.leaf [key] [value] none none : HNode K V)] }
      (none, { t1 with root := some t.store.length, len := t.len + 1 })
  | some rootPtr =>
    let cursor := descend t key t.store.length rootPtr
    match t.store[cursor]? with
    | some (.leaf keys values parent next_leaf) =>
      match Mem.binarySearch keys key with
      | .ok index =>
          (values[index]?, putNode t cursor (.leaf keys (values.set index value) parent next_leaf))
      | .error index =>
        let keys1 := keys.insertIdx index key
        let values1 := values.insertIdx index value
        let t1 := { t with len := t.len + 1 }
        if ¬ (keys1.length > t.order) then
          (none, putNode t1 cursor (.leaf keys1 values1 parent next_leaf))
        else
          let split_index := keys1.length / 2
          match keys1.drop split_index with
          | [] => (none, putNode t1 cursor (.leaf keys1 values1 parent next_leaf))
          | split_key :: _ =>
            let siblingPtr := t1.store.length
            -- connect to the sibling: node.next_leaf = Some(sibling)
            let t2 := putNode t1 cursor
              (.leaf (keys1.take split_index) (values1.take split_index) parent (some siblingPtr))
            -- the sibling inherits the parent and next-leaf of the node
            let t3 := { t2 with store := t2.store ++ [.leaf (keys1.drop split_index) (values1.drop split_index) parent next_leaf] }
            if t.root = some cursor then
              let newRootPtr := t3.store.length
              let t4 := { t3 with store := t3.store ++ [.internal [split_key] [cursor, siblingPtr] none] }
              -- connect the cursor and the sibling to the new root
              let t5 := setParentAt t4 cursor (some newRootPtr)
              let t6 := setParentAt t5 siblingPtr (some newRootPtr)
              (none, { t6 with root := some newRootPtr })
            else
              match parent with
              | some parentPtr =>
                  (none, insert_internal t3 split_key parentPtr siblingPtr t3.store.length)
              | none => (none, t3)
    | _ => (none, t)

/-- Walk of BPTreeMap::iter to the leftmost leaf (src/mem/iter.rs lines
8-34): take children[0] repeatedly from the root. -/
def leftmost (t : HTree K V) : Nat → Nat → Nat
  | 0, cursor => cursor
  | fuel + 1, cursor =>
    match t.store[cursor]? with
    | some (.internal _ children _) =>
        match children[0]? with
        | some c => leftmost t fuel c
        | none => cursor
    | _ => cursor

/-- Iter::next from src/mem/iter.rs (lines 93-124), iterated: while the
remaining length is positive and a cursor remains, yield the entry at the
index in the current leaf, advancing to next_leaf past the last index. -/
def iterFrom (t : HTree K V) : Option Nat → Nat → Nat → List (K × V)
  | _, _, 0 => []
  | none, _, _ + 1 => []
  | some p, index, len + 1 =>
    match t.store[p]? with
    | some (.leaf keys values _ next_leaf) =>
      match keys[index]?, values[index]? with
      | some k, some v =>
          if index + 1 ≥ keys.length then (k, v) :: iterFrom t next_leaf 0 len
          else (k, v) :: iterFrom t (some p) (index + 1) len
      | _, _ => []
    | _ => []

/-- BPTreeMap::iter: start at the leftmost leaf with index 0 and the
tree's count, then drain the iterator. -/
def HTree.iterList (t : HTree K V) : List (K × V) :=
  match t.root with
  | none => []
  | some rootPtr => iterFrom t (some (leftmost t t.store.length rootPtr)) 0 t.len

end MemHeap

namespace OldDisk

variable {K V : Type} [LinearOrder K]

/-- Node of the older disk variant kept in src/disk/mod.rs (its node.rs
has no dirty flag): identity, keys, children or values, parent and
next_leaf pointers (indices into the store, the Box addresses of the
source). -/
inductive HNode (K V : Type) where
  | internal (uuid : Nat) (keys : List K) (children : List Nat) (parent : Option Nat)
  | leaf (uuid : Nat) (keys : List K) (values : List V) (parent : Option Nat) (next_leaf : Option Nat)
deriving Repr

/-- BPTree of src/disk/mod.rs (lines 19-24) over an explicit store;
nextUuid models Uuid::new_v4. -/
structure HTree (K V : Type) where
  store : List (HNode K V)
  root : Option Nat
  order : Nat
  len : Nat
  nextUuid : Nat
deriving Repr

/-- BPTree::with_order from src/disk/mod.rs. -/
def HTree.with_order (order : Nat) : HTree K V :=
  { store := [], root := none, order := order, len := 0, nextUuid := 0 }

/-- BPTree::new with DEFAULT_ORDER = 3. -/
def HTree.new : HTree K V := HTree.with_order 3

/-- Store update through a pointer. -/
def putNode (t : HTree K V) (p : Nat) (n : HNode K V) : HTree K V :=
  { t with store := t.store.set p n }

/-- Parent-pointer update of the node at p. -/
def setParentAt (t : HTree K V) (p : Nat) (parent : Option Nat) : HTree K V :=
  match t.store[p]? with
  | some (.internal uuid keys children _) => putNode t p (.internal uuid keys children parent)
  | some (.leaf uuid keys values _ next_leaf) => putNode t p (.leaf uuid keys values parent next_leaf)
  | none => t

/-- Parent-pointer update of every node of a list (src/disk/mod.rs lines
277-289). -/
def reparentAll (t : HTree K V) (ps : List Nat) (parent : Option Nat) : HTree K V :=
  ps.foldl (fun t p => setParentAt t p parent) t

/-- Descent loop of BPTree::insert (src/disk/mod.rs lines 149-158). -/
def descend (t : HTree K V) (key : K) : Nat → Nat → Nat
  | 0, cursor => cursor
  | fuel + 1, cursor =>
    match t.store[cursor]? with
    | some (.internal _ keys children _) =>
        match children[Mem.descentIndex keys key]? with
        | some c => descend t key fuel c
        | none => cursor
    | _ => cursor

/-- BPTree::insert_internal from src/disk/mod.rs (lines 235-316); in this
internal-split path the root-growth branch connects the sibling and the
node correctly (lines 302-307). -/
def insert_internal (t : HTree K V) (key : K) (cursor : Nat) (child : Nat) :
    Nat → HTree K V
  | 0 => t
  | fuel + 1 =>
    match t.store[cursor]? with
    | some (.internal uuid keys children parent) =>
      let index := Mem.descentIndex keys key
      let keys1 := keys.insertIdx index key
      let children1 := children.insertIdx (index + 1) child
      if ¬ (keys1.length > t.order) then
        putNode t cursor (.internal uuid keys1 children1 parent)
      else
        let split_index := keys1.length / 2
        match keys1[split_index]? with
        | none => putNode t cursor (.internal uuid keys1 children1 parent)
        | some split_key =>
          let sibling_keys := keys1.drop (split_index + 1)
          let sibling_children := children1.drop (split_index + 1)
          let siblingPtr := t.store.length
          let t1 := putNode t cursor
            (.internal uuid (keys1.take split_index) (children1.take (split_index + 1)) parent)
          let t2 := { t1 with store := t1.store ++ [.internal t.nextUuid sibling_keys sibling_children parent], nextUuid := t.nextUuid + 1 }
          let t3 := reparentAll t2 sibling_children (some siblingPtr)
          if t.root = some cursor then
            let newRootPtr := t3.store.length
            let t4 := { t3 with store := t3.store ++ [.internal t3.nextUuid [split_key] [cursor, siblingPtr] none], nextUuid := t3.nextUuid + 1 }
            let t5 := setParentAt t4 siblingPtr (some newRootPtr)
            let t6 := setParentAt t5 cursor (some newRootPtr)
            { t6 with root := some newRootPtr }
          else
            match parent with
            | some parentPtr => insert_internal t3 split_key parentPtr siblingPtr fuel
            | none => t3
    | _ => t

/-- BPTree::insert from src/disk/mod.rs (lines 128-233).  In the
root-growth branch after a leaf split (lines 200-222) the source accesses
the cursor twice: both parent-connection blocks dereference cursor (lines
212 and 217), the second merely binding it under the name sibling, so the
cursor's parent is set to the new root twice and the parent of the freshly
created sibling leaf is never updated (it keeps the old root's parent,
which is None).  The transcription reproduces those two cursor updates. -/
def HTree.insert (t : HTree K V) (key : K) (value : V) : Option V × HTree K V :=
  match t.root with
  | none =>
      let t1 := { t with store := t.store ++ [(.leaf t.nextUuid [key] [value] none none : HNode K V)], nextUuid := t.nextUuid + 1 }
      (none, { t1 with root := some t.store.length, len := t.len + 1 })
  | some rootPtr =>
    let cursor := descend t key t.store.length rootPtr
    match t.store[cursor]? with
    | some (.leaf uuid keys values parent next_leaf) =>
      match Mem.binarySearch keys key with
      | .ok index =>
          (values[index]?, putNode t cursor (.leaf uuid keys (values.set index value) parent next_leaf))
      | .error index =>
        let keys1 := keys.insertIdx index key
        let values1 := values.insertIdx index value
        let t1 := { t with len := t.len + 1 }
        if ¬ (keys1.length > t.order) then
          (none, putNode t1 cursor (.leaf uuid keys1 values1 parent next_leaf))
        else
          let split_index := keys1.length / 2
          match keys1.drop split_index with
          | [] => (none, putNode t1 cursor (.leaf uuid keys1 values1 parent next_leaf))
          | split_key :: _ =>
            let siblingPtr := t1.store.length
            let t2 := putNode t1 cursor
              (.leaf uuid (keys1.take split_index) (values1.take split_index) parent (some siblingPtr))
            let t3 := { t2 with store := t2.store ++ [.leaf t1.nextUuid (keys1.drop split_index) (values1.drop split_index) parent next_leaf], nextUuid := t1.nextUuid + 1 }
            if t.root = some cursor then
              let newRootPtr := t3.store.length
              let t4 := { t3 with store := t3.store ++ [.internal t3.nextUuid [split_key] [cursor, siblingPtr] none], nextUuid := t3.nextUuid + 1 }
              -- connect the cursor to the new root (line 212, accesses cursor)
              let t5 := setParentAt t4 cursor (some newRootPtr)
              -- connect the sibling to the new root (line 217, which also
              -- accesses cursor, so the cursor is reconnected instead)
              let t6 := setParentAt t5 cursor (some newRootPtr)
              (none, { t6 with root := some newRootPtr })
            else
              match parent with
              | some parentPtr =>
                  (none, insert_internal t3 split_key parentPtr siblingPtr t3.store.length)
              | none => (none, t3)
    | _ => (none, t)

/-- Parent pointer of the node at address p. -/
def HTree.parentOf (t : HTree K V) (p : Nat) : Option (Option Nat) :=
  match t.store[p]? with
  | some (.internal _ _ _ parent) => some parent
  | some (.leaf _ _ _ parent _) => some parent
  | none => none

end OldDisk

namespace Mem

variable {K V : Type} [LinearOrder K]

/-- Prefix form of ChildrenWf: the children are aligned one to one with
the separator keys, child i living on the interval from the previous
separator (or lo) up to separator i. -/
def ChildrenPre (P : Option K → Option K → Node K V → Prop) :
    Option K → List K → List (Node K V) → Prop
  | _, [], [] => True
  | lo, k :: ks, c :: cs => P lo (some k) c ∧ ChildrenPre P (some k) ks cs
  | _, _, _ => False

/-- Lower bound that a child list chained through the keys ks ends with:
the last key, or lo when there are no keys. -/
def chainLow (lo : Option K) (ks : List K) : Option K :=
  match ks.getLast? with
  | some k => some k
  | none => lo

/-- Upper bound of the first child of a chain: the first separator key, or
the upper bound of the whole node when there are no separators. -/
def headHigh (hi : Option K) : List K → Option K
  | [] => hi
  | k :: _ => some k

/-- Full specification of one insertNode call on a node that is well
formed at depth d in role role on the interval [lo, hi): when the key was
present its old value is returned, the value is swapped in place and no
split occurs; when it was absent the entry list splits as E1 < key < E2,
and either no split is reported and the node absorbs the new entry, or a
split is reported and the two returned halves are well formed children on
the subintervals cut by the strictly interior promoted separator, their
entry lists concatenating to the inserted list. -/
def InsertSpec (m d : Nat) (role : TopRole) (lo hi : Option K)
    (key : K) (value : V) (n : Node K V) : Prop :=
  match insertNode m key value n with
  | (some v0, n1, sp) =>
      sp = none ∧ NodeWf m d role lo hi n1 ∧
      ∃ E1 E2, n.entries = E1 ++ (key, v0) :: E2 ∧
        n1.entries = E1 ++ (key, value) :: E2
  | (none, n1, sp) =>
      ∃ E1 E2, n.entries = E1 ++ E2 ∧
        (∀ p ∈ E1, p.1 < key) ∧ (∀ p ∈ E2, key < p.1) ∧
        match sp with
        | none => NodeWf m d role lo hi n1 ∧
            n1.entries = E1 ++ (key, value) :: E2
        | some (sk, sib) =>
            NodeWf m d .child lo (some sk) n1 ∧
            NodeWf m d .child (some sk) hi sib ∧
            lowLt lo sk ∧ highOk hi sk ∧
            n1.entries ++ sib.entries = E1 ++ (key, value) :: E2

/-- Full specification of one removeNode call on a node that is well
formed at depth d in role role on the interval [lo, hi): the call reports
none exactly when the key is absent; otherwise the removed pair carries the
key, the entry list loses exactly that entry, and the node stays well
formed — in its original role when it kept its key count, and in the
weakened shrunk role with exactly one key fewer when the removal consumed
one of its keys (the caller then rebalances it if it underflowed). -/
def RemoveSpec (m d : Nat) (role : TopRole) (lo hi : Option K)
    (key : K) (n : Node K V) : Prop :=
  match removeNode m key n with
  | none => ∀ p ∈ n.entries, p.1 ≠ key
  | some ((k, v), n1, sh) =>
      k = key ∧
      (∃ E1 E2, n.entries = E1 ++ (key, v) :: E2 ∧
        (∀ p ∈ E1, p.1 < key) ∧ (∀ p ∈ E2, key < p.1) ∧ n1.entries = E1 ++ E2) ∧
      (if sh then NodeWf m d .shrunk lo hi n1 ∧ n1.keyCount + 1 = n.keyCount
       else NodeWf m d role lo hi n1)

/-- What a successful rebalance of an underfull child leaves behind in the
parent: sorted separators within the parent interval, shLen separators
consumed (0 for a borrow, 1 for a merge), a fully well-formed child chain
and the same entries in the same order. -/
def RebalancedParent (m d : Nat) (lo hi : Option K) (keys0 : List K)
    (children0 : List (Node K V)) (shLen : Nat) (keys1 : List K)
    (children1 : List (Node K V)) : Prop :=
  keysSorted keys1 ∧ (∀ k ∈ keys1, lowLt lo k ∧ highOk hi k) ∧
  keys1.length + shLen = keys0.length ∧
  ChildrenWf (NodeWf m d .child) lo hi keys1 children1 ∧
  entriesOfList children1 = entriesOfList children0

end Mem

namespace Disk

variable {K V : Type} [LinearOrder K]

mutual

/-- Search path for a key, as the specification words it (section 4.3): the
chain of nodes visited by the descent, each internal node followed by the
child at its descent index; the path ends at a leaf, or early at a missing
child.  This is the spec-side description that the persist_key walk is
compared against. -/
def searchPath (key : K) : Node K V → List (Node K V)
  | .leaf uuid keys values dirty => [.leaf uuid keys values dirty]
  | .internal uuid keys children dirty =>
      .internal uuid keys children dirty ::
        searchPathChild key children (Mem.descentIndex keys key)

/-- Continuation of the search path into children[index]. -/
def searchPathChild (key : K) : List (Node K V) → Nat → List (Node K V)
  | [], _ => []
  | c :: _, 0 => searchPath key c
  | _ :: cs, index + 1 => searchPathChild key cs index

end

/-- The filesystem writes of the metadata step as the specification words
it: create the directory, then write each metadata file whose dirty flag
is set, in the order root, order, len. -/
def metadataWrites (t : BPTree K V) : List FsEvent :=
  [.createDirAll] ++
  (if t.root_is_dirty then [FsEvent.write .rootMeta] else []) ++
  (if t.order_is_dirty then [FsEvent.write .orderMeta] else []) ++
  (if t.len_is_dirty then [FsEvent.write .lenMeta] else [])

end Disk

/-!
Theorems.  The development first establishes a toolkit over the sorted-key
and interval structure, then the preservation and contract lemmas for the
Mem model, and finally the claim theorems.
-/

namespace Mem

variable {K V : Type} [LinearOrder K]


theorem keysSorted_iff_pairwise (ks : List K) :
    keysSorted ks ↔ ks.Pairwise (· < ·) := by
  induction ks with
  | nil => simp [keysSorted]
  | cons a tl ih =>
    cases tl with
    | nil => simp [keysSorted]
    | cons b rest =>
      constructor
      · intro h
        obtain ⟨hab, htail⟩ := h
        have hp := ih.1 htail
        rw [List.pairwise_cons]
        refine ⟨?_, hp⟩
        intro x hx
        rcases List.mem_cons.1 hx with rfl | hx
        · exact hab
        · rw [List.pairwise_cons] at hp
          exact lt_trans hab (hp.1 x hx)
      · intro h
        rw [List.pairwise_cons] at h
        exact ⟨h.1 b (by simp), ih.2 h.2⟩

omit [LinearOrder K] in
theorem eraseIdx_at_append {α : Type} (l r : List α) (a : α) :
    (l ++ a :: r).eraseIdx l.length = l ++ r := by
  induction l with
  | nil => rfl
  | cons x xs ih => simpa [List.eraseIdx_cons_succ] using ih

omit [LinearOrder K] in
theorem set_at_append {α : Type} (l r : List α) (a b : α) :
    (l ++ a :: r).set l.length b = l ++ b :: r := by
  induction l with
  | nil => rfl
  | cons x xs ih => simpa using ih

omit [LinearOrder K] in
theorem getElem?_at_append {α : Type} (l r : List α) (a : α) :
    (l ++ a :: r)[l.length]? = some a := by
  induction l with
  | nil => simp
  | cons x xs ih => simpa using ih

omit [LinearOrder K] in
theorem insertIdx_at_append {α : Type} (l r : List α) (a : α) :
    (l ++ r).insertIdx l.length a = l ++ a :: r := by
  induction l with
  | nil => rfl
  | cons x xs ih => simpa [List.insertIdx_succ_cons] using ih

theorem binarySearch_of_found (l r : List K) (key : K)
    (hl : ∀ x ∈ l, x < key) (hr : ∀ x ∈ r, key < x) :
    binarySearch (l ++ key :: r) key = .ok l.length := by
  have hmem : key ∈ l ++ key :: r := by simp
  have h1 : l.countP (fun x => decide (x < key)) = l.length :=
    List.countP_eq_length.2 (fun x hx => by simpa using hl x hx)
  have h2 : r.countP (fun x => decide (x < key)) = 0 :=
    List.countP_eq_zero.2 (fun x hx => by simpa using not_lt_of_gt (hr x hx))
  simp [binarySearch, hmem, List.countP_append, List.countP_cons, h1, h2]

theorem binarySearch_of_not_found (l r : List K) (key : K)
    (hl : ∀ x ∈ l, x < key) (hr : ∀ x ∈ r, key < x) :
    binarySearch (l ++ r) key = .error l.length := by
  have hmem : key ∉ l ++ r := by
    intro h
    rcases List.mem_append.1 h with h | h
    · exact absurd (hl _ h) (lt_irrefl key)
    · exact absurd (hr _ h) (lt_irrefl key)
  have h1 : l.countP (fun x => decide (x < key)) = l.length :=
    List.countP_eq_length.2 (fun x hx => by simpa using hl x hx)
  have h2 : r.countP (fun x => decide (x < key)) = 0 :=
    List.countP_eq_zero.2 (fun x hx => by simpa using not_lt_of_gt (hr x hx))
  simp [binarySearch, hmem, List.countP_append, h1, h2]

theorem sorted_mem_decomp {ks : List K} {key : K}
    (hs : ks.Pairwise (· < ·)) (hk : key ∈ ks) :
    ∃ l r, ks = l ++ key :: r ∧ (∀ x ∈ l, x < key) ∧ (∀ x ∈ r, key < x) := by
  obtain ⟨l, r, rfl⟩ := List.append_of_mem hk
  rw [List.pairwise_append] at hs
  refine ⟨l, r, rfl, ?_, ?_⟩
  · exact fun x hx => hs.2.2 x hx key (by simp)
  · exact (List.pairwise_cons.1 hs.2.1).1

theorem sorted_not_mem_decomp {ks : List K} {key : K}
    (hs : ks.Pairwise (· < ·)) (hk : key ∉ ks) :
    ∃ l r, ks = l ++ r ∧ (∀ x ∈ l, x < key) ∧ (∀ x ∈ r, key < x) := by
  refine ⟨ks.takeWhile (fun x => decide (x < key)),
          ks.dropWhile (fun x => decide (x < key)),
          (List.takeWhile_append_dropWhile _ _).symm, ?_, ?_⟩
  · intro x hx
    simpa using List.mem_takeWhile_imp hx
  · intro x hx
    have hd := (List.dropWhile_sublist (l := ks) (p := fun x => decide (x < key)))
    have hxks : x ∈ ks := hd.mem hx
    have hxne : x ≠ key := fun h => hk (h ▸ hxks)
    rcases heq : ks.dropWhile (fun x => decide (x < key)) with _ | ⟨h0, t⟩
    · rw [heq] at hx; cases hx
    · have hhead : ¬ (h0 < key) := by
        have := List.head_dropWhile_not (p := fun x => decide (x < key)) (l := ks)
        rw [heq] at this
        simpa using this (by simp)
      rw [heq] at hx
      have hpd : (h0 :: t).Pairwise (· < ·) := heq ▸ List.Pairwise.sublist hd hs
      rcases List.mem_cons.1 hx with rfl | hx
      · exact lt_of_le_of_ne (not_lt.1 hhead) (Ne.symm hxne)
      · have : h0 < x := (List.pairwise_cons.1 hpd).1 x hx
        exact lt_of_le_of_lt (not_lt.1 hhead) this

theorem binarySearch_found {ks : List K} {key : K}
    (hs : keysSorted ks) (hk : key ∈ ks) :
    ∃ l r, ks = l ++ key :: r ∧ binarySearch ks key = .ok l.length ∧
      (∀ x ∈ l, x < key) ∧ (∀ x ∈ r, key < x) := by
  obtain ⟨l, r, rfl, hl, hr⟩ :=
    sorted_mem_decomp ((keysSorted_iff_pairwise _).1 hs) hk
  exact ⟨l, r, rfl, binarySearch_of_found l r key hl hr, hl, hr⟩

theorem binarySearch_not_found {ks : List K} {key : K}
    (hs : keysSorted ks) (hk : key ∉ ks) :
    ∃ l r, ks = l ++ r ∧ binarySearch ks key = .error l.length ∧
      (∀ x ∈ l, x < key) ∧ (∀ x ∈ r, key < x) := by
  obtain ⟨l, r, rfl, hl, hr⟩ :=
    sorted_not_mem_decomp ((keysSorted_iff_pairwise _).1 hs) hk
  exact ⟨l, r, rfl, binarySearch_of_not_found l r key hl hr, hl, hr⟩

theorem chainLow_nil (lo : Option K) : chainLow lo ([] : List K) = lo := rfl

theorem chainLow_snoc (lo : Option K) (ks : List K) (k : K) :
    chainLow lo (ks ++ [k]) = some k := by
  simp [chainLow]

theorem chainLow_cons (lo : Option K) (k : K) (ks : List K) :
    chainLow lo (k :: ks) = chainLow (some k) ks := by
  cases ks with
  | nil => rfl
  | cons b rest =>
    unfold chainLow
    rw [List.getLast?_cons_cons]
    cases heq : (b :: rest).getLast? with
    | some x => rfl
    | none => simp at heq

section ChildrenLemmas

variable {P : Option K → Option K → Node K V → Prop}

theorem childrenPre_length {lo : Option K} {ks : List K} {cs : List (Node K V)}
    (h : ChildrenPre P lo ks cs) : cs.length = ks.length := by
  induction ks generalizing lo cs with
  | nil => cases cs with
    | nil => rfl
    | cons c cs => exact absurd h (by simp [ChildrenPre])
  | cons k ks ih =>
    cases cs with
    | nil => exact absurd h (by simp [ChildrenPre])
    | cons c cs =>
      obtain ⟨_, htail⟩ := h
      simpa using ih htail

theorem childrenWf_length {lo hi : Option K} {ks : List K} {cs : List (Node K V)}
    (h : ChildrenWf P lo hi ks cs) : cs.length = ks.length + 1 := by
  induction ks generalizing lo cs with
  | nil => cases cs with
    | nil => exact absurd h (by simp [ChildrenWf])
    | cons c cs =>
      cases cs with
      | nil => rfl
      | cons c2 cs2 => exact absurd h (by simp [ChildrenWf])
  | cons k ks ih =>
    cases cs with
    | nil => exact absurd h (by simp [ChildrenWf])
    | cons c cs =>
      obtain ⟨_, htail⟩ := h
      simpa using ih htail

theorem childrenWf_singleton {lo hi : Option K} {c : Node K V} :
    ChildrenWf P lo hi [] [c] ↔ P lo hi c := Iff.rfl

theorem childrenPre_append {lo : Option K} {ks1 ks2 : List K}
    {cs1 cs2 : List (Node K V)} (hlen : cs1.length = ks1.length) :
    ChildrenPre P lo (ks1 ++ ks2) (cs1 ++ cs2) ↔
      ChildrenPre P lo ks1 cs1 ∧ ChildrenPre P (chainLow lo ks1) ks2 cs2 := by
  induction ks1 generalizing lo cs1 with
  | nil =>
    cases cs1 with
    | nil => simp [ChildrenPre, chainLow_nil]
    | cons c cs => simp at hlen
  | cons k ks ih =>
    cases cs1 with
    | nil => simp at hlen
    | cons c cs =>
      simp only [List.cons_append, ChildrenPre, chainLow_cons, List.append_eq]
      rw [ih (by simpa using hlen), and_assoc]

theorem childrenWf_append {lo hi : Option K} {ks1 ks2 : List K}
    {cs1 cs2 : List (Node K V)} (hlen : cs1.length = ks1.length) :
    ChildrenWf P lo hi (ks1 ++ ks2) (cs1 ++ cs2) ↔
      ChildrenPre P lo ks1 cs1 ∧ ChildrenWf P (chainLow lo ks1) hi ks2 cs2 := by
  induction ks1 generalizing lo cs1 with
  | nil =>
    cases cs1 with
    | nil => simp [ChildrenPre, chainLow_nil]
    | cons c cs => simp at hlen
  | cons k ks ih =>
    cases cs1 with
    | nil => simp at hlen
    | cons c cs =>
      simp only [List.cons_append, ChildrenWf, ChildrenPre, chainLow_cons, List.append_eq]
      rw [ih (by simpa using hlen), and_assoc]

theorem childrenPre_snoc {lo : Option K} {ks : List K} {k : K}
    {cs : List (Node K V)} (hlen : cs.length = ks.length + 1) :
    ChildrenPre P lo (ks ++ [k]) cs ↔ ChildrenWf P lo (some k) ks cs := by
  induction ks generalizing lo cs with
  | nil =>
    cases cs with
    | nil => simp at hlen
    | cons c cs2 =>
      cases cs2 with
      | nil => exact ⟨fun h => h.1, fun h => ⟨h, trivial⟩⟩
      | cons c3 cs3 => simp at hlen
  | cons k2 ks ih =>
    cases cs with
    | nil => simp at hlen
    | cons c2 cs2 =>
      simp only [List.cons_append, ChildrenPre, ChildrenWf, List.append_eq]
      rw [ih (by simpa using hlen)]

end ChildrenLemmas

theorem childrenWf_mem {P : Option K → Option K → Node K V → Prop}
    {lo hi : Option K} {ks : List K} {cs : List (Node K V)}
    {c : Node K V} (h : ChildrenWf P lo hi ks cs) (hc : c ∈ cs) :
    ∃ lo' hi', P lo' hi' c := by
  induction ks generalizing lo cs with
  | nil =>
    cases cs with
    | nil => exact absurd h (by simp [ChildrenWf])
    | cons c2 cs2 =>
      cases cs2 with
      | nil =>
        rcases List.mem_singleton.1 hc with rfl
        exact ⟨lo, hi, h⟩
      | cons c3 cs3 => exact absurd h (by simp [ChildrenWf])
  | cons k ks ih =>
    cases cs with
    | nil => exact absurd h (by simp [ChildrenWf])
    | cons c2 cs2 =>
      rcases List.mem_cons.1 hc with rfl | hc
      · exact ⟨lo, some k, h.1⟩
      · exact ih h.2 hc



theorem entriesOfList_append (cs1 cs2 : List (Node K V)) :
    entriesOfList (cs1 ++ cs2) = entriesOfList cs1 ++ entriesOfList cs2 := by
  induction cs1 with
  | nil => rfl
  | cons c cs ih => simp [entriesOfList, ih]

theorem leafBlocksOfList_append (cs1 cs2 : List (Node K V)) :
    leafBlocksOfList (cs1 ++ cs2) = leafBlocksOfList cs1 ++ leafBlocksOfList cs2 := by
  induction cs1 with
  | nil => rfl
  | cons c cs ih => simp [leafBlocksOfList, ih]

theorem entries_eq_leafBlocks (n : Node K V) : n.leafBlocks.flatten = n.entries := by
  induction n using Node.rec
    (motive_2 := fun cs => (leafBlocksOfList cs).flatten = entriesOfList cs) with
  | internal ks cs ih => simpa [Node.leafBlocks, Node.entries] using ih
  | leaf ks vs => simp [Node.leafBlocks, Node.entries]
  | nil => simp [leafBlocksOfList, entriesOfList]
  | cons c cs ih1 ih2 => simp [leafBlocksOfList, entriesOfList, ih1, ih2]

theorem heightOfList_of_forall {cs : List (Node K V)} {d : Nat}
    (h : ∀ c ∈ cs, Node.height c = d) (hne : cs ≠ []) : heightOfList cs = d := by
  induction cs with
  | nil => exact absurd rfl hne
  | cons c cs ih =>
    cases cs with
    | nil => simp [heightOfList, h c (by simp)]
    | cons c2 cs2 =>
      rw [heightOfList, h c (by simp), ih (fun x hx => h x (by simp [hx])) (by simp)]
      simp

theorem nodeWf_height {m : Nat} : ∀ {d : Nat} {role : TopRole} {lo hi : Option K}
    {n : Node K V}, NodeWf m d role lo hi n → n.height = d := by
  intro d
  induction d with
  | zero =>
    intro role lo hi n h
    cases n with
    | leaf ks vs => rfl
    | internal ks cs => exact absurd h (by simp [NodeWf])
  | succ d ih =>
    intro role lo hi n h
    cases n with
    | leaf ks vs => exact absurd h (by simp [NodeWf])
    | internal ks cs =>
      obtain ⟨_, _, _, _, hch⟩ := h
      have hlen := childrenWf_length hch
      have hne : cs ≠ [] := by
        intro h0
        rw [h0] at hlen
        simp at hlen
      have hall : ∀ c ∈ cs, Node.height c = d := by
        intro c hc
        obtain ⟨lo', hi', hwf⟩ := childrenWf_mem hch hc
        exact ih hwf
      show heightOfList cs + 1 = d + 1
      rw [heightOfList_of_forall hall hne]

theorem lowOk_of_lowLt {lo : Option K} {k : K} (h : lowLt lo k) : lowOk lo k := by
  cases lo with
  | none => trivial
  | some l => exact le_of_lt h

theorem lowOk_mono {lo : Option K} {k k2 : K} (h : lowOk lo k) (hle : k ≤ k2) :
    lowOk lo k2 := by
  cases lo with
  | none => trivial
  | some l => exact le_trans h hle

theorem lowLt_mono {lo : Option K} {k k2 : K} (h : lowLt lo k) (hle : k ≤ k2) :
    lowLt lo k2 := by
  cases lo with
  | none => trivial
  | some l => exact lt_of_lt_of_le h hle

theorem lowLt_of_lowOk {lo : Option K} {k k2 : K} (h : lowOk lo k) (hlt : k < k2) :
    lowLt lo k2 := by
  cases lo with
  | none => trivial
  | some l => exact lt_of_le_of_lt h hlt

theorem highOk_mono {hi : Option K} {k k2 : K} (h : highOk hi k2) (hle : k ≤ k2) :
    highOk hi k := by
  cases hi with
  | none => trivial
  | some h2 => exact lt_of_le_of_lt hle h

theorem highOk_of_lt_highOk {hi : Option K} {k k2 : K} (hlt : k < k2)
    (h : highOk hi k2) : highOk hi k := highOk_mono h (le_of_lt hlt)

theorem entriesOfList_bound_aux {m d : Nat}
    (IH : ∀ (lo hi : Option K) (n : Node K V), NodeWf m d .child lo hi n →
      ∀ p ∈ n.entries, lowOk lo p.1 ∧ highOk hi p.1) :
    ∀ (ks : List K) (cs : List (Node K V)) (lo hi : Option K),
      ChildrenWf (NodeWf m d .child) lo hi ks cs →
      ks.Pairwise (· < ·) →
      (∀ k ∈ ks, lowLt lo k ∧ highOk hi k) →
      ∀ p ∈ entriesOfList cs, lowOk lo p.1 ∧ highOk hi p.1 := by
  intro ks
  induction ks with
  | nil =>
    intro cs lo hi hch _ _ p hp
    cases cs with
    | nil => exact absurd hch (by simp [ChildrenWf])
    | cons c cs2 =>
      cases cs2 with
      | nil =>
        simp only [entriesOfList, List.append_nil] at hp
        exact IH lo hi c hch p hp
      | cons c3 cs3 => exact absurd hch (by simp [ChildrenWf])
  | cons k ks ih =>
    intro cs lo hi hch hsort hbnd p hp
    cases cs with
    | nil => exact absurd hch (by simp [ChildrenWf])
    | cons c cs2 =>
      obtain ⟨hc, htail⟩ := hch
      rw [List.pairwise_cons] at hsort
      simp only [entriesOfList] at hp
      have hkb := hbnd k (by simp)
      rcases List.mem_append.1 hp with hp | hp
      · obtain ⟨h1, h2⟩ := IH lo (some k) c hc p hp
        exact ⟨h1, highOk_of_lt_highOk h2 hkb.2⟩
      · have hrest := ih cs2 (some k) hi htail hsort.2
          (fun k2 hk2 => ⟨hsort.1 k2 hk2, (hbnd k2 (by simp [hk2])).2⟩) p hp
        exact ⟨lowOk_mono (lowOk_of_lowLt hkb.1) hrest.1, hrest.2⟩

theorem nodeWf_entries_bound {m : Nat} : ∀ {d : Nat} {role : TopRole}
    {lo hi : Option K} {n : Node K V}, NodeWf m d role lo hi n →
    ∀ p ∈ n.entries, lowOk lo p.1 ∧ highOk hi p.1 := by
  intro d
  induction d with
  | zero =>
    intro role lo hi n h p hp
    cases n with
    | internal ks cs => exact absurd h (by simp [NodeWf])
    | leaf ks vs =>
      obtain ⟨_, _, hbnd, _, _⟩ := h
      have := List.of_mem_zip (show (p.1, p.2) ∈ ks.zip vs from hp)
      exact hbnd p.1 this.1
  | succ d ih =>
    intro role lo hi n h p hp
    cases n with
    | leaf ks vs => exact absurd h (by simp [NodeWf])
    | internal ks cs =>
      obtain ⟨hsort, hbnd, _, _, hch⟩ := h
      exact entriesOfList_bound_aux (fun lo hi n hwf => ih hwf) ks cs lo hi hch
        ((keysSorted_iff_pairwise _).1 hsort) hbnd p hp

theorem entriesOfList_sorted_aux {m d : Nat}
    (IHb : ∀ (lo hi : Option K) (n : Node K V), NodeWf m d .child lo hi n →
      ∀ p ∈ n.entries, lowOk lo p.1 ∧ highOk hi p.1)
    (IHs : ∀ (lo hi : Option K) (n : Node K V), NodeWf m d .child lo hi n →
      (n.entries.map Prod.fst).Pairwise (· < ·)) :
    ∀ (ks : List K) (cs : List (Node K V)) (lo hi : Option K),
      ChildrenWf (NodeWf m d .child) lo hi ks cs →
      ks.Pairwise (· < ·) →
      (∀ k ∈ ks, lowLt lo k ∧ highOk hi k) →
      ((entriesOfList cs).map Prod.fst).Pairwise (· < ·) := by
  intro ks
  induction ks with
  | nil =>
    intro cs lo hi hch _ _
    cases cs with
    | nil => exact absurd hch (by simp [ChildrenWf])
    | cons c cs2 =>
      cases cs2 with
      | nil =>
        simp only [entriesOfList, List.append_nil]
        exact IHs lo hi c hch
      | cons c3 cs3 => exact absurd hch (by simp [ChildrenWf])
  | cons k ks ih =>
    intro cs lo hi hch hsort hbnd
    cases cs with
    | nil => exact absurd hch (by simp [ChildrenWf])
    | cons c cs2 =>
      obtain ⟨hc, htail⟩ := hch
      rw [List.pairwise_cons] at hsort
      have hkb := hbnd k (by simp)
      simp only [entriesOfList, List.map_append]
      rw [List.pairwise_append]
      refine ⟨IHs lo (some k) c hc, ?_, ?_⟩
      · exact ih cs2 (some k) hi htail hsort.2
          (fun k2 hk2 => ⟨hsort.1 k2 hk2, (hbnd k2 (by simp [hk2])).2⟩)
      · intro a ha b hb
        obtain ⟨pa, hpa, rfl⟩ := List.mem_map.1 ha
        obtain ⟨pb, hpb, rfl⟩ := List.mem_map.1 hb
        have h1 : pa.1 < k := (IHb lo (some k) c hc pa hpa).2
        have h2 : k ≤ pb.1 := by
          have := entriesOfList_bound_aux IHb ks cs2 (some k) hi htail hsort.2
            (fun k2 hk2 => ⟨hsort.1 k2 hk2, (hbnd k2 (by simp [hk2])).2⟩) pb hpb
          exact this.1
        exact lt_of_lt_of_le h1 h2

theorem nodeWf_entries_sorted {m : Nat} : ∀ {d : Nat} {role : TopRole}
    {lo hi : Option K} {n : Node K V}, NodeWf m d role lo hi n →
    (n.entries.map Prod.fst).Pairwise (· < ·) := by
  intro d
  induction d with
  | zero =>
    intro role lo hi n h
    cases n with
    | internal ks cs => exact absurd h (by simp [NodeWf])
    | leaf ks vs =>
      obtain ⟨hlen, hsort, _, _, _⟩ := h
      have : (ks.zip vs).map Prod.fst = ks :=
        List.map_fst_zip ks vs (le_of_eq hlen.symm)
      rw [Node.entries, this]
      exact (keysSorted_iff_pairwise _).1 hsort
  | succ d ih =>
    intro role lo hi n h
    cases n with
    | leaf ks vs => exact absurd h (by simp [NodeWf])
    | internal ks cs =>
      obtain ⟨hsort, hbnd, _, _, hch⟩ := h
      exact entriesOfList_sorted_aux (fun lo hi n hwf => nodeWf_entries_bound hwf)
        (fun lo hi n hwf => ih hwf) ks cs lo hi hch
        ((keysSorted_iff_pairwise _).1 hsort) hbnd

theorem pairwise_middle_insert {l r : List K} {key : K}
    (h : (l ++ r).Pairwise (· < ·))
    (hl : ∀ x ∈ l, x < key) (hr : ∀ x ∈ r, key < x) :
    (l ++ key :: r).Pairwise (· < ·) := by
  rw [List.pairwise_append] at h
  rw [List.pairwise_append]
  refine ⟨h.1, ?_, ?_⟩
  · rw [List.pairwise_cons]
    exact ⟨hr, h.2.1⟩
  · intro a ha b hb
    rcases List.mem_cons.1 hb with rfl | hb
    · exact hl a ha
    · exact h.2.2 a ha b hb

omit [LinearOrder K] in
theorem exists_align {α β : Type} {xs l r : List α} {a : α} {ys : List β}
    (hxs : xs = l ++ a :: r) (hlen : ys.length = xs.length) :
    ∃ yl b yr, ys = yl ++ b :: yr ∧ yl.length = l.length ∧ yr.length = r.length := by
  subst hxs
  induction l generalizing ys with
  | nil =>
    cases ys with
    | nil => simp at hlen
    | cons b yr => exact ⟨[], b, yr, rfl, rfl, by simpa using hlen⟩
  | cons x l ih =>
    cases ys with
    | nil => simp at hlen
    | cons y ys =>
      obtain ⟨yl, b, yr, rfl, h1, h2⟩ := ih (by simpa using hlen)
      exact ⟨y :: yl, b, yr, rfl, by simpa using h1, h2⟩

omit [LinearOrder K] in
theorem zip_middle {α β : Type} (l r : List α) (a : α) (yl yr : List β) (b : β)
    (hlen : l.length = yl.length) :
    (l ++ a :: r).zip (yl ++ b :: yr) = l.zip yl ++ (a, b) :: r.zip yr := by
  rw [List.zip_append hlen]
  rfl

omit [LinearOrder K] in
theorem exists_split_at {α : Type} (xs : List α) (i : Nat) (h : i ≤ xs.length) :
    ∃ l r, xs = l ++ r ∧ l.length = i := by
  refine ⟨xs.take i, xs.drop i, (List.take_append_drop i xs).symm, ?_⟩
  simpa using h

omit [LinearOrder K] in
theorem take_getElem_drop {α : Type} (xs : List α) (i : Nat) (h : i < xs.length) :
    xs = xs.take i ++ xs[i] :: xs.drop (i + 1) := by
  induction xs generalizing i with
  | nil => simp at h
  | cons x xs ih =>
    cases i with
    | zero => simp
    | succ i =>
      have := ih i (by simpa using h)
      simpa using this

theorem chainLow_mem (lo : Option K) {ks : List K} (h : ks ≠ []) :
    ∃ k ∈ ks, chainLow lo ks = some k := by
  induction ks generalizing lo with
  | nil => exact absurd rfl h
  | cons a tl ih =>
    cases tl with
    | nil => exact ⟨a, by simp, rfl⟩
    | cons b rest =>
      obtain ⟨k, hk, hc⟩ := ih (some a) (by simp)
      exact ⟨k, by simp [List.mem_cons.1 hk], by rw [chainLow_cons]; exact hc⟩

theorem descentIndex_decomp {ks : List K} (key : K) (hs : keysSorted ks) :
    ∃ ksL ksR, ks = ksL ++ ksR ∧ descentIndex ks key = ksL.length ∧
      (∀ x ∈ ksL, x ≤ key) ∧ (∀ x ∈ ksR, key < x) := by
  by_cases hk : key ∈ ks
  · obtain ⟨l, r, heq, hbs, hl, hr⟩ := binarySearch_found hs hk
    refine ⟨l ++ [key], r, by simp [heq], ?_, ?_, hr⟩
    · rw [descentIndex, hbs]
      simp
    · intro x hx
      rcases List.mem_append.1 hx with hx | hx
      · exact le_of_lt (hl x hx)
      · rw [List.mem_singleton.1 hx]
  · obtain ⟨l, r, heq, hbs, hl, hr⟩ := binarySearch_not_found hs hk
    refine ⟨l, r, heq, ?_, fun x hx => le_of_lt (hl x hx), hr⟩
    rw [descentIndex, hbs]

theorem leafMin_le_child {m : Nat} (hm : 3 ≤ m) (role : TopRole) :
    leafMin m role ≤ leafMin m .child := by
  cases role <;> simp [leafMin] <;> omega

theorem internalMin_le_child {m : Nat} (hm : 3 ≤ m) (role : TopRole) :
    internalMin m role ≤ internalMin m .child := by
  cases role <;> simp [internalMin] <;> omega

theorem nodeWf_weaken {m : Nat} (hm : 3 ≤ m) : ∀ {d : Nat} {role : TopRole}
    {lo hi : Option K} {n : Node K V},
    NodeWf m d .child lo hi n → NodeWf m d role lo hi n := by
  intro d role lo hi n h
  match d, n with
  | 0, .leaf ks vs =>
    obtain ⟨h1, h2, h3, h4, h5⟩ := h
    exact ⟨h1, h2, h3, le_trans (leafMin_le_child hm role) h4, h5⟩
  | d + 1, .internal ks cs =>
    obtain ⟨h1, h2, h3, h4, h5⟩ := h
    exact ⟨h1, h2, le_trans (internalMin_le_child hm role) h3, h4, h5⟩

theorem nodeWf_of_not_underfull {m d : Nat} {lo hi : Option K} {n : Node K V}
    (h : NodeWf m d .shrunk lo hi n) (hu : ¬ n.is_underfull m) :
    NodeWf m d .child lo hi n := by
  match d, n with
  | 0, .leaf ks vs =>
    obtain ⟨h1, h2, h3, _, h5⟩ := h
    refine ⟨h1, h2, h3, ?_, h5⟩
    simpa [Node.is_underfull, leafMin, Nat.not_lt] using hu
  | d + 1, .internal ks cs =>
    obtain ⟨h1, h2, _, h4, h5⟩ := h
    refine ⟨h1, h2, ?_, h4, h5⟩
    simpa [Node.is_underfull, internalMin, Nat.not_lt] using hu

theorem childrenPre_entries_lt {m d : Nat} {key : K}
    (IH : ∀ (lo hi : Option K) (n : Node K V), NodeWf m d .child lo hi n →
      ∀ p ∈ n.entries, lowOk lo p.1 ∧ highOk hi p.1) :
    ∀ {ksL : List K} {csL : List (Node K V)} {lo : Option K},
      ChildrenPre (NodeWf m d .child) lo ksL csL →
      (∀ x ∈ ksL, x ≤ key) →
      ∀ p ∈ entriesOfList csL, p.1 < key := by
  intro ksL
  induction ksL with
  | nil =>
    intro csL lo hch _ p hp
    cases csL with
    | nil => cases hp
    | cons c cs2 => exact absurd hch (by simp [ChildrenPre])
  | cons k ks ih =>
    intro csL lo hch hle p hp
    cases csL with
    | nil => exact absurd hch (by simp [ChildrenPre])
    | cons c cs2 =>
      obtain ⟨hc, htail⟩ := hch
      simp only [entriesOfList] at hp
      rcases List.mem_append.1 hp with hp | hp
      · have := (IH lo (some k) c hc p hp).2
        exact lt_of_lt_of_le this (hle k (by simp))
      · exact ih htail (fun x hx => hle x (by simp [hx])) p hp

theorem childrenWf_tail_entries_gt {m d : Nat} {key : K}
    (IH : ∀ (lo hi : Option K) (n : Node K V), NodeWf m d .child lo hi n →
      ∀ p ∈ n.entries, lowOk lo p.1 ∧ highOk hi p.1) :
    ∀ {ksR : List K} {c : Node K V} {csR : List (Node K V)} {mid hi : Option K},
      ChildrenWf (NodeWf m d .child) mid hi ksR (c :: csR) →
      (∀ x ∈ ksR, key < x) →
      ∀ p ∈ entriesOfList csR, key < p.1 := by
  intro ksR
  induction ksR with
  | nil =>
    intro c csR mid hi hch _ p hp
    cases csR with
    | nil => cases hp
    | cons c2 cs2 => exact absurd hch (by simp [ChildrenWf])
  | cons k0 ks ih =>
    intro c csR mid hi hch hgt p hp
    obtain ⟨hc, htail⟩ := hch
    cases csR with
    | nil => exact absurd htail (by simp [ChildrenWf])
    | cons c2 cs2 =>
      simp only [entriesOfList] at hp
      rcases List.mem_append.1 hp with hp | hp
      · have hc2 : ∃ hi2, NodeWf m d .child (some k0) hi2 c2 := by
          cases ks with
          | nil =>
            cases cs2 with
            | nil => exact ⟨hi, htail⟩
            | cons c3 cs3 => exact absurd htail (by simp [ChildrenWf])
          | cons k1 ks1 => exact ⟨some k1, htail.1⟩
        obtain ⟨hi2, hwf2⟩ := hc2
        have := (IH (some k0) hi2 c2 hwf2 p hp).1
        exact lt_of_lt_of_le (hgt k0 (by simp)) this
      · exact ih htail (fun x hx => hgt x (by simp [hx])) p hp

theorem insertInChild_at {m : Nat} (key : K) (value : V)
    (cs1 cs2 : List (Node K V)) (c : Node K V) :
    insertInChild m key value (cs1 ++ c :: cs2) cs1.length =
      ((insertNode m key value c).1,
       cs1 ++ (insertNode m key value c).2.1 :: cs2,
       (insertNode m key value c).2.2) := by
  induction cs1 with
  | nil =>
    simp only [List.nil_append, List.length_nil]
    rcases h : insertNode m key value c with ⟨old, c1, sp⟩
    simp [insertInChild, h]
  | cons x xs ih =>
    simp only [List.cons_append, List.length_cons, insertInChild, List.append_eq, ih]

theorem keysSorted_middle_insert {l r : List K} {key : K}
    (h : keysSorted (l ++ r))
    (hl : ∀ x ∈ l, x < key) (hr : ∀ x ∈ r, key < x) :
    keysSorted (l ++ key :: r) := by
  rw [keysSorted_iff_pairwise] at h ⊢
  exact pairwise_middle_insert h hl hr

theorem insertLeaf_spec {m : Nat} (hm : 3 ≤ m) (key : K) (value : V)
    {role : TopRole} {lo hi : Option K} {ks : List K} {vs : List V}
    (hwf : NodeWf m 0 role lo hi (.leaf ks vs))
    (hlo : lowOk lo key) (hhi : highOk hi key) :
    InsertSpec m 0 role lo hi key value (.leaf ks vs) := by
  obtain ⟨hlen, hsort, hbnd, hmin, hmax⟩ := hwf
  by_cases hk : key ∈ ks
  · obtain ⟨l, r, hkeq, hbs, hl, hr⟩ := binarySearch_found hsort hk
    obtain ⟨vl, v0, vr, hveq, hvl, hvr⟩ := exists_align hkeq hlen
    subst hkeq; subst hveq
    have hget : (vl ++ v0 :: vr)[l.length]? = some v0 := by
      rw [← hvl, getElem?_at_append]
    have hset : (vl ++ v0 :: vr).set l.length value = vl ++ value :: vr := by
      rw [← hvl, set_at_append]
    have hins : insertNode m key value (Node.leaf (l ++ key :: r) (vl ++ v0 :: vr)) =
        (some v0, Node.leaf (l ++ key :: r) (vl ++ value :: vr), none) := by
      simp only [insertNode, hbs, hget, hset]
    unfold InsertSpec
    rw [hins]
    refine ⟨rfl, ?_, l.zip vl, r.zip vr, ?_, ?_⟩
    · refine ⟨?_, hsort, hbnd, hmin, hmax⟩
      simp only [List.length_append, List.length_cons] at hlen ⊢
      omega
    · show (l ++ key :: r).zip (vl ++ v0 :: vr) = _
      rw [zip_middle _ _ _ _ _ _ hvl.symm]
    · show (l ++ key :: r).zip (vl ++ value :: vr) = _
      rw [zip_middle _ _ _ _ _ _ hvl.symm]
  · obtain ⟨l, r, hkeq, hbs, hl, hr⟩ := binarySearch_not_found hsort hk
    subst hkeq
    have hll : l.length ≤ vs.length := by rw [hlen]; simp
    obtain ⟨vl, vr, hveq, hvl⟩ := exists_split_at vs l.length hll
    subst hveq
    have hvr : vr.length = r.length := by
      simp only [List.length_append] at hlen; omega
    have hki : (l ++ r).insertIdx l.length key = l ++ key :: r :=
      insertIdx_at_append l r key
    have hvi : (vl ++ vr).insertIdx l.length value = vl ++ value :: vr := by
      rw [← hvl]; exact insertIdx_at_append vl vr value
    have hsort1 : keysSorted (l ++ key :: r) := keysSorted_middle_insert hsort hl hr
    have hbnd1 : ∀ k ∈ l ++ key :: r, lowOk lo k ∧ highOk hi k := by
      intro k hkm
      rcases List.mem_append.1 hkm with h | h
      · exact hbnd k (by simp [h])
      · rcases List.mem_cons.1 h with rfl | h
        · exact ⟨hlo, hhi⟩
        · exact hbnd k (by simp [h])
    have hEzip : (l ++ r).zip (vl ++ vr) = l.zip vl ++ r.zip vr :=
      List.zip_append hvl.symm
    have hE1 : ∀ p ∈ l.zip vl, p.1 < key :=
      fun p hp => hl p.1 (List.of_mem_zip hp).1
    have hE2 : ∀ p ∈ r.zip vr, key < p.1 :=
      fun p hp => hr p.1 (List.of_mem_zip hp).1
    by_cases hov : (Node.leaf (l ++ key :: r) (vl ++ value :: vr) : Node K V).is_overfull m
    · -- the leaf overflows and splits in half
      have hlen1 : (l ++ key :: r).length = m + 1 := by
        have h1 : (l ++ key :: r).length > m := by
          simpa [Node.is_overfull] using hov
        have h2 : (l ++ r).length ≤ m := hmax
        simp only [List.length_append, List.length_cons] at h1 h2 ⊢
        omega
      have hlenv : (vl ++ value :: vr).length = m + 1 := by
        simp only [List.length_append, List.length_cons] at hlen1 ⊢
        omega
      have hsi_lt : (l ++ key :: r).length / 2 < (l ++ key :: r).length :=
        Nat.div_lt_self (by simp) (by omega)
      have hdrop := List.drop_eq_getElem_cons hsi_lt
      have hins : insertNode m key value (Node.leaf (l ++ r) (vl ++ vr)) =
          (none,
           Node.leaf ((l ++ key :: r).take ((l ++ key :: r).length / 2))
                     ((vl ++ value :: vr).take ((l ++ key :: r).length / 2)),
           some ((l ++ key :: r)[(l ++ key :: r).length / 2],
                 Node.leaf ((l ++ key :: r).drop ((l ++ key :: r).length / 2))
                           ((vl ++ value :: vr).drop ((l ++ key :: r).length / 2)))) := by
        simp only [insertNode, hbs, hki, hvi]
        rw [if_neg (not_not_intro hov), hdrop]
      unfold InsertSpec
      rw [hins]
      set si := (l ++ key :: r).length / 2 with hsidef
      have hsival : si = (m + 1) / 2 := by rw [hsidef, hlen1]
      have h1p : (l ++ key :: r).Pairwise (· < ·) :=
        (keysSorted_iff_pairwise _).1 hsort1
      have hsplit := take_getElem_drop (l ++ key :: r) si hsi_lt
      have h1p2 := h1p
      rw [hsplit, List.pairwise_append] at h1p2
      obtain ⟨pwL, pwR, cross⟩ := h1p2
      have hmemtake : ∀ k ∈ (l ++ key :: r).take si, k ∈ l ++ key :: r :=
        fun k hk => List.take_subset _ _ hk
      have hmemdrop : ∀ k ∈ (l ++ key :: r).drop si, k ∈ l ++ key :: r :=
        fun k hk => List.drop_subset _ _ hk
      have hskmem : (l ++ key :: r)[si] ∈ l ++ key :: r := List.getElem_mem hsi_lt
      have hcross2 : ∀ k ∈ (l ++ key :: r).take si, k < (l ++ key :: r)[si] :=
        fun k hk => cross k hk _ (List.mem_cons_self _ _)
      refine ⟨l.zip vl, r.zip vr, ?_, hE1, hE2, ?_, ?_, ?_, ?_, ?_⟩
      · exact hEzip
      · -- left half, a well-formed child below the promoted separator
        refine ⟨?_, ?_, ?_, ?_, ?_⟩
        · simp [List.length_take, hlen1, hlenv]
        · exact (keysSorted_iff_pairwise _).2 pwL
        · exact fun k hk => ⟨(hbnd1 k (hmemtake k hk)).1, hcross2 k hk⟩
        · simp only [List.length_take, hlen1, leafMin, hsival]
          omega
        · simp only [List.length_take, hlen1, hsival]
          omega
      · -- right half, a well-formed child above the promoted separator
        refine ⟨?_, ?_, ?_, ?_, ?_⟩
        · simp [List.length_drop, hlen1, hlenv]
        · rw [hdrop]
          exact (keysSorted_iff_pairwise _).2 pwR
        · intro k hk
          refine ⟨?_, (hbnd1 k (hmemdrop k hk)).2⟩
          rw [hdrop] at hk
          rcases List.mem_cons.1 hk with rfl | hk
          · exact le_refl _
          · exact le_of_lt ((List.pairwise_cons.1 pwR).1 k hk)
        · simp only [List.length_drop, hlen1, leafMin, hsival]
          omega
        · simp only [List.length_drop, hlen1, hsival]
          omega
      · -- the separator is strictly above the lower bound
        have hne : (l ++ key :: r).take si ≠ [] := by
          apply List.ne_nil_of_length_pos
          simp only [List.length_take, hlen1]
          omega
        obtain ⟨x, hx⟩ := List.exists_mem_of_ne_nil _ hne
        exact lowLt_of_lowOk (hbnd1 x (hmemtake x hx)).1 (hcross2 x hx)
      · exact (hbnd1 _ hskmem).2
      · -- two half entry lists concatenate to the inserted entry list
        show ((l ++ key :: r).take si).zip ((vl ++ value :: vr).take si) ++
             ((l ++ key :: r).drop si).zip ((vl ++ value :: vr).drop si) = _
        have hzipsplit : (l ++ key :: r).zip (vl ++ value :: vr) =
            ((l ++ key :: r).take si).zip ((vl ++ value :: vr).take si) ++
            ((l ++ key :: r).drop si).zip ((vl ++ value :: vr).drop si) := by
          conv_lhs => rw [← List.take_append_drop si (l ++ key :: r),
                          ← List.take_append_drop si (vl ++ value :: vr)]
          rw [List.zip_append (by simp [hlen1, hlenv])]
        rw [← hzipsplit, zip_middle _ _ _ _ _ _ hvl.symm]
    · -- room in the leaf: plain sorted insertion
      have hins : insertNode m key value (Node.leaf (l ++ r) (vl ++ vr)) =
          (none, Node.leaf (l ++ key :: r) (vl ++ value :: vr), none) := by
        simp only [insertNode, hbs, hki, hvi]
        rw [if_pos hov]
      unfold InsertSpec
      rw [hins]
      refine ⟨l.zip vl, r.zip vr, hEzip, hE1, hE2, ⟨?_, hsort1, hbnd1, ?_, ?_⟩, ?_⟩
      · simp only [List.length_append, List.length_cons]
        omega
      · simp only [List.length_append, List.length_cons] at hmin ⊢
        omega
      · have := hov
        simp only [Node.is_overfull, List.length_append, List.length_cons,
          Nat.not_lt, gt_iff_lt] at this ⊢
        omega
      · rw [show (Node.leaf (l ++ key :: r) (vl ++ value :: vr) : Node K V).entries =
          (l ++ key :: r).zip (vl ++ value :: vr) from rfl]
        rw [zip_middle _ _ _ _ _ _ hvl.symm]

theorem le_chainLow : ∀ {ks : List K}, ks.Pairwise (· < ·) →
    ∀ x ∈ ks, ∀ (lo : Option K) (k : K), chainLow lo ks = some k → x ≤ k := by
  intro ks
  induction ks with
  | nil => intro _ x hx; cases hx
  | cons a tl ih =>
    intro hp x hx lo k hcl
    cases tl with
    | nil =>
      have : some a = some k := hcl
      rcases List.mem_singleton.1 hx with rfl
      exact le_of_eq (Option.some.inj this)
    | cons b tl2 =>
      rw [chainLow_cons] at hcl
      rw [List.pairwise_cons] at hp
      rcases List.mem_cons.1 hx with rfl | hx2
      · obtain ⟨k2, hk2mem, hcl2⟩ :=
          chainLow_mem (some x) (show (b :: tl2) ≠ [] by simp)
        rw [hcl2] at hcl
        rcases Option.some.inj hcl with rfl
        exact le_of_lt (hp.1 _ hk2mem)
      · exact ih hp.2 x hx2 (some a) k hcl

section HeadHighLemmas

variable {P : Option K → Option K → Node K V → Prop}
variable {mid hi : Option K} {ksR : List K} {c c1 sib : Node K V}
variable {csR : List (Node K V)}

theorem childrenWf_cons_elim (h : ChildrenWf P mid hi ksR (c :: csR)) :
    P mid (headHigh hi ksR) c := by
  cases ksR with
  | nil => cases csR with
    | nil => exact h
    | cons _ _ => exact absurd h (by simp [ChildrenWf])
  | cons k0 ks2 => exact h.1

theorem childrenWf_cons_set (h : ChildrenWf P mid hi ksR (c :: csR))
    (h1 : P mid (headHigh hi ksR) c1) :
    ChildrenWf P mid hi ksR (c1 :: csR) := by
  cases ksR with
  | nil => cases csR with
    | nil => exact h1
    | cons _ _ => exact absurd h (by simp [ChildrenWf])
  | cons k0 ks2 => exact ⟨h1, h.2⟩

theorem childrenWf_cons_insert {sk : K}
    (h : ChildrenWf P mid hi ksR (c :: csR))
    (h1 : P mid (some sk) c1) (h2 : P (some sk) (headHigh hi ksR) sib) :
    ChildrenWf P mid hi (sk :: ksR) (c1 :: sib :: csR) := by
  cases ksR with
  | nil => cases csR with
    | nil => exact ⟨h1, h2⟩
    | cons _ _ => exact absurd h (by simp [ChildrenWf])
  | cons k0 ks2 => exact ⟨h1, h2, h.2⟩

theorem headHigh_highOk {x : K} (h : highOk (headHigh hi ksR) x)
    (hb : ∀ k ∈ ksR, highOk hi k) : highOk hi x := by
  cases ksR with
  | nil => exact h
  | cons k0 _ => exact highOk_of_lt_highOk h (hb k0 (by simp))

theorem headHigh_key_of {key : K} (hgt : ∀ x ∈ ksR, key < x)
    (hhi : highOk hi key) : highOk (headHigh hi ksR) key := by
  cases ksR with
  | nil => exact hhi
  | cons k0 _ => exact hgt k0 (by simp)

theorem lt_of_headHigh {sk : K} (h : highOk (headHigh hi ksR) sk)
    (hp : ksR.Pairwise (· < ·)) : ∀ x ∈ ksR, sk < x := by
  cases ksR with
  | nil => intro x hx; cases hx
  | cons k0 ks2 =>
    intro x hx
    rw [List.pairwise_cons] at hp
    rcases List.mem_cons.1 hx with rfl | hx2
    · exact h
    · exact lt_trans h (hp.1 x hx2)

end HeadHighLemmas

theorem insertInternal_step {m : Nat} (hm : 3 ≤ m) (key : K) (value : V) {d : Nat}
    (IH : ∀ {role : TopRole} {lo hi : Option K} {n : Node K V},
      NodeWf m d role lo hi n → lowOk lo key → highOk hi key →
      InsertSpec m d role lo hi key value n)
    {role : TopRole} {lo hi : Option K} {ks : List K} {cs : List (Node K V)}
    (hwf : NodeWf m (d + 1) role lo hi (.internal ks cs))
    (hlo : lowOk lo key) (hhi : highOk hi key) :
    InsertSpec m (d + 1) role lo hi key value (.internal ks cs) := by
  obtain ⟨hsort, hbnd, hmin, hmax, hch⟩ := hwf
  obtain ⟨ksL, ksR, hkeq, hdi, hleL, hgtR⟩ := descentIndex_decomp key hsort
  subst hkeq
  have hcslen : cs.length = (ksL ++ ksR).length + 1 := childrenWf_length hch
  have hle : ksL.length ≤ cs.length := by simp at hcslen; omega
  obtain ⟨csL, csR0, hcseq, hcsLlen⟩ := exists_split_at cs ksL.length hle
  subst hcseq
  cases csR0 with
  | nil =>
    exfalso
    simp only [List.length_append, List.length_nil] at hcslen
    omega
  | cons c csR =>
  rw [childrenWf_append hcsLlen] at hch
  obtain ⟨hpre, hchR⟩ := hch
  have hsortP := (keysSorted_iff_pairwise (ksL ++ ksR)).1 hsort
  rw [List.pairwise_append] at hsortP
  obtain ⟨hsortL, hsortR, hcrossLR⟩ := hsortP
  have hchild : NodeWf m d .child (chainLow lo ksL) (headHigh hi ksR) c :=
    childrenWf_cons_elim hchR
  have hmidkey : lowOk (chainLow lo ksL) key := by
    by_cases hn : ksL = []
    · subst hn
      exact hlo
    · obtain ⟨k, hkmem, hcl⟩ := chainLow_mem lo hn
      rw [hcl]
      exact hleL k hkmem
  have hchildhi : highOk (headHigh hi ksR) key := headHigh_key_of hgtR hhi
  have hIH := IH hchild hmidkey hchildhi
  unfold InsertSpec at hIH
  rcases hinsc : insertNode m key value c with ⟨old, c1, sp⟩
  rw [hinsc] at hIH
  have hic := insertInChild_at (m := m) key value csL csR c
  simp only [hinsc] at hic
  have hdi2 : descentIndex (ksL ++ ksR) key = csL.length := by rw [hdi, hcsLlen]
  have hA : entriesOfList (csL ++ c :: csR) =
      entriesOfList csL ++ (c.entries ++ entriesOfList csR) := by
    simp only [entriesOfList_append, entriesOfList]
  rcases old with _ | v0
  · -- the key was absent below the descent child
    obtain ⟨E1c, E2c, hceq, hbE1, hbE2, hsp⟩ := hIH
    have hAlt : ∀ p ∈ entriesOfList csL, p.1 < key :=
      childrenPre_entries_lt (fun lo hi n h => nodeWf_entries_bound h) hpre hleL
    have hBgt : ∀ p ∈ entriesOfList csR, key < p.1 :=
      childrenWf_tail_entries_gt (fun lo hi n h => nodeWf_entries_bound h) hchR hgtR
    have hE1 : ∀ p ∈ entriesOfList csL ++ E1c, p.1 < key := by
      intro p hp
      rcases List.mem_append.1 hp with h | h
      · exact hAlt p h
      · exact hbE1 p h
    have hE2 : ∀ p ∈ E2c ++ entriesOfList csR, key < p.1 := by
      intro p hp
      rcases List.mem_append.1 hp with h | h
      · exact hbE2 p h
      · exact hBgt p h
    have hEdec : (Node.internal (ksL ++ ksR) (csL ++ c :: csR) : Node K V).entries =
        (entriesOfList csL ++ E1c) ++ (E2c ++ entriesOfList csR) := by
      show entriesOfList (csL ++ c :: csR) = _
      rw [hA, hceq]
      simp [List.append_assoc]
    rcases sp with _ | ⟨sk, sib⟩
    · -- no split reported by the child
      obtain ⟨hwfc1, hc1entries⟩ := hsp
      have hins : insertNode m key value
          (Node.internal (ksL ++ ksR) (csL ++ c :: csR)) =
          (none, .internal (ksL ++ ksR) (csL ++ c1 :: csR), none) := by
        simp only [insertNode, hdi2, hic]
      unfold InsertSpec
      rw [hins]
      refine ⟨entriesOfList csL ++ E1c, E2c ++ entriesOfList csR, hEdec, hE1, hE2, ?_, ?_⟩
      · refine ⟨hsort, hbnd, hmin, hmax, ?_⟩
        rw [childrenWf_append hcsLlen]
        exact ⟨hpre, childrenWf_cons_set hchR hwfc1⟩
      · show entriesOfList (csL ++ c1 :: csR) = _
        rw [entriesOfList_append]
        show entriesOfList csL ++ (c1.entries ++ entriesOfList csR) = _
        rw [hc1entries]
        simp [List.append_assoc]
    · -- the child split and promoted sk
      obtain ⟨hwfc1, hwfsib, hltmid, hhichild, hcat⟩ := hsp
      have hLsk : ∀ x ∈ ksL, x < sk := by
        intro x hx
        obtain ⟨k, hkmem, hcl⟩ := chainLow_mem lo (List.ne_nil_of_mem hx)
        have hxk : x ≤ k := le_chainLow hsortL x hx lo k hcl
        rw [hcl] at hltmid
        exact lt_of_le_of_lt hxk hltmid
      have hskR : ∀ x ∈ ksR, sk < x := lt_of_headHigh hhichild hsortR
      have hski : descentIndex (ksL ++ ksR) sk = ksL.length := by
        rw [descentIndex, binarySearch_of_not_found ksL ksR sk hLsk hskR]
      have hkeq2 : (ksL ++ ksR).insertIdx ksL.length sk = ksL ++ sk :: ksR :=
        insertIdx_at_append ksL ksR sk
      have hinsib : (csL ++ c1 :: csR).insertIdx (ksL.length + 1) sib =
          csL ++ c1 :: sib :: csR := by
        have h1 : csL ++ c1 :: csR = (csL ++ [c1]) ++ csR := by simp
        have h2 : (csL ++ [c1]).length = ksL.length + 1 := by simp [hcsLlen]
        rw [h1, ← h2, insertIdx_at_append]
        simp
      have hch2 : ChildrenWf (NodeWf m d .child) lo hi (ksL ++ sk :: ksR)
          (csL ++ c1 :: sib :: csR) := by
        rw [childrenWf_append hcsLlen]
        exact ⟨hpre, childrenWf_cons_insert hchR hwfc1 hwfsib⟩
      have hsort2 : keysSorted (ksL ++ sk :: ksR) :=
        keysSorted_middle_insert hsort hLsk hskR
      have hlosk : lowLt lo sk := by
        by_cases hn : ksL = []
        · subst hn
          exact hltmid
        · obtain ⟨kl, hklm, hcl⟩ := chainLow_mem lo hn
          rw [hcl] at hltmid
          exact lowLt_mono (hbnd kl (by simp [hklm])).1 (le_of_lt hltmid)
      have hhisk : highOk hi sk :=
        headHigh_highOk hhichild (fun k hk => (hbnd k (by simp [hk])).2)
      have hbnd2 : ∀ k ∈ ksL ++ sk :: ksR, lowLt lo k ∧ highOk hi k := by
        intro k hkm
        rcases List.mem_append.1 hkm with h | h
        · exact hbnd k (by simp [h])
        · rcases List.mem_cons.1 h with rfl | h
          · exact ⟨hlosk, hhisk⟩
          · exact hbnd k (by simp [h])
      by_cases hov : (Node.internal (ksL ++ sk :: ksR)
          (csL ++ c1 :: sib :: csR) : Node K V).is_overfull m
      · -- the grown internal node overflows and splits
        have hklen2 : (ksL ++ sk :: ksR).length = m + 1 := by
          have h1 : (ksL ++ sk :: ksR).length > m := by
            simpa [Node.is_overfull] using hov
          have h2 : (ksL ++ ksR).length ≤ m := hmax
          simp only [List.length_append, List.length_cons] at h1 h2 ⊢
          omega
        have hcs2len : (csL ++ c1 :: sib :: csR).length = m + 2 := by
          have := childrenWf_length hch2
          omega
        have hsi2lt : (ksL ++ sk :: ksR).length / 2 < (ksL ++ sk :: ksR).length :=
          Nat.div_lt_self (by simp) (by omega)
        have hins : insertNode m key value
            (Node.internal (ksL ++ ksR) (csL ++ c :: csR)) =
            (none,
             .internal ((ksL ++ sk :: ksR).take ((ksL ++ sk :: ksR).length / 2))
                       ((csL ++ c1 :: sib :: csR).take ((ksL ++ sk :: ksR).length / 2 + 1)),
             some ((ksL ++ sk :: ksR)[(ksL ++ sk :: ksR).length / 2],
                   .internal ((ksL ++ sk :: ksR).drop ((ksL ++ sk :: ksR).length / 2 + 1))
                             ((csL ++ c1 :: sib :: csR).drop
                               ((ksL ++ sk :: ksR).length / 2 + 1)))) := by
          simp only [insertNode, hdi2, hic]
          rw [hski, hkeq2, hinsib, if_neg (not_not_intro hov),
            List.getElem?_eq_getElem hsi2lt]
        unfold InsertSpec
        rw [hins]
        set KS2 := ksL ++ sk :: ksR with hKS2def
        set CS2 := csL ++ c1 :: sib :: csR with hCS2def
        set si := KS2.length / 2 with hsidef
        have hsival : si = (m + 1) / 2 := by rw [hsidef, hklen2]
        have hKS2split := take_getElem_drop KS2 si hsi2lt
        have h2p : KS2.Pairwise (· < ·) := (keysSorted_iff_pairwise _).1 hsort2
        have h2p2 := h2p
        rw [hKS2split, List.pairwise_append] at h2p2
        obtain ⟨pwL, pwR, cross⟩ := h2p2
        have hch3 := hch2
        rw [hKS2split, ← List.take_append_drop (si + 1) CS2] at hch3
        rw [show KS2.take si ++ KS2[si] :: KS2.drop (si + 1) =
          (KS2.take si ++ [KS2[si]]) ++ KS2.drop (si + 1) by simp] at hch3
        have htlen : (CS2.take (si + 1)).length = (KS2.take si ++ [KS2[si]]).length := by
          simp only [List.length_take, List.length_append, List.length_singleton,
            hcs2len, hklen2]
          omega
        rw [childrenWf_append htlen] at hch3
        obtain ⟨hpre2, hch4⟩ := hch3
        rw [chainLow_snoc] at hch4
        have hchL : ChildrenWf (NodeWf m d .child) lo (some KS2[si])
            (KS2.take si) (CS2.take (si + 1)) := by
          refine (childrenPre_snoc ?_).1 hpre2
          simp only [List.length_take, hcs2len, hklen2]
          omega
        have hmemtake : ∀ k ∈ KS2.take si, k ∈ KS2 :=
          fun k hk => List.take_subset _ _ hk
        have hmemdrop : ∀ k ∈ KS2.drop (si + 1), k ∈ KS2 :=
          fun k hk => List.drop_subset _ _ hk
        have hskmem : KS2[si] ∈ KS2 := List.getElem_mem hsi2lt
        have hcross2 : ∀ k ∈ KS2.take si, k < KS2[si] :=
          fun k hk => cross k hk _ (List.mem_cons_self _ _)
        refine ⟨entriesOfList csL ++ E1c, E2c ++ entriesOfList csR,
          hEdec, hE1, hE2, ?_, ?_, ?_, ?_, ?_⟩
        · refine ⟨?_, ?_, ?_, ?_, hchL⟩
          · exact (keysSorted_iff_pairwise _).2 pwL
          · exact fun k hk => ⟨(hbnd2 k (hmemtake k hk)).1, hcross2 k hk⟩
          · simp only [internalMin, List.length_take, hklen2]
            omega
          · simp only [List.length_take, hklen2]
            omega
        · refine ⟨?_, ?_, ?_, ?_, hch4⟩
          · exact (keysSorted_iff_pairwise _).2 (List.pairwise_cons.1 pwR).2
          · intro k hk
            exact ⟨(List.pairwise_cons.1 pwR).1 k hk, (hbnd2 k (hmemdrop k hk)).2⟩
          · simp only [internalMin, List.length_drop, hklen2]
            omega
          · simp only [List.length_drop, hklen2]
            omega
        · exact (hbnd2 _ hskmem).1
        · exact (hbnd2 _ hskmem).2
        · show entriesOfList (CS2.take (si + 1)) ++ entriesOfList (CS2.drop (si + 1)) = _
          rw [← entriesOfList_append, List.take_append_drop, hCS2def,
            entriesOfList_append]
          show entriesOfList csL ++ (c1.entries ++ (sib.entries ++ entriesOfList csR)) = _
          rw [← List.append_assoc c1.entries, hcat]
          simp [List.append_assoc]
      · -- the grown internal node still fits
        have hins : insertNode m key value
            (Node.internal (ksL ++ ksR) (csL ++ c :: csR)) =
            (none, .internal (ksL ++ sk :: ksR) (csL ++ c1 :: sib :: csR), none) := by
          simp only [insertNode, hdi2, hic]
          rw [hski, hkeq2, hinsib, if_pos hov]
        unfold InsertSpec
        rw [hins]
        refine ⟨entriesOfList csL ++ E1c, E2c ++ entriesOfList csR,
          hEdec, hE1, hE2, ⟨hsort2, hbnd2, ?_, ?_, hch2⟩, ?_⟩
        · simp only [List.length_append, List.length_cons] at hmin ⊢
          omega
        · have := hov
          simp only [Node.is_overfull, gt_iff_lt, Nat.not_lt] at this
          exact this
        · show entriesOfList (csL ++ c1 :: sib :: csR) = _
          rw [entriesOfList_append]
          show entriesOfList csL ++ (c1.entries ++ (sib.entries ++ entriesOfList csR)) = _
          rw [← List.append_assoc c1.entries, hcat]
          simp [List.append_assoc]
  · -- the key was present below: the value was swapped in place
    obtain ⟨hspeq, hwfc1, E1c, E2c, hceq, hc1eq⟩ := hIH
    subst hspeq
    have hins : insertNode m key value
        (Node.internal (ksL ++ ksR) (csL ++ c :: csR)) =
        (some v0, .internal (ksL ++ ksR) (csL ++ c1 :: csR), none) := by
      simp only [insertNode, hdi2, hic]
    unfold InsertSpec
    rw [hins]
    refine ⟨rfl, ?_, entriesOfList csL ++ E1c, E2c ++ entriesOfList csR, ?_, ?_⟩
    · refine ⟨hsort, hbnd, hmin, hmax, ?_⟩
      rw [childrenWf_append hcsLlen]
      exact ⟨hpre, childrenWf_cons_set hchR hwfc1⟩
    · show entriesOfList (csL ++ c :: csR) = _
      rw [hA, hceq]
      simp [List.append_assoc]
    · show entriesOfList (csL ++ c1 :: csR) = _
      rw [entriesOfList_append]
      show entriesOfList csL ++ (c1.entries ++ entriesOfList csR) = _
      rw [hc1eq]
      simp [List.append_assoc]

theorem insertNode_spec {m : Nat} (hm : 3 ≤ m) (key : K) (value : V) :
    ∀ {d : Nat} {role : TopRole} {lo hi : Option K} {n : Node K V},
      NodeWf m d role lo hi n → lowOk lo key → highOk hi key →
      InsertSpec m d role lo hi key value n := by
  intro d
  induction d with
  | zero =>
    intro role lo hi n hwf hlo hhi
    cases n with
    | internal ks cs => exact absurd hwf (by simp [NodeWf])
    | leaf ks vs => exact insertLeaf_spec hm key value hwf hlo hhi
  | succ d ih =>
    intro role lo hi n hwf hlo hhi
    cases n with
    | leaf ks vs => exact absurd hwf (by simp [NodeWf])
    | internal ks cs =>
      exact insertInternal_step hm key value (fun h a b => ih h a b) hwf hlo hhi

theorem childrenPre_snoc_both {P : Option K → Option K → Node K V → Prop}
    {lo : Option K} {ks : List K} {k : K} {cs : List (Node K V)} {c : Node K V} :
    ChildrenPre P lo (ks ++ [k]) (cs ++ [c]) ↔
      ChildrenPre P lo ks cs ∧ P (chainLow lo ks) (some k) c := by
  constructor
  · intro h
    have hlen : (cs ++ [c]).length = (ks ++ [k]).length := childrenPre_length h
    simp only [List.length_append, List.length_singleton] at hlen
    rw [childrenPre_append (by omega)] at h
    exact ⟨h.1, h.2.1⟩
  · rintro ⟨h1, h2⟩
    rw [childrenPre_append (childrenPre_length h1)]
    exact ⟨h1, h2, trivial⟩

theorem childrenWf_nil_keys {P : Option K → Option K → Node K V → Prop}
    {lo hi : Option K} {c : Node K V} {csR : List (Node K V)}
    (h : ChildrenWf P lo hi [] (c :: csR)) : csR = [] := by
  have := childrenWf_length h
  simpa using this

section RebalanceEval

variable {m i j : Nat} {keys : List K} {children : List (Node K V)}

theorem tryBorrowLeafLeft_eq_none_zero (m : Nat) (keys : List K)
    (children : List (Node K V)) :
    tryBorrowLeafLeft m keys children 0 = none := by
  unfold tryBorrowLeafLeft
  simp

theorem tryBorrowLeafLeft_eq_none_noextra {ck lk : List K} {cv lv : List V}
    (hpos : 0 < i)
    (hc : children[i]? = some (.leaf ck cv))
    (hl : children[i - 1]? = some (.leaf lk lv))
    (hne : ¬ (Node.leaf lk lv : Node K V).has_extra_keys m) :
    tryBorrowLeafLeft m keys children i = none := by
  unfold tryBorrowLeafLeft
  rw [if_pos hpos]
  simp only [hc, hl, if_neg hne]

theorem tryBorrowLeafLeft_eq_some {ck lk2 : List K} {cv lv2 : List V}
    {mk : K} {mv : V}
    (hpos : 0 < i)
    (hc : children[i]? = some (.leaf ck cv))
    (hl : children[i - 1]? = some (.leaf (lk2 ++ [mk]) (lv2 ++ [mv])))
    (hex : (Node.leaf (lk2 ++ [mk]) (lv2 ++ [mv]) : Node K V).has_extra_keys m) :
    tryBorrowLeafLeft m keys children i =
      some (keys.set (i - 1) mk,
            (children.set (i - 1) (.leaf lk2 lv2)).set i (.leaf (mk :: ck) (mv :: cv))) := by
  unfold tryBorrowLeafLeft
  rw [if_pos hpos]
  simp only [hc, hl, if_pos hex, List.getLast?_concat, List.dropLast_concat]

theorem tryBorrowLeafRight_eq_none_nosib {ck : List K} {cv : List V}
    (hc : children[i]? = some (.leaf ck cv))
    (hr : children[i + 1]? = none) :
    tryBorrowLeafRight m keys children i = none := by
  unfold tryBorrowLeafRight
  simp only [hc, hr]

theorem tryBorrowLeafRight_eq_none_noextra {ck rk : List K} {cv rv : List V}
    (hc : children[i]? = some (.leaf ck cv))
    (hr : children[i + 1]? = some (.leaf rk rv))
    (hne : ¬ (Node.leaf rk rv : Node K V).has_extra_keys m) :
    tryBorrowLeafRight m keys children i = none := by
  unfold tryBorrowLeafRight
  simp only [hc, hr, if_neg hne]

theorem tryBorrowLeafRight_eq_some {ck rk2 : List K} {cv rv2 : List V}
    {mk r0 : K} {mv : V}
    (hc : children[i]? = some (.leaf ck cv))
    (hr : children[i + 1]? = some (.leaf (mk :: r0 :: rk2) (mv :: rv2)))
    (hex : (Node.leaf (mk :: r0 :: rk2) (mv :: rv2) : Node K V).has_extra_keys m) :
    tryBorrowLeafRight m keys children i =
      some (keys.set i r0,
            (children.set i (.leaf (ck ++ [mk]) (cv ++ [mv]))).set (i + 1)
              (.leaf (r0 :: rk2) rv2)) := by
  unfold tryBorrowLeafRight
  simp only [hc, hr, if_pos hex]

theorem tryMergeLeafLeft_eq_none_zero (keys : List K) (children : List (Node K V)) :
    tryMergeLeafLeft keys children 0 = none := by
  unfold tryMergeLeafLeft
  simp

theorem tryMergeLeafLeft_eq_some {ck lk : List K} {cv lv : List V} {sepKey : K}
    (hpos : 0 < i)
    (hc : children[i]? = some (.leaf ck cv))
    (hl : children[i - 1]? = some (.leaf lk lv))
    (hk : keys[i - 1]? = some sepKey)
    (hbs : binarySearch keys sepKey = .ok j) :
    tryMergeLeafLeft keys children i =
      some (keys.eraseIdx j,
            (children.set (i - 1) (.leaf (lk ++ ck) (lv ++ cv))).eraseIdx i) := by
  unfold tryMergeLeafLeft eraseSeparator
  rw [if_pos hpos]
  simp only [hc, hl, hk, hbs]

theorem tryMergeLeafRight_eq_some {ck rk : List K} {cv rv : List V} {sepKey : K}
    (hc : children[i]? = some (.leaf ck cv))
    (hr : children[i + 1]? = some (.leaf rk rv))
    (hk : keys[i]? = some sepKey)
    (hbs : binarySearch keys sepKey = .ok j) :
    tryMergeLeafRight keys children i =
      some (keys.eraseIdx j,
            (children.set i (.leaf (ck ++ rk) (cv ++ rv))).eraseIdx (i + 1)) := by
  unfold tryMergeLeafRight eraseSeparator
  simp only [hc, hr, hk, hbs]

theorem tryBorrowInternalLeft_eq_none_zero (m : Nat) (keys : List K)
    (children : List (Node K V)) :
    tryBorrowInternalLeft m keys children 0 = none := by
  unfold tryBorrowInternalLeft
  simp

theorem tryBorrowInternalLeft_eq_none_noextra {ck lk : List K}
    {cch lch : List (Node K V)}
    (hpos : 0 < i)
    (hc : children[i]? = some (.internal ck cch))
    (hl : children[i - 1]? = some (.internal lk lch))
    (hne : ¬ (Node.internal lk lch : Node K V).has_extra_keys m) :
    tryBorrowInternalLeft m keys children i = none := by
  unfold tryBorrowInternalLeft
  rw [if_pos hpos]
  simp only [hc, hl, if_neg hne]

theorem tryBorrowInternalLeft_eq_some {ck lk2 : List K}
    {cch lch2 : List (Node K V)} {mk pkey : K} {mc : Node K V}
    (hpos : 0 < i)
    (hc : children[i]? = some (.internal ck cch))
    (hl : children[i - 1]? = some (.internal (lk2 ++ [mk]) (lch2 ++ [mc])))
    (hex : (Node.internal (lk2 ++ [mk]) (lch2 ++ [mc]) : Node K V).has_extra_keys m)
    (hk : keys[i - 1]? = some pkey) :
    tryBorrowInternalLeft m keys children i =
      some (keys.set (i - 1) mk,
            (children.set (i - 1) (.internal lk2 lch2)).set i
              (.internal (pkey :: ck) (mc :: cch))) := by
  unfold tryBorrowInternalLeft
  rw [if_pos hpos]
  simp only [hc, hl, if_pos hex, List.getLast?_concat, List.dropLast_concat, hk]

theorem tryBorrowInternalRight_eq_none_nosib {ck : List K} {cch : List (Node K V)}
    (hc : children[i]? = some (.internal ck cch))
    (hr : children[i + 1]? = none) :
    tryBorrowInternalRight m keys children i = none := by
  unfold tryBorrowInternalRight
  simp only [hc, hr]

theorem tryBorrowInternalRight_eq_none_noextra {ck rk : List K}
    {cch rch : List (Node K V)}
    (hc : children[i]? = some (.internal ck cch))
    (hr : children[i + 1]? = some (.internal rk rch))
    (hne : ¬ (Node.internal rk rch : Node K V).has_extra_keys m) :
    tryBorrowInternalRight m keys children i = none := by
  unfold tryBorrowInternalRight
  simp only [hc, hr, if_neg hne]

theorem tryBorrowInternalRight_eq_some {ck rk1 : List K}
    {cch rch1 : List (Node K V)} {mk pkey : K} {mc : Node K V}
    (hc : children[i]? = some (.internal ck cch))
    (hr : children[i + 1]? = some (.internal (mk :: rk1) (mc :: rch1)))
    (hex : (Node.internal (mk :: rk1) (mc :: rch1) : Node K V).has_extra_keys m)
    (hk : keys[i]? = some pkey) :
    tryBorrowInternalRight m keys children i =
      some (keys.set i mk,
            (children.set i (.internal (ck ++ [pkey]) (cch ++ [mc]))).set (i + 1)
              (.internal rk1 rch1)) := by
  unfold tryBorrowInternalRight
  simp only [hc, hr, if_pos hex, hk]

theorem tryMergeInternalLeft_eq_none_zero (keys : List K)
    (children : List (Node K V)) :
    tryMergeInternalLeft keys children 0 = none := by
  unfold tryMergeInternalLeft
  simp

theorem tryMergeInternalLeft_eq_some {ck lk : List K} {cch lch : List (Node K V)}
    {pkey : K}
    (hpos : 0 < i)
    (hc : children[i]? = some (.internal ck cch))
    (hl : children[i - 1]? = some (.internal lk lch))
    (hk : keys[i - 1]? = some pkey)
    (hbs : binarySearch keys pkey = .ok j) :
    tryMergeInternalLeft keys children i =
      some (keys.eraseIdx j,
            (children.set (i - 1) (.internal (lk ++ pkey :: ck) (lch ++ cch))).eraseIdx i) := by
  unfold tryMergeInternalLeft eraseSeparator
  rw [if_pos hpos]
  simp only [hc, hl, hk, hbs]

theorem tryMergeInternalRight_eq_some {ck rk : List K} {cch rch : List (Node K V)}
    {pkey : K}
    (hc : children[i]? = some (.internal ck cch))
    (hr : children[i + 1]? = some (.internal rk rch))
    (hk : keys[i]? = some pkey)
    (hbs : binarySearch keys pkey = .ok j) :
    tryMergeInternalRight keys children i =
      some (keys.eraseIdx j,
            (children.set i (.internal (ck ++ pkey :: rk) (cch ++ rch))).eraseIdx (i + 1)) := by
  unfold tryMergeInternalRight eraseSeparator
  simp only [hc, hr, hk, hbs]

end RebalanceEval

theorem childrenWf_cons_set_low {P : Option K → Option K → Node K V → Prop}
    {mid mid2 hi : Option K} {ksR : List K} {c c1 : Node K V}
    {csR : List (Node K V)}
    (h : ChildrenWf P mid hi ksR (c :: csR))
    (h1 : P mid2 (headHigh hi ksR) c1) :
    ChildrenWf P mid2 hi ksR (c1 :: csR) := by
  cases ksR with
  | nil => cases csR with
    | nil => exact h1
    | cons _ _ => exact absurd h (by simp [ChildrenWf])
  | cons k0 ks2 => exact ⟨h1, h.2⟩

theorem chainLow_lowLt {lo : Option K} {ksL : List K} {sepR : K}
    (hbndsep : lowLt lo sepR) (hcross : ∀ x ∈ ksL, x < sepR) :
    lowLt (chainLow lo ksL) sepR := by
  by_cases h : ksL = []
  · subst h
    exact hbndsep
  · obtain ⟨k, hk, hcl⟩ := chainLow_mem lo h
    rw [hcl]
    exact hcross k hk

theorem pairwise_of_sorted_append_cons {ksL ksR' : List K} {sepR : K}
    (hsort : keysSorted (ksL ++ sepR :: ksR')) :
    (∀ x ∈ ksL, x < sepR) ∧ (∀ x ∈ ksR', sepR < x) ∧
      ksL.Pairwise (· < ·) ∧ ksR'.Pairwise (· < ·) ∧
      (∀ x ∈ ksL, ∀ y ∈ ksR', x < y) := by
  have hp := (keysSorted_iff_pairwise _).1 hsort
  rw [List.pairwise_append] at hp
  obtain ⟨h1, h2, h3⟩ := hp
  rw [List.pairwise_cons] at h2
  refine ⟨fun x hx => h3 x hx sepR (by simp), h2.1, h1, h2.2, ?_⟩
  exact fun x hx y hy => h3 x hx y (by simp [hy])

theorem assembleBorrowLeafRight {m : Nat} (hm : 3 ≤ m) {lo hi : Option K}
    {ksL ksR' : List K} {sepR mk r0 : K} {csL csR' : List (Node K V)}
    {ck rk2 : List K} {cv rv2 : List V} {mv : V}
    (hcsLlen : csL.length = ksL.length)
    (hpre : ChildrenPre (NodeWf m 0 .child) lo ksL csL)
    (hc1 : NodeWf m 0 .shrunk (chainLow lo ksL) (some sepR) (.leaf ck cv))
    (hund : ck.length < (m + 1) / 2)
    (hcnt : (m + 1) / 2 ≤ ck.length + 1)
    (hrt : ChildrenWf (NodeWf m 0 .child) (some sepR) hi ksR'
      ((.leaf (mk :: r0 :: rk2) (mv :: rv2)) :: csR'))
    (hex : (m + 1) / 2 < (mk :: r0 :: rk2).length)
    (hsort : keysSorted (ksL ++ sepR :: ksR'))
    (hbnd : ∀ k ∈ ksL ++ sepR :: ksR', lowLt lo k ∧ highOk hi k) :
    RebalancedParent m 0 lo hi (ksL ++ sepR :: ksR')
      (csL ++ (.leaf ck cv) :: (.leaf (mk :: r0 :: rk2) (mv :: rv2)) :: csR') 0
      (ksL ++ r0 :: ksR')
      (csL ++ (.leaf (ck ++ [mk]) (cv ++ [mv])) ::
        (.leaf (r0 :: rk2) rv2) :: csR') := by
  have hcr : NodeWf m 0 .child (some sepR) (headHigh hi ksR')
      (.leaf (mk :: r0 :: rk2) (mv :: rv2)) := childrenWf_cons_elim hrt
  obtain ⟨hlenr, hsortr, hbndr, hminr, hmaxr⟩ := hcr
  obtain ⟨hlenc, hsortc, hbndc, _, hmaxc⟩ := hc1
  obtain ⟨hLsep, hsepR', hsortL, hsortR', hcrossLR'⟩ :=
    pairwise_of_sorted_append_cons hsort
  have hsepbnd := hbnd sepR (by simp)
  have hsep_mk : sepR ≤ mk := (hbndr mk (by simp)).1
  have hmk_r0 : mk < r0 := hsortr.1
  have hr0_hh : highOk (headHigh hi ksR') r0 := (hbndr r0 (by simp)).2
  have hr0hi : highOk hi r0 :=
    headHigh_highOk hr0_hh (fun k hk => (hbnd k (by simp [hk])).2)
  have hr0R' : ∀ x ∈ ksR', r0 < x := lt_of_headHigh hr0_hh hsortR'
  have hlor0 : lowLt lo r0 :=
    lowLt_mono hsepbnd.1 (le_trans hsep_mk (le_of_lt hmk_r0))
  have hckmax : ∀ x ∈ ck, x < sepR := fun x hx => (hbndc x hx).2
  have hmidsep : lowLt (chainLow lo ksL) sepR := chainLow_lowLt hsepbnd.1 hLsep
  have hLr0 : ∀ x ∈ ksL, x < r0 :=
    fun x hx => lt_trans (hLsep x hx) (lt_of_le_of_lt hsep_mk hmk_r0)
  have hrvlen : rv2.length = rk2.length + 1 := by
    simp only [List.length_cons] at hlenr
    omega
  refine ⟨?_, ?_, ?_, ?_, ?_⟩
  · refine keysSorted_middle_insert ?_ hLr0 hr0R'
    exact (keysSorted_iff_pairwise _).2
      (List.pairwise_append.2 ⟨hsortL, hsortR', hcrossLR'⟩)
  · intro k hkm
    rcases List.mem_append.1 hkm with h | h
    · exact hbnd k (by simp [h])
    · rcases List.mem_cons.1 h with rfl | h
      · exact ⟨hlor0, hr0hi⟩
      · exact hbnd k (by simp [h])
  · simp
  · rw [childrenWf_append hcsLlen]
    refine ⟨hpre, ?_, childrenWf_cons_set_low hrt ?_⟩
    · -- the grown cursor leaf
      refine ⟨by simp [hlenc], ?_, ?_, ?_, ?_⟩
      · refine (keysSorted_iff_pairwise _).2 (List.pairwise_append.2
          ⟨(keysSorted_iff_pairwise _).1 hsortc, List.pairwise_singleton _ _, ?_⟩)
        intro x hx y hy
        rcases List.mem_singleton.1 hy with rfl
        exact lt_of_lt_of_le (hckmax x hx) hsep_mk
      · intro k hkm
        rcases List.mem_append.1 hkm with h | h
        · exact ⟨(hbndc k h).1,
            lt_trans (hckmax k h) (lt_of_le_of_lt hsep_mk hmk_r0)⟩
        · rcases List.mem_singleton.1 h with rfl
          exact ⟨lowOk_mono (lowOk_of_lowLt hmidsep) hsep_mk, hmk_r0⟩
      · simp only [leafMin, List.length_append, List.length_singleton]
        omega
      · simp only [List.length_append, List.length_singleton]
        omega
    · -- the shrunk right sibling
      refine ⟨by simp [hrvlen], hsortr.2, ?_, ?_, ?_⟩
      · intro k hkm
        rcases List.mem_cons.1 hkm with rfl | h
        · exact ⟨le_refl _, hr0_hh⟩
        · refine ⟨le_of_lt ?_, (hbndr k (by simp [h])).2⟩
          have := (keysSorted_iff_pairwise _).1 hsortr.2
          exact (List.pairwise_cons.1 this).1 k h
      · simp only [leafMin, List.length_cons]
        simp only [List.length_cons] at hex
        omega
      · simp only [List.length_cons] at hmaxr ⊢
        omega
  · rw [entriesOfList_append, entriesOfList_append]
    simp only [entriesOfList, Node.entries]
    rw [zip_middle ck [] mk cv [] mv hlenc.symm]
    simp [List.zip_cons_cons, List.append_assoc]

theorem assembleMergeLeafRight {m : Nat} (hm : 3 ≤ m) {lo hi : Option K}
    {ksL ksR' : List K} {sepR : K} {csL csR' : List (Node K V)}
    {ck rk : List K} {cv rv : List V}
    (hcsLlen : csL.length = ksL.length)
    (hpre : ChildrenPre (NodeWf m 0 .child) lo ksL csL)
    (hc1 : NodeWf m 0 .shrunk (chainLow lo ksL) (some sepR) (.leaf ck cv))
    (hund : ck.length < (m + 1) / 2)
    (hrt : ChildrenWf (NodeWf m 0 .child) (some sepR) hi ksR' ((.leaf rk rv) :: csR'))
    (hnex : rk.length ≤ (m + 1) / 2)
    (hsort : keysSorted (ksL ++ sepR :: ksR'))
    (hbnd : ∀ k ∈ ksL ++ sepR :: ksR', lowLt lo k ∧ highOk hi k) :
    RebalancedParent m 0 lo hi (ksL ++ sepR :: ksR')
      (csL ++ (.leaf ck cv) :: (.leaf rk rv) :: csR') 1
      (ksL ++ ksR')
      (csL ++ (.leaf (ck ++ rk) (cv ++ rv)) :: csR') := by
  have hcr : NodeWf m 0 .child (some sepR) (headHigh hi ksR') (.leaf rk rv) :=
    childrenWf_cons_elim hrt
  obtain ⟨hlenr, hsortr, hbndr, hminr, hmaxr⟩ := hcr
  obtain ⟨hlenc, hsortc, hbndc, _, hmaxc⟩ := hc1
  obtain ⟨hLsep, hsepR', hsortL, hsortR', hcrossLR'⟩ :=
    pairwise_of_sorted_append_cons hsort
  have hsepbnd := hbnd sepR (by simp)
  have hckmax : ∀ x ∈ ck, x < sepR := fun x hx => (hbndc x hx).2
  have hrkmin : ∀ x ∈ rk, sepR ≤ x := fun x hx => (hbndr x hx).1
  have hmidsep : lowLt (chainLow lo ksL) sepR := chainLow_lowLt hsepbnd.1 hLsep
  have hsep_hh : highOk (headHigh hi ksR') sepR := headHigh_key_of hsepR' hsepbnd.2
  refine ⟨?_, ?_, ?_, ?_, ?_⟩
  · exact (keysSorted_iff_pairwise _).2
      (List.pairwise_append.2 ⟨hsortL, hsortR', hcrossLR'⟩)
  · intro k hkm
    rcases List.mem_append.1 hkm with h | h
    · exact hbnd k (by simp [h])
    · exact hbnd k (by simp [h])
  · simp only [List.length_append, List.length_cons]
    omega
  · rw [childrenWf_append hcsLlen]
    refine ⟨hpre, childrenWf_cons_set_low hrt ?_⟩
    refine ⟨by simp [hlenc, hlenr], ?_, ?_, ?_, ?_⟩
    · refine (keysSorted_iff_pairwise _).2 (List.pairwise_append.2
        ⟨(keysSorted_iff_pairwise _).1 hsortc,
         (keysSorted_iff_pairwise _).1 hsortr, ?_⟩)
      exact fun x hx y hy => lt_of_lt_of_le (hckmax x hx) (hrkmin y hy)
    · intro k hkm
      rcases List.mem_append.1 hkm with h | h
      · exact ⟨(hbndc k h).1, highOk_of_lt_highOk (hckmax k h) hsep_hh⟩
      · exact ⟨lowOk_mono (lowOk_of_lowLt hmidsep) (hrkmin k h), (hbndr k h).2⟩
    · simp only [leafMin, List.length_append]
      simp only [leafMin] at hminr
      omega
    · simp only [List.length_append]
      omega
  · rw [entriesOfList_append, entriesOfList_append]
    simp only [entriesOfList, Node.entries]
    rw [List.zip_append hlenc.symm]
    simp [List.append_assoc]

theorem lowLt_through_chainLow {lo : Option K} {ksL' : List K} {x y : K}
    (h : lowOk (chainLow lo ksL') x) (hb : ∀ k ∈ ksL', lowLt lo k)
    (hlt : x < y) : lowLt lo y := by
  by_cases hn : ksL' = []
  · subst hn
    exact lowLt_of_lowOk h hlt
  · obtain ⟨k, hk, hcl⟩ := chainLow_mem lo hn
    rw [hcl] at h
    exact lowLt_mono (hb k hk) (le_trans h (le_of_lt hlt))

theorem assembleBorrowLeafLeft {m : Nat} (hm : 3 ≤ m) {lo hi : Option K}
    {ksL' ksR : List K} {sepL mk : K} {csL' csR : List (Node K V)}
    {ck lk2 : List K} {cv lv2 : List V} {mv : V} {c0 : Node K V}
    (hcsLlen : csL'.length = ksL'.length)
    (hpre : ChildrenPre (NodeWf m 0 .child) lo ksL' csL')
    (hcl : NodeWf m 0 .child (chainLow lo ksL') (some sepL)
      (.leaf (lk2 ++ [mk]) (lv2 ++ [mv])))
    (hex : (m + 1) / 2 < (lk2 ++ [mk]).length)
    (hc1 : NodeWf m 0 .shrunk (some sepL) (headHigh hi ksR) (.leaf ck cv))
    (hund : ck.length < (m + 1) / 2)
    (hcnt : (m + 1) / 2 ≤ ck.length + 1)
    (hchR : ChildrenWf (NodeWf m 0 .child) (some sepL) hi ksR (c0 :: csR))
    (hsort : keysSorted (ksL' ++ sepL :: ksR))
    (hbnd : ∀ k ∈ ksL' ++ sepL :: ksR, lowLt lo k ∧ highOk hi k) :
    RebalancedParent m 0 lo hi (ksL' ++ sepL :: ksR)
      (csL' ++ (.leaf (lk2 ++ [mk]) (lv2 ++ [mv])) :: (.leaf ck cv) :: csR) 0
      (ksL' ++ mk :: ksR)
      (csL' ++ (.leaf lk2 lv2) :: (.leaf (mk :: ck) (mv :: cv)) :: csR) := by
  obtain ⟨hlenl, hsortl, hbndl, hminl, hmaxl⟩ := hcl
  obtain ⟨hlenc, hsortc, hbndc, _, hmaxc⟩ := hc1
  obtain ⟨hLsep, hsepR, hsortL', hsortR, hcrossLR⟩ :=
    pairwise_of_sorted_append_cons hsort
  have hsepbnd := hbnd sepL (by simp)
  have hmksep : mk < sepL := (hbndl mk (by simp)).2
  have hckmin : ∀ x ∈ ck, sepL ≤ x := fun x hx => (hbndc x hx).1
  have hsep_hh : highOk (headHigh hi ksR) sepL := headHigh_key_of hsepR hsepbnd.2
  have hmk_hh : highOk (headHigh hi ksR) mk := highOk_of_lt_highOk hmksep hsep_hh
  have hlpw := (keysSorted_iff_pairwise _).1 hsortl
  rw [List.pairwise_append] at hlpw
  obtain ⟨hpwlk2, _, hcross_lk⟩ := hlpw
  have hlk2mk : ∀ x ∈ lk2, x < mk := fun x hx => hcross_lk x hx mk (by simp)
  have hlk2ne : lk2 ≠ [] := by
    intro h0
    rw [h0] at hex
    simp at hex
    omega
  obtain ⟨l0, hl0⟩ := List.exists_mem_of_ne_nil _ hlk2ne
  have hL'mk : ∀ x ∈ ksL', x < mk := by
    intro x hx
    obtain ⟨k, hk, hcl'⟩ := chainLow_mem lo (List.ne_nil_of_mem hx)
    have h1 : x ≤ k := le_chainLow hsortL' x hx lo k hcl'
    have h2 : lowOk (chainLow lo ksL') l0 := (hbndl l0 (by simp [hl0])).1
    rw [hcl'] at h2
    exact lt_of_le_of_lt (le_trans h1 h2) (hlk2mk l0 hl0)
  have hmkR : ∀ x ∈ ksR, mk < x := fun x hx => lt_trans hmksep (hsepR x hx)
  have hlomk : lowLt lo mk :=
    lowLt_through_chainLow (hbndl l0 (by simp [hl0])).1
      (fun k hk => (hbnd k (by simp [hk])).1) (hlk2mk l0 hl0)
  have hmkhi : highOk hi mk := highOk_of_lt_highOk hmksep hsepbnd.2
  have hlv2len : lv2.length = lk2.length := by
    simp only [List.length_append, List.length_singleton] at hlenl
    omega
  refine ⟨?_, ?_, ?_, ?_, ?_⟩
  · refine keysSorted_middle_insert ?_ hL'mk hmkR
    exact (keysSorted_iff_pairwise _).2
      (List.pairwise_append.2 ⟨hsortL', hsortR, hcrossLR⟩)
  · intro k hkm
    rcases List.mem_append.1 hkm with h | h
    · exact hbnd k (by simp [h])
    · rcases List.mem_cons.1 h with rfl | h
      · exact ⟨hlomk, hmkhi⟩
      · exact hbnd k (by simp [h])
  · simp
  · rw [childrenWf_append hcsLlen]
    refine ⟨hpre, ?_, childrenWf_cons_set_low hchR ?_⟩
    · -- the shrunk left sibling
      refine ⟨by simp [hlv2len], (keysSorted_iff_pairwise _).2 hpwlk2, ?_, ?_, ?_⟩
      · intro k hkm
        refine ⟨(hbndl k (by simp [hkm])).1, hlk2mk k hkm⟩
      · simp only [leafMin]
        simp only [List.length_append, List.length_singleton] at hex
        omega
      · simp only [List.length_append, List.length_singleton] at hmaxl ⊢
        omega
    · -- the grown cursor leaf
      refine ⟨by simp [hlenc], ?_, ?_, ?_, ?_⟩
      · refine (keysSorted_iff_pairwise _).2 (List.pairwise_cons.2
          ⟨fun x hx => lt_of_lt_of_le hmksep (hckmin x hx),
           (keysSorted_iff_pairwise _).1 hsortc⟩)
      · intro k hkm
        rcases List.mem_cons.1 hkm with rfl | h
        · exact ⟨le_refl _, hmk_hh⟩
        · exact ⟨le_of_lt (lt_of_lt_of_le hmksep (hckmin k h)), (hbndc k h).2⟩
      · simp only [leafMin, List.length_cons]
        omega
      · simp only [List.length_cons]
        omega
  · rw [entriesOfList_append, entriesOfList_append]
    simp only [entriesOfList, Node.entries]
    rw [zip_middle lk2 [] mk lv2 [] mv hlv2len.symm]
    simp [List.zip_cons_cons, List.append_assoc]

theorem assembleMergeLeafLeft {m : Nat} (hm : 3 ≤ m) {lo hi : Option K}
    {ksL' ksR : List K} {sepL : K} {csL' csR : List (Node K V)}
    {ck lk : List K} {cv lv : List V} {c0 : Node K V}
    (hcsLlen : csL'.length = ksL'.length)
    (hpre : ChildrenPre (NodeWf m 0 .child) lo ksL' csL')
    (hcl : NodeWf m 0 .child (chainLow lo ksL') (some sepL) (.leaf lk lv))
    (hnex : lk.length ≤ (m + 1) / 2)
    (hc1 : NodeWf m 0 .shrunk (some sepL) (headHigh hi ksR) (.leaf ck cv))
    (hund : ck.length < (m + 1) / 2)
    (hchR : ChildrenWf (NodeWf m 0 .child) (some sepL) hi ksR (c0 :: csR))
    (hsort : keysSorted (ksL' ++ sepL :: ksR))
    (hbnd : ∀ k ∈ ksL' ++ sepL :: ksR, lowLt lo k ∧ highOk hi k) :
    RebalancedParent m 0 lo hi (ksL' ++ sepL :: ksR)
      (csL' ++ (.leaf lk lv) :: (.leaf ck cv) :: csR) 1
      (ksL' ++ ksR)
      (csL' ++ (.leaf (lk ++ ck) (lv ++ cv)) :: csR) := by
  obtain ⟨hlenl, hsortl, hbndl, hminl, hmaxl⟩ := hcl
  obtain ⟨hlenc, hsortc, hbndc, _, hmaxc⟩ := hc1
  obtain ⟨hLsep, hsepR, hsortL', hsortR, hcrossLR⟩ :=
    pairwise_of_sorted_append_cons hsort
  have hsepbnd := hbnd sepL (by simp)
  have hlkmax : ∀ x ∈ lk, x < sepL := fun x hx => (hbndl x hx).2
  have hckmin : ∀ x ∈ ck, sepL ≤ x := fun x hx => (hbndc x hx).1
  have hsep_hh : highOk (headHigh hi ksR) sepL := headHigh_key_of hsepR hsepbnd.2
  have hmidsep : lowLt (chainLow lo ksL') sepL := chainLow_lowLt hsepbnd.1 hLsep
  refine ⟨?_, ?_, ?_, ?_, ?_⟩
  · exact (keysSorted_iff_pairwise _).2
      (List.pairwise_append.2 ⟨hsortL', hsortR, hcrossLR⟩)
  · intro k hkm
    rcases List.mem_append.1 hkm with h | h
    · exact hbnd k (by simp [h])
    · exact hbnd k (by simp [h])
  · simp only [List.length_append, List.length_cons]
    omega
  · rw [childrenWf_append hcsLlen]
    refine ⟨hpre, childrenWf_cons_set_low hchR ?_⟩
    refine ⟨by simp [hlenl, hlenc], ?_, ?_, ?_, ?_⟩
    · refine (keysSorted_iff_pairwise _).2 (List.pairwise_append.2
        ⟨(keysSorted_iff_pairwise _).1 hsortl,
         (keysSorted_iff_pairwise _).1 hsortc, ?_⟩)
      exact fun x hx y hy => lt_of_lt_of_le (hlkmax x hx) (hckmin y hy)
    · intro k hkm
      rcases List.mem_append.1 hkm with h | h
      · exact ⟨(hbndl k h).1, highOk_of_lt_highOk (hlkmax k h) hsep_hh⟩
      · exact ⟨lowOk_mono (lowOk_of_lowLt hmidsep) (hckmin k h), (hbndc k h).2⟩
    · simp only [leafMin, List.length_append]
      simp only [leafMin] at hminl
      omega
    · simp only [List.length_append]
      omega
  · rw [entriesOfList_append, entriesOfList_append]
    simp only [entriesOfList, Node.entries]
    rw [List.zip_append (hlenl.symm)]
    simp [List.append_assoc]

theorem childrenWf_snoc {P : Option K → Option K → Node K V → Prop} :
    ∀ {ks : List K} {lo hi : Option K} {k : K} {cs : List (Node K V)} {c : Node K V},
      ChildrenWf P lo (some k) ks cs → P (some k) hi c →
      ChildrenWf P lo hi (ks ++ [k]) (cs ++ [c]) := by
  intro ks
  induction ks with
  | nil =>
    intro lo hi k cs c h hc
    cases cs with
    | nil => exact absurd h (by simp [ChildrenWf])
    | cons c0 cs2 =>
      cases cs2 with
      | nil => exact ⟨h, hc⟩
      | cons c3 cs3 => exact absurd h (by simp [ChildrenWf])
  | cons k2 ks2 ih =>
    intro lo hi k cs c h hc
    cases cs with
    | nil => exact absurd h (by simp [ChildrenWf])
    | cons c0 cs2 => exact ⟨h.1, ih h.2 hc⟩

theorem childrenWf_snoc_elim {P : Option K → Option K → Node K V → Prop}
    {ks : List K} {lo hi : Option K} {k : K} {cs : List (Node K V)} {c : Node K V}
    (h : ChildrenWf P lo hi (ks ++ [k]) (cs ++ [c])) :
    ChildrenWf P lo (some k) ks cs ∧ P (some k) hi c := by
  have hlen : (cs ++ [c]).length = (ks ++ [k]).length + 1 := childrenWf_length h
  simp only [List.length_append, List.length_singleton] at hlen
  rw [show ks ++ [k] = (ks ++ [k]) ++ [] by simp] at h
  rw [childrenWf_append (by simp; omega)] at h
  obtain ⟨h1, h2⟩ := h
  rw [chainLow_snoc] at h2
  exact ⟨(childrenPre_snoc (by omega)).1 h1, h2⟩

theorem lowLt_through_chainLow_strict {lo : Option K} {ksL' : List K} {x : K}
    (h : lowLt (chainLow lo ksL') x) (hb : ∀ k ∈ ksL', lowLt lo k) :
    lowLt lo x := by
  by_cases hn : ksL' = []
  · subst hn
    exact h
  · obtain ⟨k, hk, hcl⟩ := chainLow_mem lo hn
    rw [hcl] at h
    exact lowLt_mono (hb k hk) (le_of_lt h)

theorem mem_lt_of_chainLow_lt {lo : Option K} {ksL' : List K} {x : K}
    (hp : ksL'.Pairwise (· < ·))
    (h : lowLt (chainLow lo ksL') x) :
    ∀ y ∈ ksL', y < x := by
  intro y hy
  obtain ⟨k, hk, hcl⟩ := chainLow_mem lo (List.ne_nil_of_mem hy)
  have h1 : y ≤ k := le_chainLow hp y hy lo k hcl
  rw [hcl] at h
  exact lt_of_le_of_lt h1 h

theorem assembleBorrowInternalRight {m d : Nat} (hm : 3 ≤ m) {lo hi : Option K}
    {ksL ksR' : List K} {sepR mk : K} {csL csR' : List (Node K V)}
    {ck rk1 : List K} {cch rch1 : List (Node K V)} {mc : Node K V}
    (hcsLlen : csL.length = ksL.length)
    (hpre : ChildrenPre (NodeWf m (d + 1) .child) lo ksL csL)
    (hc1 : NodeWf m (d + 1) .shrunk (chainLow lo ksL) (some sepR) (.internal ck cch))
    (hund : ck.length < m / 2)
    (hcnt : m / 2 ≤ ck.length + 1)
    (hrt : ChildrenWf (NodeWf m (d + 1) .child) (some sepR) hi ksR'
      ((.internal (mk :: rk1) (mc :: rch1)) :: csR'))
    (hex : m / 2 < (mk :: rk1).length)
    (hsort : keysSorted (ksL ++ sepR :: ksR'))
    (hbnd : ∀ k ∈ ksL ++ sepR :: ksR', lowLt lo k ∧ highOk hi k) :
    RebalancedParent m (d + 1) lo hi (ksL ++ sepR :: ksR')
      (csL ++ (.internal ck cch) :: (.internal (mk :: rk1) (mc :: rch1)) :: csR') 0
      (ksL ++ mk :: ksR')
      (csL ++ (.internal (ck ++ [sepR]) (cch ++ [mc])) ::
        (.internal rk1 rch1) :: csR') := by
  have hcr : NodeWf m (d + 1) .child (some sepR) (headHigh hi ksR')
      (.internal (mk :: rk1) (mc :: rch1)) := childrenWf_cons_elim hrt
  obtain ⟨hsortr, hbndr, hminr, hmaxr, hchr⟩ := hcr
  obtain ⟨hsortc, hbndc, _, hmaxc, hchc⟩ := hc1
  obtain ⟨hLsep, hsepR', hsortL, hsortR', hcrossLR'⟩ :=
    pairwise_of_sorted_append_cons hsort
  have hsepbnd := hbnd sepR (by simp)
  have hsep_mk : sepR < mk := (hbndr mk (by simp)).1
  have hmk_hh : highOk (headHigh hi ksR') mk := (hbndr mk (by simp)).2
  have hmkhi : highOk hi mk :=
    headHigh_highOk hmk_hh (fun k hk => (hbnd k (by simp [hk])).2)
  have hmkR' : ∀ x ∈ ksR', mk < x := lt_of_headHigh hmk_hh hsortR'
  have hlomk : lowLt lo mk := lowLt_mono hsepbnd.1 (le_of_lt hsep_mk)
  have hLmk : ∀ x ∈ ksL, x < mk := fun x hx => lt_trans (hLsep x hx) hsep_mk
  have hckmax : ∀ x ∈ ck, x < sepR := fun x hx => (hbndc x hx).2
  have hmidsepR : lowLt (chainLow lo ksL) sepR := chainLow_lowLt hsepbnd.1 hLsep
  have hpwr := (keysSorted_iff_pairwise _).1 hsortr
  rw [List.pairwise_cons] at hpwr
  refine ⟨?_, ?_, ?_, ?_, ?_⟩
  · refine keysSorted_middle_insert ?_ hLmk hmkR'
    exact (keysSorted_iff_pairwise _).2
      (List.pairwise_append.2 ⟨hsortL, hsortR', hcrossLR'⟩)
  · intro k hkm
    rcases List.mem_append.1 hkm with h | h
    · exact hbnd k (by simp [h])
    · rcases List.mem_cons.1 h with rfl | h
      · exact ⟨hlomk, hmkhi⟩
      · exact hbnd k (by simp [h])
  · simp
  · rw [childrenWf_append hcsLlen]
    refine ⟨hpre, ?_, childrenWf_cons_set_low hrt ?_⟩
    · -- the grown cursor node
      refine ⟨?_, ?_, ?_, ?_, childrenWf_snoc hchc hchr.1⟩
      · refine (keysSorted_iff_pairwise _).2 (List.pairwise_append.2
          ⟨(keysSorted_iff_pairwise _).1 hsortc, List.pairwise_singleton _ _, ?_⟩)
        intro x hx y hy
        rcases List.mem_singleton.1 hy with rfl
        exact hckmax x hx
      · intro k hkm
        rcases List.mem_append.1 hkm with h | h
        · exact ⟨(hbndc k h).1, lt_trans (hckmax k h) hsep_mk⟩
        · rcases List.mem_singleton.1 h with rfl
          exact ⟨hmidsepR, hsep_mk⟩
      · simp only [internalMin, List.length_append, List.length_singleton]
        omega
      · simp only [List.length_append, List.length_singleton]
        omega
    · -- the shrunk right sibling
      refine ⟨(keysSorted_iff_pairwise _).2 hpwr.2, ?_, ?_, ?_, hchr.2⟩
      · intro k hkm
        exact ⟨hpwr.1 k hkm, (hbndr k (by simp [hkm])).2⟩
      · simp only [internalMin]
        simp only [List.length_cons] at hex
        omega
      · simp only [List.length_cons] at hmaxr
        omega
  · rw [entriesOfList_append, entriesOfList_append]
    simp [entriesOfList_append, entriesOfList, Node.entries, List.append_assoc]

theorem assembleMergeInternalRight {m d : Nat} (hm : 3 ≤ m) {lo hi : Option K}
    {ksL ksR' : List K} {sepR : K} {csL csR' : List (Node K V)}
    {ck rk : List K} {cch rch : List (Node K V)}
    (hcsLlen : csL.length = ksL.length)
    (hpre : ChildrenPre (NodeWf m (d + 1) .child) lo ksL csL)
    (hc1 : NodeWf m (d + 1) .shrunk (chainLow lo ksL) (some sepR) (.internal ck cch))
    (hund : ck.length < m / 2)
    (hrt : ChildrenWf (NodeWf m (d + 1) .child) (some sepR) hi ksR'
      ((.internal rk rch) :: csR'))
    (hnex : rk.length ≤ m / 2)
    (hsort : keysSorted (ksL ++ sepR :: ksR'))
    (hbnd : ∀ k ∈ ksL ++ sepR :: ksR', lowLt lo k ∧ highOk hi k) :
    RebalancedParent m (d + 1) lo hi (ksL ++ sepR :: ksR')
      (csL ++ (.internal ck cch) :: (.internal rk rch) :: csR') 1
      (ksL ++ ksR')
      (csL ++ (.internal (ck ++ sepR :: rk) (cch ++ rch)) :: csR') := by
  have hcr : NodeWf m (d + 1) .child (some sepR) (headHigh hi ksR')
      (.internal rk rch) := childrenWf_cons_elim hrt
  obtain ⟨hsortr, hbndr, hminr, hmaxr, hchr⟩ := hcr
  obtain ⟨hsortc, hbndc, _, hmaxc, hchc⟩ := hc1
  obtain ⟨hLsep, hsepR', hsortL, hsortR', hcrossLR'⟩ :=
    pairwise_of_sorted_append_cons hsort
  have hsepbnd := hbnd sepR (by simp)
  have hckmax : ∀ x ∈ ck, x < sepR := fun x hx => (hbndc x hx).2
  have hrkmin : ∀ x ∈ rk, sepR < x := fun x hx => (hbndr x hx).1
  have hmidsepR : lowLt (chainLow lo ksL) sepR := chainLow_lowLt hsepbnd.1 hLsep
  have hsep_hh : highOk (headHigh hi ksR') sepR := headHigh_key_of hsepR' hsepbnd.2
  have hcchlen : cch.length = ck.length + 1 := childrenWf_length hchc
  refine ⟨?_, ?_, ?_, ?_, ?_⟩
  · exact (keysSorted_iff_pairwise _).2
      (List.pairwise_append.2 ⟨hsortL, hsortR', hcrossLR'⟩)
  · intro k hkm
    rcases List.mem_append.1 hkm with h | h
    · exact hbnd k (by simp [h])
    · exact hbnd k (by simp [h])
  · simp only [List.length_append, List.length_cons]
    omega
  · rw [childrenWf_append hcsLlen]
    refine ⟨hpre, childrenWf_cons_set_low hrt ?_⟩
    refine ⟨?_, ?_, ?_, ?_, ?_⟩
    · refine keysSorted_middle_insert ?_ hckmax hrkmin
      exact (keysSorted_iff_pairwise _).2 (List.pairwise_append.2
        ⟨(keysSorted_iff_pairwise _).1 hsortc,
         (keysSorted_iff_pairwise _).1 hsortr,
         fun x hx y hy => lt_trans (hckmax x hx) (hrkmin y hy)⟩)
    · intro k hkm
      rcases List.mem_append.1 hkm with h | h
      · exact ⟨(hbndc k h).1, highOk_of_lt_highOk (hckmax k h) hsep_hh⟩
      · rcases List.mem_cons.1 h with rfl | h
        · exact ⟨hmidsepR, hsep_hh⟩
        · exact ⟨lowLt_mono hmidsepR (le_of_lt (hrkmin k h)), (hbndr k h).2⟩
    · simp only [internalMin, List.length_append, List.length_cons]
      simp only [internalMin] at hminr
      omega
    · simp only [List.length_append, List.length_cons]
      omega
    · rw [show ck ++ sepR :: rk = (ck ++ [sepR]) ++ rk by simp]
      rw [childrenWf_append (by simp [hcchlen])]
      refine ⟨(childrenPre_snoc (by omega)).2 hchc, ?_⟩
      rw [chainLow_snoc]
      exact hchr
  · rw [entriesOfList_append, entriesOfList_append]
    simp [entriesOfList_append, entriesOfList, Node.entries, List.append_assoc]

theorem assembleBorrowInternalLeft {m d : Nat} (hm : 3 ≤ m) {lo hi : Option K}
    {ksL' ksR : List K} {sepL mk : K} {csL' csR : List (Node K V)}
    {ck lk2 : List K} {cch lch2 : List (Node K V)} {mc c0 : Node K V}
    (hcsLlen : csL'.length = ksL'.length)
    (hpre : ChildrenPre (NodeWf m (d + 1) .child) lo ksL' csL')
    (hcl : NodeWf m (d + 1) .child (chainLow lo ksL') (some sepL)
      (.internal (lk2 ++ [mk]) (lch2 ++ [mc])))
    (hex : m / 2 < (lk2 ++ [mk]).length)
    (hc1 : NodeWf m (d + 1) .shrunk (some sepL) (headHigh hi ksR) (.internal ck cch))
    (hund : ck.length < m / 2)
    (hcnt : m / 2 ≤ ck.length + 1)
    (hchR : ChildrenWf (NodeWf m (d + 1) .child) (some sepL) hi ksR (c0 :: csR))
    (hsort : keysSorted (ksL' ++ sepL :: ksR))
    (hbnd : ∀ k ∈ ksL' ++ sepL :: ksR, lowLt lo k ∧ highOk hi k) :
    RebalancedParent m (d + 1) lo hi (ksL' ++ sepL :: ksR)
      (csL' ++ (.internal (lk2 ++ [mk]) (lch2 ++ [mc])) ::
        (.internal ck cch) :: csR) 0
      (ksL' ++ mk :: ksR)
      (csL' ++ (.internal lk2 lch2) ::
        (.internal (sepL :: ck) (mc :: cch)) :: csR) := by
  obtain ⟨hsortl, hbndl, hminl, hmaxl, hchl⟩ := hcl
  obtain ⟨hsortc, hbndc, _, hmaxc, hchc⟩ := hc1
  obtain ⟨hchl2, hmc⟩ := childrenWf_snoc_elim hchl
  obtain ⟨hLsep, hsepR, hsortL', hsortR, hcrossLR⟩ :=
    pairwise_of_sorted_append_cons hsort
  have hsepbnd := hbnd sepL (by simp)
  have hmkbnd := hbndl mk (by simp)
  have hmksep : mk < sepL := hmkbnd.2
  have hlomk : lowLt lo mk :=
    lowLt_through_chainLow_strict hmkbnd.1 (fun k hk => (hbnd k (by simp [hk])).1)
  have hL'mk : ∀ x ∈ ksL', x < mk := mem_lt_of_chainLow_lt hsortL' hmkbnd.1
  have hmkR : ∀ x ∈ ksR, mk < x := fun x hx => lt_trans hmksep (hsepR x hx)
  have hmkhi : highOk hi mk := highOk_of_lt_highOk hmksep hsepbnd.2
  have hsep_hh : highOk (headHigh hi ksR) sepL := headHigh_key_of hsepR hsepbnd.2
  have hckmin : ∀ x ∈ ck, sepL < x := fun x hx => (hbndc x hx).1
  have hlpw := (keysSorted_iff_pairwise _).1 hsortl
  rw [List.pairwise_append] at hlpw
  obtain ⟨hpwlk2, _, hcross_lk⟩ := hlpw
  have hlk2mk : ∀ x ∈ lk2, x < mk := fun x hx => hcross_lk x hx mk (by simp)
  refine ⟨?_, ?_, ?_, ?_, ?_⟩
  · refine keysSorted_middle_insert ?_ hL'mk hmkR
    exact (keysSorted_iff_pairwise _).2
      (List.pairwise_append.2 ⟨hsortL', hsortR, hcrossLR⟩)
  · intro k hkm
    rcases List.mem_append.1 hkm with h | h
    · exact hbnd k (by simp [h])
    · rcases List.mem_cons.1 h with rfl | h
      · exact ⟨hlomk, hmkhi⟩
      · exact hbnd k (by simp [h])
  · simp
  · rw [childrenWf_append hcsLlen]
    refine ⟨hpre, ?_, childrenWf_cons_set_low hchR ?_⟩
    · -- the shrunk left sibling
      refine ⟨(keysSorted_iff_pairwise _).2 hpwlk2, ?_, ?_, ?_, hchl2⟩
      · exact fun k hkm => ⟨(hbndl k (by simp [hkm])).1, hlk2mk k hkm⟩
      · simp only [internalMin]
        simp only [List.length_append, List.length_singleton] at hex
        omega
      · simp only [List.length_append, List.length_singleton] at hmaxl
        omega
    · -- the grown cursor node
      refine ⟨?_, ?_, ?_, ?_, ⟨hmc, hchc⟩⟩
      · exact (keysSorted_iff_pairwise _).2 (List.pairwise_cons.2
          ⟨hckmin, (keysSorted_iff_pairwise _).1 hsortc⟩)
      · intro k hkm
        rcases List.mem_cons.1 hkm with rfl | h
        · exact ⟨hmksep, hsep_hh⟩
        · exact ⟨lt_trans hmksep (hckmin k h), (hbndc k h).2⟩
      · simp only [internalMin, List.length_cons]
        omega
      · simp only [List.length_cons]
        omega
  · rw [entriesOfList_append, entriesOfList_append]
    simp [entriesOfList_append, entriesOfList, Node.entries, List.append_assoc]

theorem assembleMergeInternalLeft {m d : Nat} (hm : 3 ≤ m) {lo hi : Option K}
    {ksL' ksR : List K} {sepL : K} {csL' csR : List (Node K V)}
    {ck lk : List K} {cch lch : List (Node K V)} {c0 : Node K V}
    (hcsLlen : csL'.length = ksL'.length)
    (hpre : ChildrenPre (NodeWf m (d + 1) .child) lo ksL' csL')
    (hcl : NodeWf m (d + 1) .child (chainLow lo ksL') (some sepL)
      (.internal lk lch))
    (hnex : lk.length ≤ m / 2)
    (hc1 : NodeWf m (d + 1) .shrunk (some sepL) (headHigh hi ksR) (.internal ck cch))
    (hund : ck.length < m / 2)
    (hchR : ChildrenWf (NodeWf m (d + 1) .child) (some sepL) hi ksR (c0 :: csR))
    (hsort : keysSorted (ksL' ++ sepL :: ksR))
    (hbnd : ∀ k ∈ ksL' ++ sepL :: ksR, lowLt lo k ∧ highOk hi k) :
    RebalancedParent m (d + 1) lo hi (ksL' ++ sepL :: ksR)
      (csL' ++ (.internal lk lch) :: (.internal ck cch) :: csR) 1
      (ksL' ++ ksR)
      (csL' ++ (.internal (lk ++ sepL :: ck) (lch ++ cch)) :: csR) := by
  obtain ⟨hsortl, hbndl, hminl, hmaxl, hchl⟩ := hcl
  obtain ⟨hsortc, hbndc, _, hmaxc, hchc⟩ := hc1
  obtain ⟨hLsep, hsepR, hsortL', hsortR, hcrossLR⟩ :=
    pairwise_of_sorted_append_cons hsort
  have hsepbnd := hbnd sepL (by simp)
  have hlkmax : ∀ x ∈ lk, x < sepL := fun x hx => (hbndl x hx).2
  have hckmin : ∀ x ∈ ck, sepL < x := fun x hx => (hbndc x hx).1
  have hmidsep : lowLt (chainLow lo ksL') sepL := chainLow_lowLt hsepbnd.1 hLsep
  have hsep_hh : highOk (headHigh hi ksR) sepL := headHigh_key_of hsepR hsepbnd.2
  have hlchlen : lch.length = lk.length + 1 := childrenWf_length hchl
  refine ⟨?_, ?_, ?_, ?_, ?_⟩
  · exact (keysSorted_iff_pairwise _).2
      (List.pairwise_append.2 ⟨hsortL', hsortR, hcrossLR⟩)
  · intro k hkm
    rcases List.mem_append.1 hkm with h | h
    · exact hbnd k (by simp [h])
    · exact hbnd k (by simp [h])
  · simp only [List.length_append, List.length_cons]
    omega
  · rw [childrenWf_append hcsLlen]
    refine ⟨hpre, childrenWf_cons_set_low hchR ?_⟩
    refine ⟨?_, ?_, ?_, ?_, ?_⟩
    · refine keysSorted_middle_insert ?_ hlkmax hckmin
      exact (keysSorted_iff_pairwise _).2 (List.pairwise_append.2
        ⟨(keysSorted_iff_pairwise _).1 hsortl,
         (keysSorted_iff_pairwise _).1 hsortc,
         fun x hx y hy => lt_trans (hlkmax x hx) (hckmin y hy)⟩)
    · intro k hkm
      rcases List.mem_append.1 hkm with h | h
      · exact ⟨(hbndl k h).1, highOk_of_lt_highOk (hlkmax k h) hsep_hh⟩
      · rcases List.mem_cons.1 h with rfl | h
        · exact ⟨hmidsep, hsep_hh⟩
        · exact ⟨lowLt_mono hmidsep (le_of_lt (hckmin k h)), (hbndc k h).2⟩
    · simp only [internalMin, List.length_append, List.length_cons]
      simp only [internalMin] at hminl
      omega
    · simp only [List.length_append, List.length_cons]
      omega
    · rw [show lk ++ sepL :: ck = (lk ++ [sepL]) ++ ck by simp]
      rw [childrenWf_append (by simp [hlchlen])]
      refine ⟨(childrenPre_snoc (by omega)).2 hchl, ?_⟩
      rw [chainLow_snoc]
      exact hchc
  · rw [entriesOfList_append, entriesOfList_append]
    simp [entriesOfList_append, entriesOfList, Node.entries, List.append_assoc]

omit [LinearOrder K] in
theorem exists_snoc_align {α β : Type} {l : List α} {a : α} {ys : List β}
    (hlen : ys.length = (l ++ [a]).length) :
    ∃ yl b, ys = yl ++ [b] ∧ yl.length = l.length := by
  obtain ⟨yl, b, yr, h, h1, h2⟩ := exists_align rfl hlen
  cases yr with
  | cons _ _ => simp at h2
  | nil => exact ⟨yl, b, h, h1⟩


theorem rebalanceLeafBL {m : Nat} (hm : 3 ≤ m) {lo hi : Option K}
    {ksL' ksR : List K} {sepL : K} {csL' csR : List (Node K V)}
    {ck lk2 : List K} {cv lv2 : List V} {mk : K} {mv : V} {c0 : Node K V}
    (hlen' : csL'.length = ksL'.length)
    (hpre' : ChildrenPre (NodeWf m 0 .child) lo ksL' csL')
    (hcl : NodeWf m 0 .child (chainLow lo ksL') (some sepL)
      (.leaf (lk2 ++ [mk]) (lv2 ++ [mv])))
    (hexl : (Node.leaf (lk2 ++ [mk]) (lv2 ++ [mv]) : Node K V).has_extra_keys m)
    (hc1 : NodeWf m 0 .shrunk (some sepL) (headHigh hi ksR) (.leaf ck cv))
    (hund : ck.length < (m + 1) / 2)
    (hcnt : (m + 1) / 2 ≤ ck.length + 1)
    (hchR : ChildrenWf (NodeWf m 0 .child) (some sepL) hi ksR (c0 :: csR))
    (hsort : keysSorted (ksL' ++ sepL :: ksR))
    (hbnd : ∀ k ∈ ksL' ++ sepL :: ksR, lowLt lo k ∧ highOk hi k) :
    ∃ keys1 children2 sh,
      rebalanceChild m (ksL' ++ sepL :: ksR)
        ((csL' ++ [(.leaf (lk2 ++ [mk]) (lv2 ++ [mv]) : Node K V)]) ++
          (.leaf ck cv : Node K V) :: csR)
        (ksL'.length + 1) = (keys1, children2, sh) ∧
      RebalancedParent m 0 lo hi (ksL' ++ sepL :: ksR)
        ((csL' ++ [(.leaf (lk2 ++ [mk]) (lv2 ++ [mv]) : Node K V)]) ++
          (.leaf ck cv : Node K V) :: csR)
        (cond sh 1 0) keys1 children2 := by
  have hacc_c : ((csL' ++ [(.leaf (lk2 ++ [mk]) (lv2 ++ [mv]) : Node K V)]) ++
      (.leaf ck cv : Node K V) :: csR)[ksL'.length + 1]? =
      some (.leaf ck cv) := by
    rw [show ksL'.length + 1 =
      (csL' ++ [(.leaf (lk2 ++ [mk]) (lv2 ++ [mv]) : Node K V)]).length by simp [hlen']]
    exact getElem?_at_append _ _ _
  have hacc_l : ((csL' ++ [(.leaf (lk2 ++ [mk]) (lv2 ++ [mv]) : Node K V)]) ++
      (.leaf ck cv : Node K V) :: csR)[ksL'.length + 1 - 1]? =
      some (.leaf (lk2 ++ [mk]) (lv2 ++ [mv])) := by
    rw [Nat.add_sub_cancel,
      show (csL' ++ [(.leaf (lk2 ++ [mk]) (lv2 ++ [mv]) : Node K V)]) ++
        (.leaf ck cv : Node K V) :: csR =
        csL' ++ (.leaf (lk2 ++ [mk]) (lv2 ++ [mv]) : Node K V) ::
          ((.leaf ck cv : Node K V) :: csR) by simp,
      show ksL'.length = csL'.length from hlen'.symm]
    exact getElem?_at_append _ _ _
  have hkset : (ksL' ++ sepL :: ksR).set (ksL'.length + 1 - 1) mk =
      ksL' ++ mk :: ksR := by
    rw [Nat.add_sub_cancel]
    exact set_at_append _ _ _ _
  have hcset : (((csL' ++ [(.leaf (lk2 ++ [mk]) (lv2 ++ [mv]) : Node K V)]) ++
        (.leaf ck cv : Node K V) :: csR).set (ksL'.length + 1 - 1)
        (.leaf lk2 lv2)).set (ksL'.length + 1)
        (.leaf (mk :: ck) (mv :: cv)) =
      csL' ++ (.leaf lk2 lv2 : Node K V) ::
        (.leaf (mk :: ck) (mv :: cv) : Node K V) :: csR := by
    rw [Nat.add_sub_cancel,
      show (csL' ++ [(.leaf (lk2 ++ [mk]) (lv2 ++ [mv]) : Node K V)]) ++
        (.leaf ck cv : Node K V) :: csR =
        csL' ++ (.leaf (lk2 ++ [mk]) (lv2 ++ [mv]) : Node K V) ::
          ((.leaf ck cv : Node K V) :: csR) by simp,
      show ksL'.length = csL'.length from hlen'.symm,
      set_at_append csL' ((.leaf ck cv : Node K V) :: csR) _ _,
      show csL'.length + 1 = (csL' ++ [(.leaf lk2 lv2 : Node K V)]).length by simp,
      show csL' ++ (.leaf lk2 lv2 : Node K V) :: (.leaf ck cv : Node K V) :: csR =
        (csL' ++ [(.leaf lk2 lv2 : Node K V)]) ++ (.leaf ck cv : Node K V) :: csR
        by simp,
      set_at_append _ csR _ _]
    simp
  refine ⟨ksL' ++ mk :: ksR,
    csL' ++ (.leaf lk2 lv2 : Node K V) ::
      (.leaf (mk :: ck) (mv :: cv) : Node K V) :: csR, false, ?_, ?_⟩
  · simp only [rebalanceChild, hacc_c,
      tryBorrowLeafLeft_eq_some (Nat.succ_pos _) hacc_c hacc_l hexl, hkset, hcset]
  · have hasm := assembleBorrowLeafLeft hm hlen' hpre' hcl
      (by simpa [Node.has_extra_keys] using hexl) hc1 hund hcnt hchR hsort hbnd
    simpa [hkset, hcset] using hasm

theorem rebalanceLeafBR {m : Nat} (hm : 3 ≤ m) {lo hi : Option K}
    {ksL ksR' : List K} {sepR : K} {csL csR' : List (Node K V)}
    {ck rk2 : List K} {cv rv2 : List V} {mk r0 : K} {mv : V}
    (hcsLlen : csL.length = ksL.length)
    (hpre : ChildrenPre (NodeWf m 0 .child) lo ksL csL)
    (hc1 : NodeWf m 0 .shrunk (chainLow lo ksL) (some sepR) (.leaf ck cv))
    (hund : ck.length < (m + 1) / 2)
    (hcnt : (m + 1) / 2 ≤ ck.length + 1)
    (hrt : ChildrenWf (NodeWf m 0 .child) (some sepR) hi ksR'
      ((.leaf (mk :: r0 :: rk2) (mv :: rv2)) :: csR'))
    (hexr : (Node.leaf (mk :: r0 :: rk2) (mv :: rv2) : Node K V).has_extra_keys m)
    (hsort : keysSorted (ksL ++ sepR :: ksR'))
    (hbnd : ∀ k ∈ ksL ++ sepR :: ksR', lowLt lo k ∧ highOk hi k)
    (hBLnone : tryBorrowLeafLeft m (ksL ++ sepR :: ksR')
      (csL ++ (.leaf ck cv : Node K V) ::
        (.leaf (mk :: r0 :: rk2) (mv :: rv2) : Node K V) :: csR')
      ksL.length = none) :
    ∃ keys1 children2 sh,
      rebalanceChild m (ksL ++ sepR :: ksR')
        (csL ++ (.leaf ck cv : Node K V) ::
          (.leaf (mk :: r0 :: rk2) (mv :: rv2) : Node K V) :: csR')
        ksL.length = (keys1, children2, sh) ∧
      RebalancedParent m 0 lo hi (ksL ++ sepR :: ksR')
        (csL ++ (.leaf ck cv : Node K V) ::
          (.leaf (mk :: r0 :: rk2) (mv :: rv2) : Node K V) :: csR')
        (cond sh 1 0) keys1 children2 := by
  have hacc_c : (csL ++ (.leaf ck cv : Node K V) ::
      (.leaf (mk :: r0 :: rk2) (mv :: rv2) : Node K V) :: csR')[ksL.length]? =
      some (.leaf ck cv) := by
    rw [← hcsLlen]
    exact getElem?_at_append _ _ _
  have hacc_r : (csL ++ (.leaf ck cv : Node K V) ::
      (.leaf (mk :: r0 :: rk2) (mv :: rv2) : Node K V) :: csR')[ksL.length + 1]? =
      some (.leaf (mk :: r0 :: rk2) (mv :: rv2)) := by
    rw [show csL ++ (.leaf ck cv : Node K V) ::
        (.leaf (mk :: r0 :: rk2) (mv :: rv2) : Node K V) :: csR' =
        (csL ++ [(.leaf ck cv : Node K V)]) ++
          (.leaf (mk :: r0 :: rk2) (mv :: rv2) : Node K V) :: csR' by simp,
      show ksL.length + 1 = (csL ++ [(.leaf ck cv : Node K V)]).length
        by simp [hcsLlen]]
    exact getElem?_at_append _ _ _
  have hkset : (ksL ++ sepR :: ksR').set ksL.length r0 = ksL ++ r0 :: ksR' :=
    set_at_append _ _ _ _
  have hcset : ((csL ++ (.leaf ck cv : Node K V) ::
        (.leaf (mk :: r0 :: rk2) (mv :: rv2) : Node K V) :: csR').set ksL.length
        (.leaf (ck ++ [mk]) (cv ++ [mv]))).set (ksL.length + 1)
        (.leaf (r0 :: rk2) rv2) =
      csL ++ (.leaf (ck ++ [mk]) (cv ++ [mv]) : Node K V) ::
        (.leaf (r0 :: rk2) rv2 : Node K V) :: csR' := by
    rw [show ksL.length = csL.length from hcsLlen.symm,
      set_at_append csL ((.leaf (mk :: r0 :: rk2) (mv :: rv2) : Node K V) :: csR') _ _,
      show csL.length + 1 =
        (csL ++ [(.leaf (ck ++ [mk]) (cv ++ [mv]) : Node K V)]).length by simp,
      show csL ++ (.leaf (ck ++ [mk]) (cv ++ [mv]) : Node K V) ::
          (.leaf (mk :: r0 :: rk2) (mv :: rv2) : Node K V) :: csR' =
        (csL ++ [(.leaf (ck ++ [mk]) (cv ++ [mv]) : Node K V)]) ++
          (.leaf (mk :: r0 :: rk2) (mv :: rv2) : Node K V) :: csR' by simp,
      set_at_append _ csR' _ _]
    simp
  refine ⟨ksL ++ r0 :: ksR',
    csL ++ (.leaf (ck ++ [mk]) (cv ++ [mv]) : Node K V) ::
      (.leaf (r0 :: rk2) rv2 : Node K V) :: csR', false, ?_, ?_⟩
  · simp only [rebalanceChild, hacc_c, hBLnone,
      tryBorrowLeafRight_eq_some hacc_c hacc_r hexr, hkset, hcset]
  · exact assembleBorrowLeafRight hm hcsLlen hpre hc1 hund hcnt hrt
      (by simpa [Node.has_extra_keys] using hexr) hsort hbnd

theorem rebalanceLeafML {m : Nat} (hm : 3 ≤ m) {lo hi : Option K}
    {ksL' ksR : List K} {sepL : K} {csL' csR : List (Node K V)}
    {ck lk : List K} {cv lv : List V} {c0 : Node K V}
    (hlen' : csL'.length = ksL'.length)
    (hpre' : ChildrenPre (NodeWf m 0 .child) lo ksL' csL')
    (hcl : NodeWf m 0 .child (chainLow lo ksL') (some sepL) (.leaf lk lv))
    (hnexl : lk.length ≤ (m + 1) / 2)
    (hc1 : NodeWf m 0 .shrunk (some sepL) (headHigh hi ksR) (.leaf ck cv))
    (hund : ck.length < (m + 1) / 2)
    (hchR : ChildrenWf (NodeWf m 0 .child) (some sepL) hi ksR (c0 :: csR))
    (hsort : keysSorted (ksL' ++ sepL :: ksR))
    (hbnd : ∀ k ∈ ksL' ++ sepL :: ksR, lowLt lo k ∧ highOk hi k)
    (hBLnone : tryBorrowLeafLeft m (ksL' ++ sepL :: ksR)
      ((csL' ++ [(.leaf lk lv : Node K V)]) ++ (.leaf ck cv : Node K V) :: csR)
      (ksL'.length + 1) = none)
    (hBRnone : tryBorrowLeafRight m (ksL' ++ sepL :: ksR)
      ((csL' ++ [(.leaf lk lv : Node K V)]) ++ (.leaf ck cv : Node K V) :: csR)
      (ksL'.length + 1) = none) :
    ∃ keys1 children2 sh,
      rebalanceChild m (ksL' ++ sepL :: ksR)
        ((csL' ++ [(.leaf lk lv : Node K V)]) ++ (.leaf ck cv : Node K V) :: csR)
        (ksL'.length + 1) = (keys1, children2, sh) ∧
      RebalancedParent m 0 lo hi (ksL' ++ sepL :: ksR)
        ((csL' ++ [(.leaf lk lv : Node K V)]) ++ (.leaf ck cv : Node K V) :: csR)
        (cond sh 1 0) keys1 children2 := by
  have hacc_c : ((csL' ++ [(.leaf lk lv : Node K V)]) ++
      (.leaf ck cv : Node K V) :: csR)[ksL'.length + 1]? =
      some (.leaf ck cv) := by
    rw [show ksL'.length + 1 = (csL' ++ [(.leaf lk lv : Node K V)]).length
      by simp [hlen']]
    exact getElem?_at_append _ _ _
  have hacc_l : ((csL' ++ [(.leaf lk lv : Node K V)]) ++
      (.leaf ck cv : Node K V) :: csR)[ksL'.length + 1 - 1]? =
      some (.leaf lk lv) := by
    rw [Nat.add_sub_cancel,
      show (csL' ++ [(.leaf lk lv : Node K V)]) ++
        (.leaf ck cv : Node K V) :: csR =
        csL' ++ (.leaf lk lv : Node K V) :: ((.leaf ck cv : Node K V) :: csR) by simp,
      show ksL'.length = csL'.length from hlen'.symm]
    exact getElem?_at_append _ _ _
  have hacc_k : (ksL' ++ sepL :: ksR)[ksL'.length + 1 - 1]? = some sepL := by
    rw [Nat.add_sub_cancel]
    exact getElem?_at_append _ _ _
  have hLsepL : ∀ x ∈ ksL', x < sepL := (pairwise_of_sorted_append_cons hsort).1
  have hgtR : ∀ x ∈ ksR, sepL < x := (pairwise_of_sorted_append_cons hsort).2.1
  have hbs : binarySearch (ksL' ++ sepL :: ksR) sepL = .ok ksL'.length :=
    binarySearch_of_found _ _ _ hLsepL hgtR
  have hkerase : (ksL' ++ sepL :: ksR).eraseIdx ksL'.length = ksL' ++ ksR :=
    eraseIdx_at_append _ _ _
  have hcerase : (((csL' ++ [(.leaf lk lv : Node K V)]) ++
        (.leaf ck cv : Node K V) :: csR).set (ksL'.length + 1 - 1)
        (.leaf (lk ++ ck) (lv ++ cv))).eraseIdx (ksL'.length + 1) =
      csL' ++ (.leaf (lk ++ ck) (lv ++ cv) : Node K V) :: csR := by
    rw [Nat.add_sub_cancel,
      show (csL' ++ [(.leaf lk lv : Node K V)]) ++
        (.leaf ck cv : Node K V) :: csR =
        csL' ++ (.leaf lk lv : Node K V) :: ((.leaf ck cv : Node K V) :: csR) by simp,
      show ksL'.length = csL'.length from hlen'.symm,
      set_at_append csL' ((.leaf ck cv : Node K V) :: csR) _ _,
      show csL'.length + 1 =
        (csL' ++ [(.leaf (lk ++ ck) (lv ++ cv) : Node K V)]).length by simp,
      show csL' ++ (.leaf (lk ++ ck) (lv ++ cv) : Node K V) ::
          (.leaf ck cv : Node K V) :: csR =
        (csL' ++ [(.leaf (lk ++ ck) (lv ++ cv) : Node K V)]) ++
          (.leaf ck cv : Node K V) :: csR by simp,
      eraseIdx_at_append _ csR _]
    simp
  refine ⟨ksL' ++ ksR,
    csL' ++ (.leaf (lk ++ ck) (lv ++ cv) : Node K V) :: csR, true, ?_, ?_⟩
  · simp only [rebalanceChild, hacc_c, hBLnone, hBRnone,
      tryMergeLeafLeft_eq_some (Nat.succ_pos _) hacc_c hacc_l hacc_k hbs,
      hkerase, hcerase]
  · have hasm := assembleMergeLeafLeft hm hlen' hpre' hcl hnexl hc1 hund hchR
      hsort hbnd
    simpa using hasm

theorem rebalanceLeafMR {m : Nat} (hm : 3 ≤ m) {lo hi : Option K}
    {ksR' : List K} {sepR : K} {csR' : List (Node K V)}
    {ck rk : List K} {cv rv : List V}
    (hc1 : NodeWf m 0 .shrunk lo (some sepR) (.leaf ck cv))
    (hund : ck.length < (m + 1) / 2)
    (hrt : ChildrenWf (NodeWf m 0 .child) (some sepR) hi ksR'
      ((.leaf rk rv) :: csR'))
    (hnexr : rk.length ≤ (m + 1) / 2)
    (hsort : keysSorted (sepR :: ksR'))
    (hbnd : ∀ k ∈ sepR :: ksR', lowLt lo k ∧ highOk hi k) :
    ∃ keys1 children2 sh,
      rebalanceChild m (sepR :: ksR')
        ((.leaf ck cv : Node K V) :: (.leaf rk rv : Node K V) :: csR')
        0 = (keys1, children2, sh) ∧
      RebalancedParent m 0 lo hi (sepR :: ksR')
        ((.leaf ck cv : Node K V) :: (.leaf rk rv : Node K V) :: csR')
        (cond sh 1 0) keys1 children2 := by
  have hacc_c : (((.leaf ck cv : Node K V)) ::
      (.leaf rk rv : Node K V) :: csR')[0]? = some (.leaf ck cv) := rfl
  have hacc_r : (((.leaf ck cv : Node K V)) ::
      (.leaf rk rv : Node K V) :: csR')[0 + 1]? = some (.leaf rk rv) := by simp
  have hacc_k : ((sepR :: ksR' : List K))[0]? = some sepR := by simp
  have hnoextra : ¬ (Node.leaf rk rv : Node K V).has_extra_keys m := by
    simp [Node.has_extra_keys, Nat.not_lt]
    omega
  have hgtR : ∀ x ∈ ksR', sepR < x :=
    (pairwise_of_sorted_append_cons
      (show keysSorted (([] : List K) ++ sepR :: ksR') from hsort)).2.1
  have hbs : binarySearch (sepR :: ksR') sepR = .ok 0 := by
    have := binarySearch_of_found [] ksR' sepR (by intro x hx; cases hx) hgtR
    simpa using this
  refine ⟨ksR', (.leaf (ck ++ rk) (cv ++ rv) : Node K V) :: csR', true, ?_, ?_⟩
  · simp only [rebalanceChild, hacc_c, tryBorrowLeafLeft_eq_none_zero,
      tryBorrowLeafRight_eq_none_noextra hacc_c hacc_r hnoextra,
      tryMergeLeafLeft_eq_none_zero,
      tryMergeLeafRight_eq_some hacc_c hacc_r hacc_k hbs]
    simp [List.eraseIdx]
  · have hasm := assembleMergeLeafRight hm
      (show ([] : List (Node K V)).length = ([] : List K).length from rfl)
      (show ChildrenPre (NodeWf m 0 .child) lo ([] : List K) ([] : List (Node K V)) from
        trivial)
      hc1 hund hrt hnexr (by simpa using hsort) (by simpa using hbnd)
    simpa using hasm

theorem rebalanceChild_leaf_spec {m : Nat} (hm : 3 ≤ m) {lo hi : Option K}
    {ksL ksR : List K} {csL csR : List (Node K V)} {ck : List K} {cv : List V}
    {c0 : Node K V}
    (hcsLlen : csL.length = ksL.length)
    (hpre : ChildrenPre (NodeWf m 0 .child) lo ksL csL)
    (hchR : ChildrenWf (NodeWf m 0 .child) (chainLow lo ksL) hi ksR (c0 :: csR))
    (hc1 : NodeWf m 0 .shrunk (chainLow lo ksL) (headHigh hi ksR) (.leaf ck cv))
    (hund : ck.length < (m + 1) / 2)
    (hcnt : (m + 1) / 2 ≤ ck.length + 1)
    (hsort : keysSorted (ksL ++ ksR))
    (hbnd : ∀ k ∈ ksL ++ ksR, lowLt lo k ∧ highOk hi k)
    (hne : ksL ++ ksR ≠ []) :
    ∃ keys1 children2 sh,
      rebalanceChild m (ksL ++ ksR) (csL ++ (.leaf ck cv : Node K V) :: csR)
        ksL.length = (keys1, children2, sh) ∧
      RebalancedParent m 0 lo hi (ksL ++ ksR)
        (csL ++ (.leaf ck cv : Node K V) :: csR)
        (cond sh 1 0) keys1 children2 := by
  by_cases hL : ksL = []
  · subst hL
    have hcsL : csL = [] := List.eq_nil_of_length_eq_zero (by simpa using hcsLlen)
    subst hcsL
    cases ksR with
    | nil => simp at hne
    | cons sepR ksR' =>
    obtain ⟨hc0, hrt0⟩ := hchR
    cases csR with
    | nil => exact absurd (childrenWf_length hrt0) (by simp)
    | cons cr csR' =>
    have hcr := childrenWf_cons_elim hrt0
    cases cr with
    | internal _ _ => exact absurd hcr (by simp [NodeWf])
    | leaf rk rv =>
    obtain ⟨hlenr, _, _, hminr, _⟩ := hcr
    by_cases hexr : (Node.leaf rk rv : Node K V).has_extra_keys m
    · have hexlen : (m + 1) / 2 < rk.length := by
        simpa [Node.has_extra_keys] using hexr
      cases rk with
      | nil => simp at hexlen
      | cons mk rk1 =>
      cases rk1 with
      | nil =>
        exfalso
        simp only [List.length_cons, List.length_nil] at hexlen
        omega
      | cons r0 rk2 =>
      cases rv with
      | nil => simp at hlenr
      | cons mv rv2 =>
      exact rebalanceLeafBR hm rfl trivial hc1 hund hcnt hrt0 hexr hsort hbnd
        (tryBorrowLeafLeft_eq_none_zero _ _ _)
    · have hnexr : rk.length ≤ (m + 1) / 2 := by
        simpa [Node.has_extra_keys, Nat.not_lt] using hexr
      have := rebalanceLeafMR hm hc1 hund hrt0 hnexr
        (by simpa using hsort) (by simpa using hbnd)
      simpa using this
  · obtain ⟨ksL', sepL, hks⟩ : ∃ l a, ksL = l ++ [a] :=
      ⟨ksL.dropLast, ksL.getLast hL, (List.dropLast_append_getLast hL).symm⟩
    subst hks
    have hcsLne : csL ≠ [] := by
      intro h0
      rw [h0] at hcsLlen
      simp at hcsLlen
    obtain ⟨csL', cl, hcs⟩ : ∃ l a, csL = l ++ [a] :=
      ⟨csL.dropLast, csL.getLast hcsLne, (List.dropLast_append_getLast hcsLne).symm⟩
    subst hcs
    have hlen' : csL'.length = ksL'.length := by
      simp only [List.length_append, List.length_singleton] at hcsLlen
      omega
    have hpre0 := hpre
    rw [childrenPre_snoc_both] at hpre
    obtain ⟨hpre', hcl⟩ := hpre
    cases cl with
    | internal _ _ => exact absurd hcl (by simp [NodeWf])
    | leaf lk lv =>
    have hcl0 := hcl
    obtain ⟨hlenl, _, _, hminl, _⟩ := hcl0
    have hclsnoc : chainLow lo (ksL' ++ [sepL]) = some sepL := chainLow_snoc _ _ _
    have hchR' := hchR
    have hc1' := hc1
    rw [hclsnoc] at hchR' hc1'
    have hkeq : (ksL' ++ [sepL]) ++ ksR = ksL' ++ sepL :: ksR := by simp
    have hilen : (ksL' ++ [sepL]).length = ksL'.length + 1 := by simp
    have hsort' : keysSorted (ksL' ++ sepL :: ksR) := by rw [← hkeq]; exact hsort
    have hbnd' : ∀ k ∈ ksL' ++ sepL :: ksR, lowLt lo k ∧ highOk hi k := by
      rw [← hkeq]; exact hbnd
    have hacc_c : ((csL' ++ [(.leaf lk lv : Node K V)]) ++
        (.leaf ck cv : Node K V) :: csR)[ksL'.length + 1]? =
        some (.leaf ck cv) := by
      rw [show ksL'.length + 1 = (csL' ++ [(.leaf lk lv : Node K V)]).length
        by simp [hlen']]
      exact getElem?_at_append _ _ _
    have hacc_l : ((csL' ++ [(.leaf lk lv : Node K V)]) ++
        (.leaf ck cv : Node K V) :: csR)[ksL'.length + 1 - 1]? =
        some (.leaf lk lv) := by
      rw [Nat.add_sub_cancel,
        show (csL' ++ [(.leaf lk lv : Node K V)]) ++
          (.leaf ck cv : Node K V) :: csR =
          csL' ++ (.leaf lk lv : Node K V) :: ((.leaf ck cv : Node K V) :: csR)
          by simp,
        show ksL'.length = csL'.length from hlen'.symm]
      exact getElem?_at_append _ _ _
    by_cases hexl : (Node.leaf lk lv : Node K V).has_extra_keys m
    · have hexlen : (m + 1) / 2 < lk.length := by
        simpa [Node.has_extra_keys] using hexl
      have hlkne : lk ≠ [] := by
        intro h0
        rw [h0] at hexlen
        simp at hexlen
      obtain ⟨lk2, mk, hlks⟩ : ∃ l a, lk = l ++ [a] :=
        ⟨lk.dropLast, lk.getLast hlkne, (List.dropLast_append_getLast hlkne).symm⟩
      subst hlks
      obtain ⟨lv2, mv, hlvs, hlv2len⟩ := exists_snoc_align hlenl
      subst hlvs
      rw [hkeq, hilen]
      exact rebalanceLeafBL hm hlen' hpre' hcl hexl hc1' hund hcnt hchR'
        hsort' hbnd'
    · have hnexl : lk.length ≤ (m + 1) / 2 := by
        simpa [Node.has_extra_keys, Nat.not_lt] using hexl
      have hBLnone : tryBorrowLeafLeft m ((ksL' ++ [sepL]) ++ ksR)
          ((csL' ++ [(.leaf lk lv : Node K V)]) ++
            (.leaf ck cv : Node K V) :: csR) (ksL'.length + 1) = none :=
        tryBorrowLeafLeft_eq_none_noextra (Nat.succ_pos _) hacc_c hacc_l hexl
      cases ksR with
      | nil =>
        have hcsR : csR = [] := childrenWf_nil_keys hchR'
        subst hcsR
        have hBRnone : tryBorrowLeafRight m ((ksL' ++ [sepL]) ++ ([] : List K))
            ((csL' ++ [(.leaf lk lv : Node K V)]) ++
              [(.leaf ck cv : Node K V)]) (ksL'.length + 1) = none := by
          apply tryBorrowLeafRight_eq_none_nosib hacc_c
          apply List.getElem?_eq_none
          simp [hlen']
        rw [hkeq, hilen]
        exact rebalanceLeafML hm hlen' hpre' hcl hnexl hc1' hund hchR'
          hsort' hbnd'
          (by rw [← hkeq]; exact hBLnone) (by rw [← hkeq]; exact hBRnone)
      | cons sepR ksR' =>
        obtain ⟨hc0, hrt0⟩ := id hchR'
        cases csR with
        | nil => exact absurd (childrenWf_length hrt0) (by simp)
        | cons cr csR' =>
        have hcr := childrenWf_cons_elim hrt0
        cases cr with
        | internal _ _ => exact absurd hcr (by simp [NodeWf])
        | leaf rk rv =>
        obtain ⟨hlenr, _, _, hminr, _⟩ := hcr
        have hacc_r : ((csL' ++ [(.leaf lk lv : Node K V)]) ++
            (.leaf ck cv : Node K V) :: (.leaf rk rv : Node K V) ::
              csR')[ksL'.length + 1 + 1]? = some (.leaf rk rv) := by
          rw [show (csL' ++ [(.leaf lk lv : Node K V)]) ++
              (.leaf ck cv : Node K V) :: (.leaf rk rv : Node K V) :: csR' =
              ((csL' ++ [(.leaf lk lv : Node K V)]) ++
                [(.leaf ck cv : Node K V)]) ++
                (.leaf rk rv : Node K V) :: csR' by simp,
            show ksL'.length + 1 + 1 =
              ((csL' ++ [(.leaf lk lv : Node K V)]) ++
                [(.leaf ck cv : Node K V)]).length by simp [hlen']]
          exact getElem?_at_append _ _ _
        by_cases hexr : (Node.leaf rk rv : Node K V).has_extra_keys m
        · have hexlen : (m + 1) / 2 < rk.length := by
            simpa [Node.has_extra_keys] using hexr
          cases rk with
          | nil => simp at hexlen
          | cons mk rk1 =>
          cases rk1 with
          | nil =>
            exfalso
            simp only [List.length_cons, List.length_nil] at hexlen
            omega
          | cons r0 rk2 =>
          cases rv with
          | nil => simp at hlenr
          | cons mv rv2 =>
          exact rebalanceLeafBR hm hcsLlen hpre0 hc1 hund hcnt hrt0 hexr
            hsort hbnd (by rw [hilen]; exact hBLnone)
        · have hBRnone : tryBorrowLeafRight m ((ksL' ++ [sepL]) ++ sepR :: ksR')
              ((csL' ++ [(.leaf lk lv : Node K V)]) ++
                (.leaf ck cv : Node K V) :: (.leaf rk rv : Node K V) :: csR')
              (ksL'.length + 1) = none :=
            tryBorrowLeafRight_eq_none_noextra hacc_c hacc_r hexr
          rw [hkeq, hilen]
          exact rebalanceLeafML hm hlen' hpre' hcl hnexl hc1' hund hchR'
            hsort' hbnd'
            (by rw [← hkeq]; exact hBLnone) (by rw [← hkeq]; exact hBRnone)

theorem rebalanceIntBL {m d : Nat} (hm : 3 ≤ m) {lo hi : Option K}
    {ksL' ksR : List K} {sepL : K} {csL' csR : List (Node K V)}
    {ck lk2 : List K} {cch lch2 : List (Node K V)} {mk : K} {mc c0 : Node K V}
    (hlen' : csL'.length = ksL'.length)
    (hpre' : ChildrenPre (NodeWf m (d + 1) .child) lo ksL' csL')
    (hcl : NodeWf m (d + 1) .child (chainLow lo ksL') (some sepL)
      (.internal (lk2 ++ [mk]) (lch2 ++ [mc])))
    (hexl : (Node.internal (lk2 ++ [mk]) (lch2 ++ [mc]) : Node K V).has_extra_keys m)
    (hc1 : NodeWf m (d + 1) .shrunk (some sepL) (headHigh hi ksR) (.internal ck cch))
    (hund : ck.length < m / 2)
    (hcnt : m / 2 ≤ ck.length + 1)
    (hchR : ChildrenWf (NodeWf m (d + 1) .child) (some sepL) hi ksR (c0 :: csR))
    (hsort : keysSorted (ksL' ++ sepL :: ksR))
    (hbnd : ∀ k ∈ ksL' ++ sepL :: ksR, lowLt lo k ∧ highOk hi k) :
    ∃ keys1 children2 sh,
      rebalanceChild m (ksL' ++ sepL :: ksR)
        ((csL' ++ [(.internal (lk2 ++ [mk]) (lch2 ++ [mc]) : Node K V)]) ++
          (.internal ck cch : Node K V) :: csR)
        (ksL'.length + 1) = (keys1, children2, sh) ∧
      RebalancedParent m (d + 1) lo hi (ksL' ++ sepL :: ksR)
        ((csL' ++ [(.internal (lk2 ++ [mk]) (lch2 ++ [mc]) : Node K V)]) ++
          (.internal ck cch : Node K V) :: csR)
        (cond sh 1 0) keys1 children2 := by
  have hacc_c : ((csL' ++ [(.internal (lk2 ++ [mk]) (lch2 ++ [mc]) : Node K V)]) ++
      (.internal ck cch : Node K V) :: csR)[ksL'.length + 1]? =
      some (.internal ck cch) := by
    rw [show ksL'.length + 1 =
      (csL' ++ [(.internal (lk2 ++ [mk]) (lch2 ++ [mc]) : Node K V)]).length
      by simp [hlen']]
    exact getElem?_at_append _ _ _
  have hacc_l : ((csL' ++ [(.internal (lk2 ++ [mk]) (lch2 ++ [mc]) : Node K V)]) ++
      (.internal ck cch : Node K V) :: csR)[ksL'.length + 1 - 1]? =
      some (.internal (lk2 ++ [mk]) (lch2 ++ [mc])) := by
    rw [Nat.add_sub_cancel,
      show (csL' ++ [(.internal (lk2 ++ [mk]) (lch2 ++ [mc]) : Node K V)]) ++
        (.internal ck cch : Node K V) :: csR =
        csL' ++ (.internal (lk2 ++ [mk]) (lch2 ++ [mc]) : Node K V) ::
          ((.internal ck cch : Node K V) :: csR) by simp,
      show ksL'.length = csL'.length from hlen'.symm]
    exact getElem?_at_append _ _ _
  have hacc_k : (ksL' ++ sepL :: ksR)[ksL'.length + 1 - 1]? = some sepL := by
    rw [Nat.add_sub_cancel]
    exact getElem?_at_append _ _ _
  have hkset : (ksL' ++ sepL :: ksR).set (ksL'.length + 1 - 1) mk =
      ksL' ++ mk :: ksR := by
    rw [Nat.add_sub_cancel]
    exact set_at_append _ _ _ _
  have hcset : (((csL' ++ [(.internal (lk2 ++ [mk]) (lch2 ++ [mc]) : Node K V)]) ++
        (.internal ck cch : Node K V) :: csR).set (ksL'.length + 1 - 1)
        (.internal lk2 lch2)).set (ksL'.length + 1)
        (.internal (sepL :: ck) (mc :: cch)) =
      csL' ++ (.internal lk2 lch2 : Node K V) ::
        (.internal (sepL :: ck) (mc :: cch) : Node K V) :: csR := by
    rw [Nat.add_sub_cancel,
      show (csL' ++ [(.internal (lk2 ++ [mk]) (lch2 ++ [mc]) : Node K V)]) ++
        (.internal ck cch : Node K V) :: csR =
        csL' ++ (.internal (lk2 ++ [mk]) (lch2 ++ [mc]) : Node K V) ::
          ((.internal ck cch : Node K V) :: csR) by simp,
      show ksL'.length = csL'.length from hlen'.symm,
      set_at_append csL' ((.internal ck cch : Node K V) :: csR) _ _,
      show csL'.length + 1 = (csL' ++ [(.internal lk2 lch2 : Node K V)]).length
        by simp,
      show csL' ++ (.internal lk2 lch2 : Node K V) ::
          (.internal ck cch : Node K V) :: csR =
        (csL' ++ [(.internal lk2 lch2 : Node K V)]) ++
          (.internal ck cch : Node K V) :: csR by simp,
      set_at_append _ csR _ _]
    simp
  refine ⟨ksL' ++ mk :: ksR,
    csL' ++ (.internal lk2 lch2 : Node K V) ::
      (.internal (sepL :: ck) (mc :: cch) : Node K V) :: csR, false, ?_, ?_⟩
  · simp only [rebalanceChild, hacc_c,
      tryBorrowInternalLeft_eq_some (Nat.succ_pos _) hacc_c hacc_l hexl hacc_k,
      hkset, hcset]
  · have hasm := assembleBorrowInternalLeft hm hlen' hpre' hcl
      (by simpa [Node.has_extra_keys] using hexl) hc1 hund hcnt hchR hsort hbnd
    simpa using hasm

theorem rebalanceIntBR {m d : Nat} (hm : 3 ≤ m) {lo hi : Option K}
    {ksL ksR' : List K} {sepR : K} {csL csR' : List (Node K V)}
    {ck rk1 : List K} {cch rch1 : List (Node K V)} {mk : K} {mc : Node K V}
    (hcsLlen : csL.length = ksL.length)
    (hpre : ChildrenPre (NodeWf m (d + 1) .child) lo ksL csL)
    (hc1 : NodeWf m (d + 1) .shrunk (chainLow lo ksL) (some sepR) (.internal ck cch))
    (hund : ck.length < m / 2)
    (hcnt : m / 2 ≤ ck.length + 1)
    (hrt : ChildrenWf (NodeWf m (d + 1) .child) (some sepR) hi ksR'
      ((.internal (mk :: rk1) (mc :: rch1)) :: csR'))
    (hexr : (Node.internal (mk :: rk1) (mc :: rch1) : Node K V).has_extra_keys m)
    (hsort : keysSorted (ksL ++ sepR :: ksR'))
    (hbnd : ∀ k ∈ ksL ++ sepR :: ksR', lowLt lo k ∧ highOk hi k)
    (hBLnone : tryBorrowInternalLeft m (ksL ++ sepR :: ksR')
      (csL ++ (.internal ck cch : Node K V) ::
        (.internal (mk :: rk1) (mc :: rch1) : Node K V) :: csR')
      ksL.length = none) :
    ∃ keys1 children2 sh,
      rebalanceChild m (ksL ++ sepR :: ksR')
        (csL ++ (.internal ck cch : Node K V) ::
          (.internal (mk :: rk1) (mc :: rch1) : Node K V) :: csR')
        ksL.length = (keys1, children2, sh) ∧
      RebalancedParent m (d + 1) lo hi (ksL ++ sepR :: ksR')
        (csL ++ (.internal ck cch : Node K V) ::
          (.internal (mk :: rk1) (mc :: rch1) : Node K V) :: csR')
        (cond sh 1 0) keys1 children2 := by
  have hacc_c : (csL ++ (.internal ck cch : Node K V) ::
      (.internal (mk :: rk1) (mc :: rch1) : Node K V) :: csR')[ksL.length]? =
      some (.internal ck cch) := by
    rw [← hcsLlen]
    exact getElem?_at_append _ _ _
  have hacc_r : (csL ++ (.internal ck cch : Node K V) ::
      (.internal (mk :: rk1) (mc :: rch1) : Node K V) :: csR')[ksL.length + 1]? =
      some (.internal (mk :: rk1) (mc :: rch1)) := by
    rw [show csL ++ (.internal ck cch : Node K V) ::
        (.internal (mk :: rk1) (mc :: rch1) : Node K V) :: csR' =
        (csL ++ [(.internal ck cch : Node K V)]) ++
          (.internal (mk :: rk1) (mc :: rch1) : Node K V) :: csR' by simp,
      show ksL.length + 1 = (csL ++ [(.internal ck cch : Node K V)]).length
        by simp [hcsLlen]]
    exact getElem?_at_append _ _ _
  have hacc_k : (ksL ++ sepR :: ksR')[ksL.length]? = some sepR :=
    getElem?_at_append _ _ _
  have hkset : (ksL ++ sepR :: ksR').set ksL.length mk = ksL ++ mk :: ksR' :=
    set_at_append _ _ _ _
  have hcset : ((csL ++ (.internal ck cch : Node K V) ::
        (.internal (mk :: rk1) (mc :: rch1) : Node K V) :: csR').set ksL.length
        (.internal (ck ++ [sepR]) (cch ++ [mc]))).set (ksL.length + 1)
        (.internal rk1 rch1) =
      csL ++ (.internal (ck ++ [sepR]) (cch ++ [mc]) : Node K V) ::
        (.internal rk1 rch1 : Node K V) :: csR' := by
    rw [show ksL.length = csL.length from hcsLlen.symm,
      set_at_append csL
        ((.internal (mk :: rk1) (mc :: rch1) : Node K V) :: csR') _ _,
      show csL.length + 1 =
        (csL ++ [(.internal (ck ++ [sepR]) (cch ++ [mc]) : Node K V)]).length
        by simp,
      show csL ++ (.internal (ck ++ [sepR]) (cch ++ [mc]) : Node K V) ::
          (.internal (mk :: rk1) (mc :: rch1) : Node K V) :: csR' =
        (csL ++ [(.internal (ck ++ [sepR]) (cch ++ [mc]) : Node K V)]) ++
          (.internal (mk :: rk1) (mc :: rch1) : Node K V) :: csR' by simp,
      set_at_append _ csR' _ _]
    simp
  refine ⟨ksL ++ mk :: ksR',
    csL ++ (.internal (ck ++ [sepR]) (cch ++ [mc]) : Node K V) ::
      (.internal rk1 rch1 : Node K V) :: csR', false, ?_, ?_⟩
  · simp only [rebalanceChild, hacc_c, hBLnone,
      tryBorrowInternalRight_eq_some hacc_c hacc_r hexr hacc_k, hkset, hcset]
  · exact assembleBorrowInternalRight hm hcsLlen hpre hc1 hund hcnt hrt
      (by simpa [Node.has_extra_keys] using hexr) hsort hbnd

theorem rebalanceIntML {m d : Nat} (hm : 3 ≤ m) {lo hi : Option K}
    {ksL' ksR : List K} {sepL : K} {csL' csR : List (Node K V)}
    {ck lk : List K} {cch lch : List (Node K V)} {c0 : Node K V}
    (hlen' : csL'.length = ksL'.length)
    (hpre' : ChildrenPre (NodeWf m (d + 1) .child) lo ksL' csL')
    (hcl : NodeWf m (d + 1) .child (chainLow lo ksL') (some sepL)
      (.internal lk lch))
    (hnexl : lk.length ≤ m / 2)
    (hc1 : NodeWf m (d + 1) .shrunk (some sepL) (headHigh hi ksR) (.internal ck cch))
    (hund : ck.length < m / 2)
    (hchR : ChildrenWf (NodeWf m (d + 1) .child) (some sepL) hi ksR (c0 :: csR))
    (hsort : keysSorted (ksL' ++ sepL :: ksR))
    (hbnd : ∀ k ∈ ksL' ++ sepL :: ksR, lowLt lo k ∧ highOk hi k)
    (hBLnone : tryBorrowInternalLeft m (ksL' ++ sepL :: ksR)
      ((csL' ++ [(.internal lk lch : Node K V)]) ++
        (.internal ck cch : Node K V) :: csR)
      (ksL'.length + 1) = none)
    (hBRnone : tryBorrowInternalRight m (ksL' ++ sepL :: ksR)
      ((csL' ++ [(.internal lk lch : Node K V)]) ++
        (.internal ck cch : Node K V) :: csR)
      (ksL'.length + 1) = none) :
    ∃ keys1 children2 sh,
      rebalanceChild m (ksL' ++ sepL :: ksR)
        ((csL' ++ [(.internal lk lch : Node K V)]) ++
          (.internal ck cch : Node K V) :: csR)
        (ksL'.length + 1) = (keys1, children2, sh) ∧
      RebalancedParent m (d + 1) lo hi (ksL' ++ sepL :: ksR)
        ((csL' ++ [(.internal lk lch : Node K V)]) ++
          (.internal ck cch : Node K V) :: csR)
        (cond sh 1 0) keys1 children2 := by
  have hacc_c : ((csL' ++ [(.internal lk lch : Node K V)]) ++
      (.internal ck cch : Node K V) :: csR)[ksL'.length + 1]? =
      some (.internal ck cch) := by
    rw [show ksL'.length + 1 = (csL' ++ [(.internal lk lch : Node K V)]).length
      by simp [hlen']]
    exact getElem?_at_append _ _ _
  have hacc_l : ((csL' ++ [(.internal lk lch : Node K V)]) ++
      (.internal ck cch : Node K V) :: csR)[ksL'.length + 1 - 1]? =
      some (.internal lk lch) := by
    rw [Nat.add_sub_cancel,
      show (csL' ++ [(.internal lk lch : Node K V)]) ++
        (.internal ck cch : Node K V) :: csR =
        csL' ++ (.internal lk lch : Node K V) ::
          ((.internal ck cch : Node K V) :: csR) by simp,
      show ksL'.length = csL'.length from hlen'.symm]
    exact getElem?_at_append _ _ _
  have hacc_k : (ksL' ++ sepL :: ksR)[ksL'.length + 1 - 1]? = some sepL := by
    rw [Nat.add_sub_cancel]
    exact getElem?_at_append _ _ _
  have hLsepL : ∀ x ∈ ksL', x < sepL := (pairwise_of_sorted_append_cons hsort).1
  have hgtR : ∀ x ∈ ksR, sepL < x := (pairwise_of_sorted_append_cons hsort).2.1
  have hbs : binarySearch (ksL' ++ sepL :: ksR) sepL = .ok ksL'.length :=
    binarySearch_of_found _ _ _ hLsepL hgtR
  have hkerase : (ksL' ++ sepL :: ksR).eraseIdx ksL'.length = ksL' ++ ksR :=
    eraseIdx_at_append _ _ _
  have hcerase : (((csL' ++ [(.internal lk lch : Node K V)]) ++
        (.internal ck cch : Node K V) :: csR).set (ksL'.length + 1 - 1)
        (.internal (lk ++ sepL :: ck) (lch ++ cch))).eraseIdx (ksL'.length + 1) =
      csL' ++ (.internal (lk ++ sepL :: ck) (lch ++ cch) : Node K V) :: csR := by
    rw [Nat.add_sub_cancel,
      show (csL' ++ [(.internal lk lch : Node K V)]) ++
        (.internal ck cch : Node K V) :: csR =
        csL' ++ (.internal lk lch : Node K V) ::
          ((.internal ck cch : Node K V) :: csR) by simp,
      show ksL'.length = csL'.length from hlen'.symm,
      set_at_append csL' ((.internal ck cch : Node K V) :: csR) _ _,
      show csL'.length + 1 =
        (csL' ++ [(.internal (lk ++ sepL :: ck) (lch ++ cch) : Node K V)]).length
        by simp,
      show csL' ++ (.internal (lk ++ sepL :: ck) (lch ++ cch) : Node K V) ::
          (.internal ck cch : Node K V) :: csR =
        (csL' ++ [(.internal (lk ++ sepL :: ck) (lch ++ cch) : Node K V)]) ++
          (.internal ck cch : Node K V) :: csR by simp,
      eraseIdx_at_append _ csR _]
    simp
  refine ⟨ksL' ++ ksR,
    csL' ++ (.internal (lk ++ sepL :: ck) (lch ++ cch) : Node K V) :: csR,
    true, ?_, ?_⟩
  · simp only [rebalanceChild, hacc_c, hBLnone, hBRnone,
      tryMergeInternalLeft_eq_some (Nat.succ_pos _) hacc_c hacc_l hacc_k hbs,
      hkerase, hcerase]
  · have hasm := assembleMergeInternalLeft hm hlen' hpre' hcl hnexl hc1 hund
      hchR hsort hbnd
    simpa using hasm

theorem rebalanceIntMR {m d : Nat} (hm : 3 ≤ m) {lo hi : Option K}
    {ksR' : List K} {sepR : K} {csR' : List (Node K V)}
    {ck rk : List K} {cch rch : List (Node K V)}
    (hc1 : NodeWf m (d + 1) .shrunk lo (some sepR) (.internal ck cch))
    (hund : ck.length < m / 2)
    (hrt : ChildrenWf (NodeWf m (d + 1) .child) (some sepR) hi ksR'
      ((.internal rk rch) :: csR'))
    (hnexr : rk.length ≤ m / 2)
    (hsort : keysSorted (sepR :: ksR'))
    (hbnd : ∀ k ∈ sepR :: ksR', lowLt lo k ∧ highOk hi k) :
    ∃ keys1 children2 sh,
      rebalanceChild m (sepR :: ksR')
        ((.internal ck cch : Node K V) :: (.internal rk rch : Node K V) :: csR')
        0 = (keys1, children2, sh) ∧
      RebalancedParent m (d + 1) lo hi (sepR :: ksR')
        ((.internal ck cch : Node K V) :: (.internal rk rch : Node K V) :: csR')
        (cond sh 1 0) keys1 children2 := by
  have hacc_c : (((.internal ck cch : Node K V)) ::
      (.internal rk rch : Node K V) :: csR')[0]? = some (.internal ck cch) := by
    simp
  have hacc_r : (((.internal ck cch : Node K V)) ::
      (.internal rk rch : Node K V) :: csR')[0 + 1]? =
      some (.internal rk rch) := by simp
  have hacc_k : ((sepR :: ksR' : List K))[0]? = some sepR := by simp
  have hnoextra : ¬ (Node.internal rk rch : Node K V).has_extra_keys m := by
    simp [Node.has_extra_keys, Nat.not_lt]
    omega
  have hgtR : ∀ x ∈ ksR', sepR < x :=
    (pairwise_of_sorted_append_cons
      (show keysSorted (([] : List K) ++ sepR :: ksR') from hsort)).2.1
  have hbs : binarySearch (sepR :: ksR') sepR = .ok 0 := by
    have := binarySearch_of_found [] ksR' sepR (by intro x hx; cases hx) hgtR
    simpa using this
  refine ⟨ksR',
    (.internal (ck ++ sepR :: rk) (cch ++ rch) : Node K V) :: csR', true, ?_, ?_⟩
  · simp only [rebalanceChild, hacc_c, tryBorrowInternalLeft_eq_none_zero,
      tryBorrowInternalRight_eq_none_noextra hacc_c hacc_r hnoextra,
      tryMergeInternalLeft_eq_none_zero,
      tryMergeInternalRight_eq_some hacc_c hacc_r hacc_k hbs]
    simp [List.eraseIdx]
  · have hasm := assembleMergeInternalRight hm
      (show ([] : List (Node K V)).length = ([] : List K).length from rfl)
      (show ChildrenPre (NodeWf m (d + 1) .child) lo ([] : List K)
        ([] : List (Node K V)) from trivial)
      hc1 hund hrt hnexr (by simpa using hsort) (by simpa using hbnd)
    simpa using hasm

theorem rebalanceChild_internal_spec {m d : Nat} (hm : 3 ≤ m) {lo hi : Option K}
    {ksL ksR : List K} {csL csR : List (Node K V)} {ck : List K}
    {cch : List (Node K V)} {c0 : Node K V}
    (hcsLlen : csL.length = ksL.length)
    (hpre : ChildrenPre (NodeWf m (d + 1) .child) lo ksL csL)
    (hchR : ChildrenWf (NodeWf m (d + 1) .child) (chainLow lo ksL) hi ksR (c0 :: csR))
    (hc1 : NodeWf m (d + 1) .shrunk (chainLow lo ksL) (headHigh hi ksR)
      (.internal ck cch))
    (hund : ck.length < m / 2)
    (hcnt : m / 2 ≤ ck.length + 1)
    (hsort : keysSorted (ksL ++ ksR))
    (hbnd : ∀ k ∈ ksL ++ ksR, lowLt lo k ∧ highOk hi k)
    (hne : ksL ++ ksR ≠ []) :
    ∃ keys1 children2 sh,
      rebalanceChild m (ksL ++ ksR) (csL ++ (.internal ck cch : Node K V) :: csR)
        ksL.length = (keys1, children2, sh) ∧
      RebalancedParent m (d + 1) lo hi (ksL ++ ksR)
        (csL ++ (.internal ck cch : Node K V) :: csR)
        (cond sh 1 0) keys1 children2 := by
  by_cases hL : ksL = []
  · subst hL
    have hcsL : csL = [] := List.eq_nil_of_length_eq_zero (by simpa using hcsLlen)
    subst hcsL
    cases ksR with
    | nil => simp at hne
    | cons sepR ksR' =>
    obtain ⟨hc0, hrt0⟩ := hchR
    cases csR with
    | nil => exact absurd (childrenWf_length hrt0) (by simp)
    | cons cr csR' =>
    have hcr := childrenWf_cons_elim hrt0
    cases cr with
    | leaf _ _ => exact absurd hcr (by simp [NodeWf])
    | internal rk rch =>
    obtain ⟨_, _, hminr, _, hchr⟩ := hcr
    by_cases hexr : (Node.internal rk rch : Node K V).has_extra_keys m
    · have hexlen : m / 2 < rk.length := by
        simpa [Node.has_extra_keys] using hexr
      have hrkne : rk ≠ [] := by
        intro h0
        rw [h0] at hexlen
        simp at hexlen
      cases rk with
      | nil => exact absurd rfl hrkne
      | cons mk rk1 =>
      cases rch with
      | nil => exact absurd (childrenWf_length hchr) (by simp)
      | cons mc rch1 =>
      exact rebalanceIntBR hm rfl trivial hc1 hund hcnt hrt0 hexr hsort hbnd
        (tryBorrowInternalLeft_eq_none_zero _ _ _)
    · have hnexr : rk.length ≤ m / 2 := by
        simpa [Node.has_extra_keys, Nat.not_lt] using hexr
      have := rebalanceIntMR hm hc1 hund hrt0 hnexr
        (by simpa using hsort) (by simpa using hbnd)
      simpa using this
  · obtain ⟨ksL', sepL, hks⟩ : ∃ l a, ksL = l ++ [a] :=
      ⟨ksL.dropLast, ksL.getLast hL, (List.dropLast_append_getLast hL).symm⟩
    subst hks
    have hcsLne : csL ≠ [] := by
      intro h0
      rw [h0] at hcsLlen
      simp at hcsLlen
    obtain ⟨csL', cl, hcs⟩ : ∃ l a, csL = l ++ [a] :=
      ⟨csL.dropLast, csL.getLast hcsLne, (List.dropLast_append_getLast hcsLne).symm⟩
    subst hcs
    have hlen' : csL'.length = ksL'.length := by
      simp only [List.length_append, List.length_singleton] at hcsLlen
      omega
    have hpre0 := hpre
    rw [childrenPre_snoc_both] at hpre
    obtain ⟨hpre', hcl⟩ := hpre
    cases cl with
    | leaf _ _ => exact absurd hcl (by simp [NodeWf])
    | internal lk lch =>
    have hcl0 := hcl
    obtain ⟨_, _, hminl, _, hchl⟩ := hcl0
    have hclsnoc : chainLow lo (ksL' ++ [sepL]) = some sepL := chainLow_snoc _ _ _
    have hchR' := hchR
    have hc1' := hc1
    rw [hclsnoc] at hchR' hc1'
    have hkeq : (ksL' ++ [sepL]) ++ ksR = ksL' ++ sepL :: ksR := by simp
    have hilen : (ksL' ++ [sepL]).length = ksL'.length + 1 := by simp
    have hsort' : keysSorted (ksL' ++ sepL :: ksR) := by rw [← hkeq]; exact hsort
    have hbnd' : ∀ k ∈ ksL' ++ sepL :: ksR, lowLt lo k ∧ highOk hi k := by
      rw [← hkeq]; exact hbnd
    have hacc_c : ((csL' ++ [(.internal lk lch : Node K V)]) ++
        (.internal ck cch : Node K V) :: csR)[ksL'.length + 1]? =
        some (.internal ck cch) := by
      rw [show ksL'.length + 1 = (csL' ++ [(.internal lk lch : Node K V)]).length
        by simp [hlen']]
      exact getElem?_at_append _ _ _
    have hacc_l : ((csL' ++ [(.internal lk lch : Node K V)]) ++
        (.internal ck cch : Node K V) :: csR)[ksL'.length + 1 - 1]? =
        some (.internal lk lch) := by
      rw [Nat.add_sub_cancel,
        show (csL' ++ [(.internal lk lch : Node K V)]) ++
          (.internal ck cch : Node K V) :: csR =
          csL' ++ (.internal lk lch : Node K V) ::
            ((.internal ck cch : Node K V) :: csR) by simp,
        show ksL'.length = csL'.length from hlen'.symm]
      exact getElem?_at_append _ _ _
    by_cases hexl : (Node.internal lk lch : Node K V).has_extra_keys m
    · have hexlen : m / 2 < lk.length := by
        simpa [Node.has_extra_keys] using hexl
      have hlkne : lk ≠ [] := by
        intro h0
        rw [h0] at hexlen
        simp at hexlen
      obtain ⟨lk2, mk, hlks⟩ : ∃ l a, lk = l ++ [a] :=
        ⟨lk.dropLast, lk.getLast hlkne, (List.dropLast_append_getLast hlkne).symm⟩
      subst hlks
      have hlchne : lch ≠ [] := by
        intro h0
        have := childrenWf_length hchl
        rw [h0] at this
        simp at this
      obtain ⟨lch2, mc, hlchs⟩ : ∃ l a, lch = l ++ [a] :=
        ⟨lch.dropLast, lch.getLast hlchne,
          (List.dropLast_append_getLast hlchne).symm⟩
      subst hlchs
      rw [hkeq, hilen]
      exact rebalanceIntBL hm hlen' hpre' hcl hexl hc1' hund hcnt hchR'
        hsort' hbnd'
    · have hnexl : lk.length ≤ m / 2 := by
        simpa [Node.has_extra_keys, Nat.not_lt] using hexl
      have hBLnone : tryBorrowInternalLeft m ((ksL' ++ [sepL]) ++ ksR)
          ((csL' ++ [(.internal lk lch : Node K V)]) ++
            (.internal ck cch : Node K V) :: csR) (ksL'.length + 1) = none :=
        tryBorrowInternalLeft_eq_none_noextra (Nat.succ_pos _) hacc_c hacc_l hexl
      cases ksR with
      | nil =>
        have hcsR : csR = [] := childrenWf_nil_keys hchR'
        subst hcsR
        have hBRnone : tryBorrowInternalRight m ((ksL' ++ [sepL]) ++ ([] : List K))
            ((csL' ++ [(.internal lk lch : Node K V)]) ++
              [(.internal ck cch : Node K V)]) (ksL'.length + 1) = none := by
          apply tryBorrowInternalRight_eq_none_nosib hacc_c
          apply List.getElem?_eq_none
          simp [hlen']
        rw [hkeq, hilen]
        exact rebalanceIntML hm hlen' hpre' hcl hnexl hc1' hund hchR'
          hsort' hbnd'
          (by rw [← hkeq]; exact hBLnone) (by rw [← hkeq]; exact hBRnone)
      | cons sepR ksR' =>
        obtain ⟨hc0, hrt0⟩ := id hchR'
        cases csR with
        | nil => exact absurd (childrenWf_length hrt0) (by simp)
        | cons cr csR' =>
        have hcr := childrenWf_cons_elim hrt0
        cases cr with
        | leaf _ _ => exact absurd hcr (by simp [NodeWf])
        | internal rk rch =>
        obtain ⟨_, _, hminr, _, hchr⟩ := hcr
        have hacc_r : ((csL' ++ [(.internal lk lch : Node K V)]) ++
            (.internal ck cch : Node K V) :: (.internal rk rch : Node K V) ::
              csR')[ksL'.length + 1 + 1]? = some (.internal rk rch) := by
          rw [show (csL' ++ [(.internal lk lch : Node K V)]) ++
              (.internal ck cch : Node K V) :: (.internal rk rch : Node K V) ::
                csR' =
              ((csL' ++ [(.internal lk lch : Node K V)]) ++
                [(.internal ck cch : Node K V)]) ++
                (.internal rk rch : Node K V) :: csR' by simp,
            show ksL'.length + 1 + 1 =
              ((csL' ++ [(.internal lk lch : Node K V)]) ++
                [(.internal ck cch : Node K V)]).length by simp [hlen']]
          exact getElem?_at_append _ _ _
        by_cases hexr : (Node.internal rk rch : Node K V).has_extra_keys m
        · have hexlen : m / 2 < rk.length := by
            simpa [Node.has_extra_keys] using hexr
          cases rk with
          | nil => simp at hexlen
          | cons mk rk1 =>
          cases rch with
          | nil => exact absurd (childrenWf_length hchr) (by simp)
          | cons mc rch1 =>
          exact rebalanceIntBR hm hcsLlen hpre0 hc1 hund hcnt hrt0 hexr
            hsort hbnd (by rw [hilen]; exact hBLnone)
        · have hBRnone : tryBorrowInternalRight m
              ((ksL' ++ [sepL]) ++ sepR :: ksR')
              ((csL' ++ [(.internal lk lch : Node K V)]) ++
                (.internal ck cch : Node K V) ::
                  (.internal rk rch : Node K V) :: csR')
              (ksL'.length + 1) = none :=
            tryBorrowInternalRight_eq_none_noextra hacc_c hacc_r hexr
          rw [hkeq, hilen]
          exact rebalanceIntML hm hlen' hpre' hcl hnexl hc1' hund hchR'
            hsort' hbnd'
            (by rw [← hkeq]; exact hBLnone) (by rw [← hkeq]; exact hBRnone)

theorem removeInChild_at_none {m : Nat} {key : K} {c : Node K V}
    (cs1 cs2 : List (Node K V)) (h : removeNode m key c = none) :
    removeInChild m key (cs1 ++ c :: cs2) cs1.length = none := by
  induction cs1 with
  | nil => simp [removeInChild, h]
  | cons x xs ih =>
    simp only [List.cons_append, List.length_cons, removeInChild,
      List.append_eq, ih]

theorem removeInChild_at_some {m : Nat} {key : K} {c c1 : Node K V}
    {kv : K × V} {sh : Bool} (cs1 cs2 : List (Node K V))
    (h : removeNode m key c = some (kv, c1, sh)) :
    removeInChild m key (cs1 ++ c :: cs2) cs1.length =
      some (kv, cs1 ++ c1 :: cs2, sh) := by
  induction cs1 with
  | nil => simp [removeInChild, h]
  | cons x xs ih =>
    simp only [List.cons_append, List.length_cons, removeInChild,
      List.append_eq, ih]

theorem removeLeaf_spec {m : Nat} (hm : 3 ≤ m) (key : K)
    {role : TopRole} {lo hi : Option K} {ks : List K} {vs : List V}
    (hwf : NodeWf m 0 role lo hi (.leaf ks vs)) :
    RemoveSpec m 0 role lo hi key (.leaf ks vs) := by
  obtain ⟨hlen, hsort, hbnd, hmin, hmax⟩ := hwf
  by_cases hk : key ∈ ks
  · obtain ⟨l, r, hkeq, hbs, hl, hr⟩ := binarySearch_found hsort hk
    obtain ⟨vl, v0, vr, hveq, hvl, hvr⟩ := exists_align hkeq hlen
    subst hkeq
    subst hveq
    have hgetk : (l ++ key :: r)[l.length]? = some key := getElem?_at_append _ _ _
    have hgetv : (vl ++ v0 :: vr)[l.length]? = some v0 := by
      rw [← hvl]
      exact getElem?_at_append _ _ _
    have herasek : (l ++ key :: r).eraseIdx l.length = l ++ r :=
      eraseIdx_at_append _ _ _
    have herasev : (vl ++ v0 :: vr).eraseIdx l.length = vl ++ vr := by
      rw [← hvl]
      exact eraseIdx_at_append _ _ _
    have hins : removeNode m key (Node.leaf (l ++ key :: r) (vl ++ v0 :: vr)) =
        some ((key, v0), .leaf (l ++ r) (vl ++ vr), true) := by
      simp only [removeNode, hbs, hgetk, hgetv, herasek, herasev]
    unfold RemoveSpec
    rw [hins]
    obtain ⟨hl', hr', pwl, pwr, hcross⟩ := pairwise_of_sorted_append_cons hsort
    refine ⟨rfl, ⟨l.zip vl, r.zip vr, ?_, ?_, ?_, ?_⟩, ?_⟩
    · show (l ++ key :: r).zip (vl ++ v0 :: vr) = _
      rw [zip_middle _ _ _ _ _ _ hvl.symm]
    · exact fun p hp => hl p.1 (List.of_mem_zip hp).1
    · exact fun p hp => hr p.1 (List.of_mem_zip hp).1
    · show (l ++ r).zip (vl ++ vr) = _
      exact List.zip_append hvl.symm
    · show NodeWf m 0 .shrunk lo hi (Node.leaf (l ++ r) (vl ++ vr)) ∧
        (Node.leaf (l ++ r) (vl ++ vr) : Node K V).keyCount + 1 =
          (Node.leaf (l ++ key :: r) (vl ++ v0 :: vr) : Node K V).keyCount
      refine ⟨⟨?_, ?_, ?_, Nat.zero_le _, ?_⟩, ?_⟩
      · simp only [List.length_append, List.length_cons] at hlen ⊢
        omega
      · exact (keysSorted_iff_pairwise _).2
          (List.pairwise_append.2 ⟨pwl, pwr, hcross⟩)
      · intro k hkm
        rcases List.mem_append.1 hkm with h | h
        · exact hbnd k (by simp [h])
        · exact hbnd k (by simp [h])
      · simp only [List.length_append, List.length_cons] at hmax ⊢
        omega
      · simp only [Node.keyCount, List.length_append, List.length_cons]
        omega
  · have hbserr : binarySearch ks key =
        .error (ks.countP fun x => decide (x < key)) := by
      simp [binarySearch, hk]
    have hins : removeNode m key (Node.leaf ks vs) = none := by
      simp only [removeNode, hbserr]
    unfold RemoveSpec
    rw [hins]
    intro p hp
    intro hpk
    exact hk (hpk ▸ (List.of_mem_zip hp).1)

theorem removeInternal_step {m : Nat} (hm : 3 ≤ m) (key : K) {d : Nat}
    (IH : ∀ {role : TopRole} {lo hi : Option K} {n : Node K V},
      NodeWf m d role lo hi n → role ≠ .shrunk → RemoveSpec m d role lo hi key n)
    {role : TopRole} {lo hi : Option K} {ks : List K} {cs : List (Node K V)}
    (hwf : NodeWf m (d + 1) role lo hi (.internal ks cs))
    (hrole : role ≠ .shrunk) :
    RemoveSpec m (d + 1) role lo hi key (.internal ks cs) := by
  obtain ⟨hsort, hbnd, hmin, hmax, hch⟩ := hwf
  have hksne : ks ≠ [] := by
    intro h0
    subst h0
    cases role with
    | child =>
      simp only [internalMin, List.length_nil, Nat.le_zero] at hmin
      omega
    | root => simp [internalMin] at hmin
    | shrunk => exact hrole rfl
  obtain ⟨ksL, ksR, hkeq, hdi, hleL, hgtR⟩ := descentIndex_decomp key hsort
  subst hkeq
  have hcslen : cs.length = (ksL ++ ksR).length + 1 := childrenWf_length hch
  have hle : ksL.length ≤ cs.length := by simp at hcslen; omega
  obtain ⟨csL, csR0, hcseq, hcsLlen⟩ := exists_split_at cs ksL.length hle
  subst hcseq
  cases csR0 with
  | nil =>
    exfalso
    simp only [List.length_append, List.length_nil] at hcslen
    omega
  | cons c csR =>
  rw [childrenWf_append hcsLlen] at hch
  obtain ⟨hpre, hchR⟩ := hch
  have hchild := childrenWf_cons_elim hchR
  have hIH := IH hchild (by decide)
  unfold RemoveSpec at hIH
  rcases hrem : removeNode m key c with _ | ⟨⟨rk, rv⟩, c1, sh⟩
  · -- the key is absent below the descent child
    rw [hrem] at hIH
    have hric := removeInChild_at_none csL csR hrem
    rw [hcsLlen] at hric
    have hins : removeNode m key
        (Node.internal (ksL ++ ksR) (csL ++ c :: csR)) = none := by
      simp only [removeNode, hdi, hric]
    unfold RemoveSpec
    rw [hins]
    intro p hp
    simp only [Node.entries, entriesOfList_append, entriesOfList,
      List.mem_append] at hp
    rcases hp with hp | hp | hp
    · exact ne_of_lt (childrenPre_entries_lt
        (fun lo hi n h => nodeWf_entries_bound h) hpre hleL p hp)
    · exact hIH p hp
    · exact ne_of_gt (childrenWf_tail_entries_gt
        (fun lo hi n h => nodeWf_entries_bound h) hchR hgtR p hp)
  · rw [hrem] at hIH
    obtain ⟨hrk, ⟨E1c, E2c, hceq, hbE1, hbE2, hc1e⟩, hshspec⟩ := hIH
    subst rk
    have hric := removeInChild_at_some csL csR hrem
    rw [hcsLlen] at hric
    have hacc1 : (csL ++ c1 :: csR)[ksL.length]? = some c1 := by
      rw [← hcsLlen]
      exact getElem?_at_append _ _ _
    have hE1 : ∀ p ∈ entriesOfList csL ++ E1c, p.1 < key := by
      intro p hp
      rcases List.mem_append.1 hp with h | h
      · exact childrenPre_entries_lt
          (fun lo hi n h2 => nodeWf_entries_bound h2) hpre hleL p h
      · exact hbE1 p h
    have hE2 : ∀ p ∈ E2c ++ entriesOfList csR, key < p.1 := by
      intro p hp
      rcases List.mem_append.1 hp with h | h
      · exact hbE2 p h
      · exact childrenWf_tail_entries_gt
          (fun lo hi n h2 => nodeWf_entries_bound h2) hchR hgtR p h
    have hEdec : (Node.internal (ksL ++ ksR) (csL ++ c :: csR) : Node K V).entries =
        (entriesOfList csL ++ E1c) ++ (key, rv) :: (E2c ++ entriesOfList csR) := by
      show entriesOfList (csL ++ c :: csR) = _
      rw [entriesOfList_append]
      show entriesOfList csL ++ (c.entries ++ entriesOfList csR) = _
      rw [hceq]
      simp [List.append_assoc]
    cases sh with
    | false =>
      have hc1wf : NodeWf m d .child (chainLow lo ksL) (headHigh hi ksR) c1 := by
        simpa using hshspec
      have hins : removeNode m key
          (Node.internal (ksL ++ ksR) (csL ++ c :: csR)) =
          some ((key, rv), .internal (ksL ++ ksR) (csL ++ c1 :: csR), false) := by
        simp only [removeNode, hdi, hric, hacc1]
        rw [if_neg (by simp)]
      unfold RemoveSpec
      rw [hins]
      refine ⟨rfl, ⟨entriesOfList csL ++ E1c, E2c ++ entriesOfList csR,
        hEdec, hE1, hE2, ?_⟩, ?_⟩
      · show entriesOfList (csL ++ c1 :: csR) = _
        rw [entriesOfList_append]
        show entriesOfList csL ++ (c1.entries ++ entriesOfList csR) = _
        rw [hc1e]
        simp [List.append_assoc]
      · show NodeWf m (d + 1) role lo hi
          (.internal (ksL ++ ksR) (csL ++ c1 :: csR))
        refine ⟨hsort, hbnd, hmin, hmax, ?_⟩
        rw [childrenWf_append hcsLlen]
        exact ⟨hpre, childrenWf_cons_set hchR hc1wf⟩
    | true =>
      have hshsp : NodeWf m d .shrunk (chainLow lo ksL) (headHigh hi ksR) c1 ∧
          c1.keyCount + 1 = c.keyCount := by simpa using hshspec
      obtain ⟨hc1wf, hccount⟩ := hshsp
      by_cases hu : c1.is_underfull m
      · have hdisp : ∃ keys1 children2 shr,
            rebalanceChild m (ksL ++ ksR) (csL ++ c1 :: csR) ksL.length =
              (keys1, children2, shr) ∧
            RebalancedParent m d lo hi (ksL ++ ksR) (csL ++ c1 :: csR)
              (cond shr 1 0) keys1 children2 := by
          cases d with
          | zero =>
            cases c1 with
            | internal _ _ => exact absurd hc1wf (by simp [NodeWf])
            | leaf ck cv =>
              have hundl : ck.length < (m + 1) / 2 := by
                simpa [Node.is_underfull] using hu
              have hcntl : (m + 1) / 2 ≤ ck.length + 1 := by
                cases c with
                | internal _ _ => exact absurd hchild (by simp [NodeWf])
                | leaf cks cvs =>
                  obtain ⟨_, _, _, hminc, _⟩ := hchild
                  have h2 : (Node.leaf ck cv : Node K V).keyCount + 1 =
                      (Node.leaf cks cvs : Node K V).keyCount := hccount
                  simp only [Node.keyCount] at h2
                  simp only [leafMin] at hminc
                  omega
              exact rebalanceChild_leaf_spec hm hcsLlen hpre hchR hc1wf hundl
                hcntl hsort hbnd hksne
          | succ d2 =>
            cases c1 with
            | leaf _ _ => exact absurd hc1wf (by simp [NodeWf])
            | internal ck cch =>
              have hundl : ck.length < m / 2 := by
                simpa [Node.is_underfull] using hu
              have hcntl : m / 2 ≤ ck.length + 1 := by
                cases c with
                | leaf _ _ => exact absurd hchild (by simp [NodeWf])
                | internal cks cchs =>
                  obtain ⟨_, _, hminc, _, _⟩ := hchild
                  have h2 : (Node.internal ck cch : Node K V).keyCount + 1 =
                      (Node.internal cks cchs : Node K V).keyCount := hccount
                  simp only [Node.keyCount] at h2
                  simp only [internalMin] at hminc
                  omega
              exact rebalanceChild_internal_spec hm hcsLlen hpre hchR hc1wf
                hundl hcntl hsort hbnd hksne
        obtain ⟨keys1, children2, shr, hrebeq, hreb⟩ := hdisp
        obtain ⟨hsort1, hbnd1, hlen1, hch1, hent1⟩ := hreb
        have hins : removeNode m key
            (Node.internal (ksL ++ ksR) (csL ++ c :: csR)) =
            some ((key, rv), .internal keys1 children2, shr) := by
          simp only [removeNode, hdi, hric, hacc1]
          rw [if_pos ⟨trivial, hu⟩, hrebeq]
        unfold RemoveSpec
        rw [hins]
        refine ⟨rfl, ⟨entriesOfList csL ++ E1c, E2c ++ entriesOfList csR,
          hEdec, hE1, hE2, ?_⟩, ?_⟩
        · show entriesOfList children2 = _
          rw [hent1, entriesOfList_append]
          show entriesOfList csL ++ (c1.entries ++ entriesOfList csR) = _
          rw [hc1e]
          simp [List.append_assoc]
        · cases shr with
          | false =>
            show NodeWf m (d + 1) role lo hi (.internal keys1 children2)
            have hlen1' : keys1.length = (ksL ++ ksR).length := by
              simpa using hlen1
            refine ⟨hsort1, hbnd1, ?_, ?_, hch1⟩
            · rw [hlen1']
              exact hmin
            · rw [hlen1']
              exact hmax
          | true =>
            show NodeWf m (d + 1) .shrunk lo hi (.internal keys1 children2) ∧
              (Node.internal keys1 children2 : Node K V).keyCount + 1 =
                (Node.internal (ksL ++ ksR) (csL ++ c :: csR) : Node K V).keyCount
            have hlen1' : keys1.length + 1 = (ksL ++ ksR).length := by
              simpa using hlen1
            refine ⟨⟨hsort1, hbnd1, Nat.zero_le _, by omega, hch1⟩, ?_⟩
            simp only [Node.keyCount]
            exact hlen1'
      · have hc1wf' : NodeWf m d .child (chainLow lo ksL) (headHigh hi ksR) c1 :=
          nodeWf_of_not_underfull hc1wf hu
        have hins : removeNode m key
            (Node.internal (ksL ++ ksR) (csL ++ c :: csR)) =
            some ((key, rv), .internal (ksL ++ ksR) (csL ++ c1 :: csR), false) := by
          simp only [removeNode, hdi, hric, hacc1]
          rw [if_neg (by rintro ⟨_, h2⟩; exact hu h2)]
        unfold RemoveSpec
        rw [hins]
        refine ⟨rfl, ⟨entriesOfList csL ++ E1c, E2c ++ entriesOfList csR,
          hEdec, hE1, hE2, ?_⟩, ?_⟩
        · show entriesOfList (csL ++ c1 :: csR) = _
          rw [entriesOfList_append]
          show entriesOfList csL ++ (c1.entries ++ entriesOfList csR) = _
          rw [hc1e]
          simp [List.append_assoc]
        · show NodeWf m (d + 1) role lo hi
            (.internal (ksL ++ ksR) (csL ++ c1 :: csR))
          refine ⟨hsort, hbnd, hmin, hmax, ?_⟩
          rw [childrenWf_append hcsLlen]
          exact ⟨hpre, childrenWf_cons_set hchR hc1wf'⟩

theorem removeNode_spec {m : Nat} (hm : 3 ≤ m) (key : K) :
    ∀ {d : Nat} {role : TopRole} {lo hi : Option K} {n : Node K V},
      NodeWf m d role lo hi n → role ≠ .shrunk →
      RemoveSpec m d role lo hi key n := by
  intro d
  induction d with
  | zero =>
    intro role lo hi n hwf hrole
    cases n with
    | internal ks cs => exact absurd hwf (by simp [NodeWf])
    | leaf ks vs => exact removeLeaf_spec hm key hwf
  | succ d ih =>
    intro role lo hi n hwf hrole
    cases n with
    | leaf ks vs => exact absurd hwf (by simp [NodeWf])
    | internal ks cs =>
      exact removeInternal_step hm key (fun h hr => ih h hr) hwf hrole

theorem nodeWf_root_of_shrunk {m d : Nat} {lo hi : Option K} {n : Node K V}
    (h : NodeWf m d .shrunk lo hi n) (hk : 1 ≤ n.keyCount) :
    NodeWf m d .root lo hi n := by
  match d, n with
  | 0, .leaf ks vs =>
    obtain ⟨h1, h2, h3, _, h5⟩ := h
    exact ⟨h1, h2, h3, hk, h5⟩
  | d + 1, .internal ks cs =>
    obtain ⟨h1, h2, _, h4, h5⟩ := h
    exact ⟨h1, h2, hk, h4, h5⟩

theorem insert_contract (t : BPTreeMap K V) (key : K) (value : V) (hwf : t.Wf) :
    (t.insert key value).2.Wf ∧
    (t.insert key value).2.order = t.order ∧
    ((∃ E1 v0 E2, t.toList = E1 ++ (key, v0) :: E2 ∧
        (t.insert key value).1 = some v0 ∧
        (t.insert key value).2.toList = E1 ++ (key, value) :: E2 ∧
        (t.insert key value).2.len = t.len) ∨
     (∃ E1 E2, t.toList = E1 ++ E2 ∧
        (∀ p ∈ E1, p.1 < key) ∧ (∀ p ∈ E2, key < p.1) ∧
        (t.insert key value).1 = none ∧
        (t.insert key value).2.toList = E1 ++ (key, value) :: E2 ∧
        (t.insert key value).2.len = t.len + 1)) := by
  obtain ⟨hord, hroot⟩ := hwf
  rcases ht : t.root with _ | r
  · -- empty tree: a fresh root leaf
    rw [ht] at hroot
    have hlen0 : t.len = 0 := hroot
    have hins : t.insert key value =
        (none, { t with root := some (.leaf [key] [value]), len := t.len + 1 }) := by
      simp only [BPTreeMap.insert, ht]
    rw [hins]
    refine ⟨⟨hord, ?_, ?_⟩, rfl, .inr ⟨[], [], ?_, ?_, ?_, rfl, ?_, rfl⟩⟩
    · exact ⟨rfl, trivial, fun k hk => ⟨trivial, trivial⟩,
        by show leafMin t.order .root ≤ 1; simp [leafMin],
        by show (1 : Nat) ≤ t.order; omega⟩
    · show t.len + 1 = 1
      omega
    · rw [BPTreeMap.toList, ht]
      rfl
    · intro p hp
      cases hp
    · intro p hp
      cases hp
    · rw [BPTreeMap.toList]
      rfl
  · rw [ht] at hroot
    obtain ⟨hrwf, hlen⟩ := hroot
    have hspec := insertNode_spec hord key value hrwf trivial trivial
    unfold InsertSpec at hspec
    rcases hins : insertNode t.order key value r with ⟨old, r1, sp⟩
    rw [hins] at hspec
    rcases old with _ | v0
    · -- the key was absent
      obtain ⟨E1, E2, hdec, hb1, hb2, hsp⟩ := hspec
      rcases sp with _ | ⟨sk, sib⟩
      · obtain ⟨hwf1, hent1⟩ := hsp
        have hres : t.insert key value =
            (none, { t with root := some r1, len := t.len + 1 }) := by
          simp [BPTreeMap.insert, ht, hins]
        rw [hres]
        have hh := nodeWf_height hwf1
        refine ⟨⟨hord, ?_, ?_⟩, rfl, .inr ⟨E1, E2, ?_, hb1, hb2, rfl, ?_, rfl⟩⟩
        · exact hh.symm ▸ hwf1
        · show t.len + 1 = r1.entries.length
          rw [hent1, hlen, hdec]
          simp only [List.length_append, List.length_cons]
          omega
        · rw [BPTreeMap.toList, ht]
          exact hdec
        · rw [BPTreeMap.toList]
          exact hent1
      · obtain ⟨hwf1, hwfs, _, _, hcat⟩ := hsp
        have hres : t.insert key value =
            (none, { t with root := some (.internal [sk] [r1, sib]), len := t.len + 1 }) := by
          simp [BPTreeMap.insert, ht, hins]
        rw [hres]
        have hh1 := nodeWf_height hwf1
        have hhs := nodeWf_height hwfs
        have hwfnew : NodeWf t.order (r.height + 1) .root none none
            (.internal [sk] [r1, sib] : Node K V) := by
          refine ⟨trivial, ?_, le_refl _, by show (1 : Nat) ≤ t.order; omega, hwf1, hwfs⟩
          intro k hk
          rcases List.mem_singleton.1 hk with rfl
          exact ⟨trivial, trivial⟩
        have hhnew : (Node.internal [sk] [r1, sib] : Node K V).height =
            r.height + 1 := nodeWf_height hwfnew
        have hentnew : (Node.internal [sk] [r1, sib] : Node K V).entries =
            E1 ++ (key, value) :: E2 := by
          show entriesOfList [r1, sib] = _
          simp only [entriesOfList, List.append_nil]
          rw [← hcat]
        refine ⟨⟨hord, ?_, ?_⟩, rfl, .inr ⟨E1, E2, ?_, hb1, hb2, rfl, ?_, rfl⟩⟩
        · exact hhnew.symm ▸ hwfnew
        · show t.len + 1 = (Node.internal [sk] [r1, sib] : Node K V).entries.length
          rw [hentnew, hlen, hdec]
          simp only [List.length_append, List.length_cons]
          omega
        · rw [BPTreeMap.toList, ht]
          exact hdec
        · rw [BPTreeMap.toList]
          exact hentnew
    · -- the key was present: swap in place
      obtain ⟨hspnone, hwf1, E1, E2, hdec, hent1⟩ := hspec
      subst hspnone
      have hres : t.insert key value =
          (some v0, { t with root := some r1, len := t.len }) := by
        simp [BPTreeMap.insert, ht, hins]
      rw [hres]
      have hh := nodeWf_height hwf1
      refine ⟨⟨hord, ?_, ?_⟩, rfl, .inl ⟨E1, v0, E2, ?_, rfl, ?_, rfl⟩⟩
      · exact hh.symm ▸ hwf1
      · show t.len = r1.entries.length
        rw [hent1, hlen, hdec]
        simp only [List.length_append, List.length_cons]
      · rw [BPTreeMap.toList, ht]
        exact hdec
      · rw [BPTreeMap.toList]
        exact hent1

theorem remove_entry_contract (t : BPTreeMap K V) (key : K) (hwf : t.Wf) :
    (t.remove_entry key).2.Wf ∧
    (t.remove_entry key).2.order = t.order ∧
    ((∃ E1 v0 E2, t.toList = E1 ++ (key, v0) :: E2 ∧
        (t.remove_entry key).1 = some (key, v0) ∧
        (t.remove_entry key).2.toList = E1 ++ E2 ∧
        (t.remove_entry key).2.len + 1 = t.len) ∨
     ((∀ p ∈ t.toList, p.1 ≠ key) ∧
        (t.remove_entry key).1 = none ∧ (t.remove_entry key).2 = t)) := by
  obtain ⟨hord, hroot⟩ := hwf
  rcases ht : t.root with _ | r
  · have hres : t.remove_entry key = (none, t) := by
      simp [BPTreeMap.remove_entry, ht]
    rw [hres]
    refine ⟨⟨hord, hroot⟩, rfl, .inr ⟨?_, rfl, rfl⟩⟩
    rw [BPTreeMap.toList, ht]
    intro p hp
    cases hp
  · have hroot' := hroot
    rw [ht] at hroot'
    obtain ⟨hrwf, hlen⟩ := hroot'
    have hspec := removeNode_spec hord key hrwf (by decide)
    unfold RemoveSpec at hspec
    rcases hrem : removeNode t.order key r with _ | ⟨⟨rk, rv⟩, r1, sh⟩
    · rw [hrem] at hspec
      have hres : t.remove_entry key = (none, t) := by
        simp [BPTreeMap.remove_entry, ht, hrem]
      rw [hres]
      refine ⟨⟨hord, hroot⟩, rfl, .inr ⟨?_, rfl, rfl⟩⟩
      rw [BPTreeMap.toList, ht]
      exact hspec
    · rw [hrem] at hspec
      obtain ⟨hrk, ⟨E1, E2, hdec, hb1, hb2, hent1⟩, hshspec⟩ := hspec
      subst rk
      have hlen1 : t.len = E1.length + E2.length + 1 := by
        rw [hlen, hdec]
        simp
        omega
      have hdect : t.toList = E1 ++ (key, rv) :: E2 := by
        rw [BPTreeMap.toList, ht]
        exact hdec
      cases r1 with
      | leaf rks rvs =>
        cases rks with
        | nil =>
          -- the root leaf was emptied and is dropped
          have hE : E1 ++ E2 = ([] : List (K × V)) := hent1.symm
          have hres : t.remove_entry key =
              (some (key, rv), { t with root := none, len := t.len - 1 }) := by
            simp [BPTreeMap.remove_entry, ht, hrem]
          rw [hres]
          have hE1 : E1 = [] := by
            rcases List.append_eq_nil.1 hE with ⟨h1, h2⟩
            exact h1
          have hE2 : E2 = [] := by
            rcases List.append_eq_nil.1 hE with ⟨h1, h2⟩
            exact h2
          subst hE1
          subst hE2
          simp only [List.length_nil] at hlen1
          refine ⟨⟨hord, ?_⟩, rfl, .inl ⟨[], rv, [], hdect, rfl, ?_, ?_⟩⟩
          · show t.len - 1 = 0
            omega
          · rw [BPTreeMap.toList]
            rfl
          · show t.len - 1 + 1 = t.len
            omega
        | cons k0 ks0 =>
          have hwfr1 : NodeWf t.order r.height .root none none
              (.leaf (k0 :: ks0) rvs) := by
            cases sh with
            | false => simpa using hshspec
            | true =>
              have h2 : NodeWf t.order r.height .shrunk none none
                  (Node.leaf (k0 :: ks0) rvs : Node K V) ∧
                  (Node.leaf (k0 :: ks0) rvs : Node K V).keyCount + 1 = r.keyCount := by
                simpa using hshspec
              exact nodeWf_root_of_shrunk h2.1 (by simp [Node.keyCount])
          have hres : t.remove_entry key =
              (some (key, rv), { t with root := some (.leaf (k0 :: ks0) rvs), len := t.len - 1 }) := by
            simp [BPTreeMap.remove_entry, ht, hrem]
          rw [hres]
          have hh := nodeWf_height hwfr1
          refine ⟨⟨hord, hh.symm ▸ hwfr1, ?_⟩, rfl, .inl ⟨E1, rv, E2, hdect, rfl, ?_, ?_⟩⟩
          · show t.len - 1 = (Node.leaf (k0 :: ks0) rvs : Node K V).entries.length
            rw [hent1]
            simp only [List.length_append]
            omega
          · rw [BPTreeMap.toList]
            exact hent1
          · show t.len - 1 + 1 = t.len
            omega
      | internal rks rcs =>
        have hnz : ∃ d2, r.height = d2 + 1 := by
          cases hh : r.height with
          | zero =>
            exfalso
            cases sh with
            | false =>
              have h2 : NodeWf t.order r.height .root none none
                  (Node.internal rks rcs : Node K V) := by simpa using hshspec
              rw [hh] at h2
              simp [NodeWf] at h2
            | true =>
              have h2 : NodeWf t.order r.height .shrunk none none
                  (Node.internal rks rcs : Node K V) ∧
                  (Node.internal rks rcs : Node K V).keyCount + 1 = r.keyCount := by
                simpa using hshspec
              have h3 := h2.1
              rw [hh] at h3
              simp [NodeWf] at h3
          | succ d2 => exact ⟨d2, rfl⟩
        obtain ⟨d2, hd2⟩ := hnz
        cases rks with
        | nil =>
          cases rcs with
          | nil =>
            exfalso
            cases sh with
            | false =>
              have h2 : NodeWf t.order r.height .root none none
                  (Node.internal [] [] : Node K V) := by simpa using hshspec
              rw [hd2] at h2
              obtain ⟨_, _, _, _, hchx⟩ := h2
              simp [ChildrenWf] at hchx
            | true =>
              have h2 : NodeWf t.order r.height .shrunk none none
                  (Node.internal [] [] : Node K V) ∧
                  (Node.internal [] [] : Node K V).keyCount + 1 = r.keyCount := by
                simpa using hshspec
              have h3 := h2.1
              rw [hd2] at h3
              obtain ⟨_, _, _, _, hchx⟩ := h3
              simp [ChildrenWf] at hchx
          | cons c rest =>
            -- the internal root lost its final key: its child becomes the root
            have hshr : NodeWf t.order r.height .shrunk none none
                (Node.internal [] (c :: rest) : Node K V) := by
              cases sh with
              | false =>
                exfalso
                have h2 : NodeWf t.order r.height .root none none
                    (Node.internal [] (c :: rest) : Node K V) := by
                  simpa using hshspec
                rw [hd2] at h2
                obtain ⟨_, _, hminx, _, _⟩ := h2
                simp [internalMin] at hminx
              | true =>
                have h2 : NodeWf t.order r.height .shrunk none none
                    (Node.internal [] (c :: rest) : Node K V) ∧
                    (Node.internal [] (c :: rest) : Node K V).keyCount + 1 = r.keyCount := by
                  simpa using hshspec
                exact h2.1
            rw [hd2] at hshr
            obtain ⟨_, _, _, _, hch⟩ := hshr
            have hrest : rest = [] := childrenWf_nil_keys hch
            subst hrest
            have hc : NodeWf t.order d2 .child none none c := hch
            have hcroot : NodeWf t.order d2 .root none none c :=
              nodeWf_weaken hord hc
            have hcent : (Node.internal [] [c] : Node K V).entries = c.entries := by
              simp [Node.entries, entriesOfList]
            have hres : t.remove_entry key =
                (some (key, rv), { t with root := some c, len := t.len - 1 }) := by
              simp [BPTreeMap.remove_entry, ht, hrem]
            rw [hres]
            have hh := nodeWf_height hcroot
            refine ⟨⟨hord, hh.symm ▸ hcroot, ?_⟩, rfl,
              .inl ⟨E1, rv, E2, hdect, rfl, ?_, ?_⟩⟩
            · show t.len - 1 = c.entries.length
              rw [← hcent, hent1]
              simp only [List.length_append]
              omega
            · rw [BPTreeMap.toList]
              show c.entries = E1 ++ E2
              rw [← hcent]
              exact hent1
            · show t.len - 1 + 1 = t.len
              omega
        | cons k0 ks0 =>
          have hwfr1 : NodeWf t.order r.height .root none none
              (.internal (k0 :: ks0) rcs) := by
            cases sh with
            | false => simpa using hshspec
            | true =>
              have h2 : NodeWf t.order r.height .shrunk none none
                  (Node.internal (k0 :: ks0) rcs : Node K V) ∧
                  (Node.internal (k0 :: ks0) rcs : Node K V).keyCount + 1 = r.keyCount := by
                simpa using hshspec
              exact nodeWf_root_of_shrunk h2.1 (by simp [Node.keyCount])
          have hres : t.remove_entry key =
              (some (key, rv), { t with root := some (.internal (k0 :: ks0) rcs), len := t.len - 1 }) := by
            simp [BPTreeMap.remove_entry, ht, hrem]
          rw [hres]
          have hh := nodeWf_height hwfr1
          refine ⟨⟨hord, hh.symm ▸ hwfr1, ?_⟩, rfl,
            .inl ⟨E1, rv, E2, hdect, rfl, ?_, ?_⟩⟩
          · show t.len - 1 =
              (Node.internal (k0 :: ks0) rcs : Node K V).entries.length
            rw [hent1]
            simp only [List.length_append]
            omega
          · rw [BPTreeMap.toList]
            exact hent1
          · show t.len - 1 + 1 = t.len
            omega

theorem sizeOkList_of_childrenWf {m d : Nat}
    (IH : ∀ (lo hi : Option K) (n : Node K V), NodeWf m d .child lo hi n → SizeOk m false n) :
    ∀ (lo hi : Option K) (ks : List K) (cs : List (Node K V)),
    ChildrenWf (NodeWf m d .child) lo hi ks cs →
    SizeOkList m cs ∧ cs.length = ks.length + 1 := by
  intro lo hi ks
  induction ks generalizing lo with
  | nil =>
    intro cs h
    match cs with
    | [] => exact (h : False).elim
    | [c] => exact ⟨⟨IH lo hi c h, trivial⟩, rfl⟩
    | _ :: _ :: _ => exact (h : False).elim
  | cons k ks ih =>
    intro cs h
    match cs with
    | [] => exact (h : False).elim
    | c :: cs =>
      obtain ⟨h1, h2⟩ := h
      obtain ⟨hs, hl⟩ := ih (some k) cs h2
      refine ⟨⟨IH lo (some k) c h1, hs⟩, by simp [hl]⟩

theorem nodeWf_sizeOk_child {m : Nat} : ∀ (d : Nat) {lo hi : Option K} {n : Node K V},
    NodeWf m d .child lo hi n → SizeOk m false n := by
  intro d
  induction d with
  | zero =>
    intro lo hi n h
    match n with
    | .leaf ks vs =>
      obtain ⟨_, _, _, h4, h5⟩ := h
      exact ⟨fun _ => h4, h5⟩
    | .internal ks cs => exact (h : False).elim
  | succ d ih =>
    intro lo hi n h
    match n with
    | .leaf ks vs => exact (h : False).elim
    | .internal ks cs =>
      obtain ⟨_, _, h3, h4, h5⟩ := h
      obtain ⟨hs, hl⟩ := sizeOkList_of_childrenWf (fun lo hi n hn => ih hn) lo hi ks cs h5
      exact ⟨fun _ => h3, h4, hl, hs⟩

theorem nodeWf_sizeOk_root {m d : Nat} {n : Node K V}
    (h : NodeWf m d .root none none n) : SizeOk m true n := by
  match d, n with
  | 0, .leaf ks vs =>
    obtain ⟨_, _, _, _, h5⟩ := h
    exact ⟨fun hf => absurd hf (by decide), h5⟩
  | 0, .internal ks cs => exact (h : False).elim
  | d + 1, .leaf ks vs => exact (h : False).elim
  | d + 1, .internal ks cs =>
    obtain ⟨_, _, _, h4, h5⟩ := h
    obtain ⟨hs, hl⟩ := sizeOkList_of_childrenWf
      (fun lo hi n hn => nodeWf_sizeOk_child d hn) none none ks cs h5
    exact ⟨fun hf => absurd hf (by decide), h4, hl, hs⟩

theorem reachable_wf {t : BPTreeMap K V} (h : Reachable t) : t.Wf := by
  induction h with
  | empty order h3 => exact ⟨h3, rfl⟩
  | insert t key value _ ih => exact (insert_contract t key value ih).1
  | remove t key _ ih => exact (remove_entry_contract t key ih).1

theorem wf_toList_sorted {t : BPTreeMap K V} (h : t.Wf) :
    (t.toList.map Prod.fst).Pairwise (· < ·) := by
  obtain ⟨_, hroot⟩ := h
  rcases ht : t.root with _ | r
  · rw [BPTreeMap.toList, ht]
    exact List.Pairwise.nil
  · rw [ht] at hroot
    rw [BPTreeMap.toList, ht]
    exact nodeWf_entries_sorted hroot.1

theorem sorted_key_unique : ∀ {L : List (K × V)},
    (L.map Prod.fst).Pairwise (· < ·) →
    ∀ {p q : K × V}, p ∈ L → q ∈ L → p.1 = q.1 → p = q := by
  intro L
  induction L with
  | nil =>
    intro _ p q hp
    cases hp
  | cons a l ih =>
    intro hs p q hp hq hk
    rw [List.map_cons, List.pairwise_cons] at hs
    rcases List.mem_cons.1 hp with hpa | hp
    · rcases List.mem_cons.1 hq with hqa | hq
      · rw [hpa, hqa]
      · have hm : q.1 ∈ l.map Prod.fst := List.mem_map.2 ⟨q, hq, rfl⟩
        exact absurd (hs.1 q.1 hm) (by rw [← hpa, hk]; exact lt_irrefl _)
    · rcases List.mem_cons.1 hq with hqa | hq
      · have hm : p.1 ∈ l.map Prod.fst := List.mem_map.2 ⟨p, hp, rfl⟩
        exact absurd (hs.1 p.1 hm) (by rw [← hqa, ← hk]; exact lt_irrefl _)
      · exact ih hs.2 hp hq hk

theorem wf_iterEntries_eq_toList {t : BPTreeMap K V} (h : t.Wf) :
    t.iterEntries = t.toList := by
  obtain ⟨_, hroot⟩ := h
  rcases ht : t.root with _ | r
  · simp [BPTreeMap.iterEntries, BPTreeMap.toList, ht]
  · rw [ht] at hroot
    rw [BPTreeMap.iterEntries, BPTreeMap.toList, ht]
    show (r.leafBlocks.flatten).take t.len = r.entries
    rw [entries_eq_leafBlocks, hroot.2]
    exact List.take_length _

end Mem

namespace Disk

variable {K V : Type} [LinearOrder K]

theorem persist_metadata_sem (t : BPTree K V) :
    t.persist_metadata =
      ({ t with root_is_dirty := false, order_is_dirty := false, len_is_dirty := false },
       metadataWrites t) := by
  obtain ⟨root, rd, ord, od, len, ld, nu⟩ := t
  cases rd <;> cases od <;> cases ld <;> rfl

theorem searchPathChild_proj (key : K) : ∀ (cs : List (Node K V)) (i : Nat),
    searchPathChild key cs i =
      match cs[i]? with
      | some c => searchPath key c
      | none => [] := by
  intro cs
  induction cs with
  | nil => intro i; rfl
  | cons c cs ih =>
    intro i
    cases i with
    | zero => simp [searchPathChild]
    | succ j =>
      simp only [searchPathChild, List.getElem?_cons_succ]
      exact ih j

theorem persistKeyChild_proj (key : K) : ∀ (cs : List (Node K V)) (i : Nat),
    (persistKeyChild key cs i).2 =
      match cs[i]? with
      | some c => (persist_key_walk key c).2
      | none => ([], some (.inl .indexOutOfBounds)) := by
  intro cs
  induction cs with
  | nil => intro i; rfl
  | cons c cs ih =>
    intro i
    cases i with
    | zero => simp [persistKeyChild]
    | succ j =>
      simp only [persistKeyChild, List.getElem?_cons_succ]
      exact ih j

theorem searchPath_cons (key : K) (c : Node K V) :
    ∃ y ys, searchPath key c = y :: ys := by
  cases c with
  | internal u ks cs d => exact ⟨_, _, rfl⟩
  | leaf u ks vs d => exact ⟨_, _, rfl⟩

theorem persist_key_walk_sem (key : K) (n : Node K V) :
    (persist_key_walk key n).2.1 =
      ((if (persist_key_walk key n).2.2 = some (.inr .UnknownKey)
          then (searchPath key n).dropLast else searchPath key n).filter
        (fun x => x.dirtyOf)).map (fun x => FsEvent.write (.node x.uuidOf)) ∧
    ((persist_key_walk key n).2.2 = some (.inr .UnknownKey) ↔
      ∃ u2 ks2 vs2 d2 i2, (searchPath key n).getLast? = some (.leaf u2 ks2 vs2 d2) ∧
        Mem.binarySearch ks2 key = .error i2) := by
  induction n using Node.rec
    (motive_2 := fun cs => ∀ c ∈ cs,
      (persist_key_walk key c).2.1 =
        ((if (persist_key_walk key c).2.2 = some (Sum.inr Error.UnknownKey)
            then (searchPath key c).dropLast else searchPath key c).filter
          (fun x => Node.dirtyOf x)).map
          (fun x => FsEvent.write (FileName.node (Node.uuidOf x))) ∧
      ((persist_key_walk key c).2.2 = some (Sum.inr Error.UnknownKey) ↔
        ∃ u2 ks2 vs2 d2 i2,
          (searchPath key c).getLast? = some (Node.leaf u2 ks2 vs2 d2) ∧
          Mem.binarySearch ks2 key = Except.error i2)) with
  | leaf u ks vs d =>
    cases hb : Mem.binarySearch ks key with
    | error i =>
      have hw : persist_key_walk key (Node.leaf u ks vs d : Node K V) =
          (.leaf u ks vs d, [], some (.inr .UnknownKey)) := by
        simp [persist_key_walk, hb]
      rw [hw]
      constructor
      · simp [searchPath]
      · constructor
        · intro _
          exact ⟨u, ks, vs, d, i, by simp [searchPath], hb⟩
        · intro _
          rfl
    | ok j =>
      cases d with
      | true =>
        have hw : persist_key_walk key (Node.leaf u ks vs true : Node K V) =
            (.leaf u ks vs false, [FsEvent.write (.node u)], none) := by
          simp [persist_key_walk, hb]
        rw [hw]
        constructor
        · simp [searchPath, Node.dirtyOf, Node.uuidOf]
        · constructor
          · intro hcontra
            exact absurd hcontra (by simp)
          · rintro ⟨u2, ks2, vs2, d2, i2, hlast, hbs⟩
            simp [searchPath] at hlast
            obtain ⟨-, hks, -, -⟩ := hlast
            rw [← hks, hb] at hbs
            exact Except.noConfusion hbs
      | false =>
        have hw : persist_key_walk key (Node.leaf u ks vs false : Node K V) =
            (.leaf u ks vs false, [], none) := by
          simp [persist_key_walk, hb]
        rw [hw]
        constructor
        · simp [searchPath, Node.dirtyOf]
        · constructor
          · intro hcontra
            exact absurd hcontra (by simp)
          · rintro ⟨u2, ks2, vs2, d2, i2, hlast, hbs⟩
            simp [searchPath] at hlast
            obtain ⟨-, hks, -, -⟩ := hlast
            rw [← hks, hb] at hbs
            exact Except.noConfusion hbs
  | internal u ks cs d ih =>
    rcases hpkc : persistKeyChild key cs (Mem.descentIndex ks key) with ⟨cs1, e1, err1⟩
    have hw2 : (persist_key_walk key (Node.internal u ks cs d : Node K V)).2 =
        ((if d then [FsEvent.write (.node u)] else []) ++ e1, err1) := by
      simp [persist_key_walk, hpkc]
    have hsp : searchPath key (Node.internal u ks cs d : Node K V) =
        Node.internal u ks cs d :: searchPathChild key cs (Mem.descentIndex ks key) := by
      simp [searchPath]
    have hproj := persistKeyChild_proj key cs (Mem.descentIndex ks key)
    rw [hpkc] at hproj
    cases hc : cs[Mem.descentIndex ks key]? with
    | none =>
      rw [hc] at hproj
      have he1 : e1 = [] := congrArg Prod.fst hproj
      have herr1 : err1 = some (.inl .indexOutOfBounds) := congrArg Prod.snd hproj
      subst he1
      subst herr1
      rw [hw2]
      constructor
      · simp only [hsp, searchPathChild_proj, hc]
        cases d <;> simp [Node.dirtyOf, Node.uuidOf]
      · constructor
        · intro hcontra
          simp at hcontra
        · rintro ⟨u2, ks2, vs2, d2, i2, hlast, hbs⟩
          rw [hsp, searchPathChild_proj, hc] at hlast
          simp at hlast
    | some c =>
      rw [hc] at hproj
      have hcm : c ∈ cs := by
        obtain ⟨hlt, heq⟩ := List.getElem?_eq_some.1 hc
        exact heq ▸ List.getElem_mem hlt
      have he1 : e1 = (persist_key_walk key c).2.1 := congrArg Prod.fst hproj
      have herr1 : err1 = (persist_key_walk key c).2.2 := congrArg Prod.snd hproj
      subst he1
      subst herr1
      obtain ⟨hPe, hPi⟩ := ih c hcm
      obtain ⟨y, ys, hpc⟩ := searchPath_cons key c
      rw [hpc] at hPe hPi
      rw [hw2]
      simp only [hsp, searchPathChild_proj, hc]
      rw [hpc]
      constructor
      · by_cases herr : (persist_key_walk key c).2.2 = some (.inr .UnknownKey)
        · rw [if_pos herr] at hPe ⊢
          rw [hPe]
          cases d <;> simp [Node.dirtyOf, Node.uuidOf, List.dropLast]
        · rw [if_neg herr] at hPe ⊢
          rw [hPe]
          cases d <;> simp [Node.dirtyOf, Node.uuidOf]
      · simpa [List.getLast?_cons_cons] using hPi
  | nil =>
    rename_i c hcm
    cases hcm
  | cons a as ih1 ih2 =>
    rename_i c hcm
    rcases List.mem_cons.1 hcm with hca | hcm2
    · exact hca ▸ ih1
    · exact ih2 c hcm2

end Disk

/-!
Claim theorems.
-/

/-- C1: on the in-memory backend, when an underfull leaf at child index i
merges with its right sibling, the separator removed from the parent is the
parent key at index i (the one between the cursor and the right sibling),
the right sibling is dropped, and the merged leaf holds both leaves'
entries in order (the next_leaf chain is structural in the model).  The
disk backend diverges: src/disk/remove.rs line 148 removes
parent.keys[cursor_index + 1] instead, so on a parent with a single key the
index is out of bounds (the Rust indexing panics), and on a parent with two
keys the separator to the right of the sibling is removed instead of the
one between the merged leaves. -/
theorem claim_C1 :
    Mem.rebalanceChild 3 [10]
        [Mem.Node.leaf [2] [102], Mem.Node.leaf [10, 11] [110, 111]] 0 =
      ([], [Mem.Node.leaf [2, 10, 11] [102, 110, 111]], true) ∧
    Mem.BPTreeMap.remove_entry
        ({ root := some (Mem.Node.internal [10]
            [Mem.Node.leaf [1, 2] [101, 102], Mem.Node.leaf [10, 11] [110, 111]]),
           order := 3, len := 4 } : Mem.BPTreeMap Nat Nat) 1 =
      (some (1, 101),
       { root := some (Mem.Node.leaf [2, 10, 11] [102, 110, 111]), order := 3, len := 3 }) ∧
    Disk.BPTree.remove_entry
        ({ root := some (Disk.Node.internal 0 [10]
            [Disk.Node.leaf 1 [1, 2] [101, 102] false,
             Disk.Node.leaf 2 [10, 11] [110, 111] false] false),
           root_is_dirty := false, order := 3, order_is_dirty := false,
           len := 4, len_is_dirty := false, nextUuid := 3 } : Disk.BPTree Nat Nat) 1 =
      .error .indexOutOfBounds ∧
    Disk.BPTree.remove_entry
        ({ root := some (Disk.Node.internal 0 [10, 20]
            [Disk.Node.leaf 1 [1, 2] [101, 102] false,
             Disk.Node.leaf 2 [10, 11] [110, 111] false,
             Disk.Node.leaf 3 [20, 21] [120, 121] false] false),
           root_is_dirty := false, order := 3, order_is_dirty := false,
           len := 6, len_is_dirty := false, nextUuid := 4 } : Disk.BPTree Nat Nat) 1 =
      .ok (some (1, 101),
       { root := some (Disk.Node.internal 0 [10]
           [Disk.Node.leaf 1 [2, 10, 11] [102, 110, 111] false,
            Disk.Node.leaf 3 [20, 21] [120, 121] false] false),
         root_is_dirty := false, order := 3, order_is_dirty := false,
         len := 5, len_is_dirty := false, nextUuid := 4 }) ∧
    Mem.BPTreeMap.remove_entry
        ({ root := some (Mem.Node.internal [10, 20]
            [Mem.Node.leaf [1, 2] [101, 102], Mem.Node.leaf [10, 11] [110, 111],
             Mem.Node.leaf [20, 21] [120, 121]]),
           order := 3, len := 6 } : Mem.BPTreeMap Nat Nat) 1 =
      (some (1, 101),
       { root := some (Mem.Node.internal [20]
           [Mem.Node.leaf [2, 10, 11] [102, 110, 111], Mem.Node.leaf [20, 21] [120, 121]]),
         order := 3, len := 5 }) := by
  exact ⟨rfl, rfl, rfl, rfl, rfl⟩

/-- C2: on the in-memory backend insert(k, v) replaces the stored value and
returns the prior one when k is present, leaving the count unchanged, and
otherwise inserts (k, v) at its sorted position (all earlier entries below
k, all later ones above), increments the count and reports absent; and a
second insert(k, v) returns the value v written by the first and leaves
len unchanged (idempotence, property P9). -/
theorem claim_C2 {K V : Type} [LinearOrder K] (t : Mem.BPTreeMap K V)
    (key : K) (value : V) (hwf : t.Wf) :
    (t.insert key value).2.Wf ∧
    ((∃ E1 v0 E2, t.toList = E1 ++ (key, v0) :: E2 ∧
        (t.insert key value).1 = some v0 ∧
        (t.insert key value).2.toList = E1 ++ (key, value) :: E2 ∧
        (t.insert key value).2.len = t.len) ∨
     (∃ E1 E2, t.toList = E1 ++ E2 ∧
        (∀ p ∈ E1, p.1 < key) ∧ (∀ p ∈ E2, key < p.1) ∧
        (t.insert key value).1 = none ∧
        (t.insert key value).2.toList = E1 ++ (key, value) :: E2 ∧
        (t.insert key value).2.len = t.len + 1)) ∧
    ((t.insert key value).2.insert key value).1 = some value ∧
    ((t.insert key value).2.insert key value).2.len = (t.insert key value).2.len := by
  obtain ⟨hwf1, horder1, hcase⟩ := Mem.insert_contract t key value hwf
  have hmem : (key, value) ∈ (t.insert key value).2.toList := by
    rcases hcase with ⟨E1, v0, E2, hd1, hd2, hL, hd4⟩ | ⟨E1, E2, hd1, hd2, hd3, hd4, hL, hd6⟩ <;>
      · rw [hL]; simp
  obtain ⟨hwf2, horder2, hcase2⟩ := Mem.insert_contract (t.insert key value).2 key value hwf1
  rcases hcase2 with ⟨F1, v0, F2, hF, hres, hF2, hlen2⟩ |
    ⟨F1, F2, hF, hb1, hb2, hres, hF2, hlen2⟩
  · have hs := Mem.wf_toList_sorted hwf1
    have hmem2 : (key, v0) ∈ (t.insert key value).2.toList := by
      rw [hF]; simp
    have heqp : ((key, value) : K × V) = (key, v0) :=
      Mem.sorted_key_unique hs hmem hmem2 rfl
    have hv : value = v0 := congrArg Prod.snd heqp
    exact ⟨hwf1, hcase, by rw [hres, ← hv], hlen2⟩
  · exfalso
    rw [hF] at hmem
    rcases List.mem_append.1 hmem with hm | hm
    · exact absurd (hb1 _ hm) (lt_irrefl key)
    · exact absurd (hb2 _ hm) (lt_irrefl key)

theorem claim_C2_witness :
    ((Mem.BPTreeMap.with_order 3 : Mem.BPTreeMap Nat Nat).insert 1 10).2.Wf :=
  (claim_C2 (Mem.BPTreeMap.with_order 3) 1 10 (by decide)).1

/-- C3: on the in-memory backend remove_entry(k) deletes the entry,
decrements the count and returns the (key, value) pair when k is present,
and otherwise (in particular on an empty tree) returns absent leaving the
tree untouched; immediately after any call, a second remove_entry(k)
returns absent and leaves the tree unchanged.  The disk backend violates
the contract: removing a present key whose leaf merges with its right
sibling panics (the separator fetch at cursor_index + 1 of
src/disk/remove.rs line 148 indexes out of bounds) instead of returning
the removed pair. -/
theorem claim_C3 {K V : Type} [LinearOrder K] (t : Mem.BPTreeMap K V)
    (key : K) (hwf : t.Wf) :
    (t.remove_entry key).2.Wf ∧
    ((∃ E1 v0 E2, t.toList = E1 ++ (key, v0) :: E2 ∧
        (t.remove_entry key).1 = some (key, v0) ∧
        (t.remove_entry key).2.toList = E1 ++ E2 ∧
        (t.remove_entry key).2.len + 1 = t.len) ∨
     ((∀ p ∈ t.toList, p.1 ≠ key) ∧
        (t.remove_entry key).1 = none ∧ (t.remove_entry key).2 = t)) ∧
    ((t.remove_entry key).2.remove_entry key).1 = none ∧
    ((t.remove_entry key).2.remove_entry key).2 = (t.remove_entry key).2 ∧
    (((50 : Nat), (1050 : Nat)) ∈ Disk.Node.entries
      (Disk.Node.internal 0 [100]
        [Disk.Node.leaf 1 [50, 60] [1050, 1060] false,
         Disk.Node.leaf 2 [100, 110] [1100, 1110] false] false) ∧
     Disk.BPTree.remove_entry
        ({ root := some (Disk.Node.internal 0 [100]
            [Disk.Node.leaf 1 [50, 60] [1050, 1060] false,
             Disk.Node.leaf 2 [100, 110] [1100, 1110] false] false),
           root_is_dirty := false, order := 3, order_is_dirty := false,
           len := 4, len_is_dirty := false, nextUuid := 3 } : Disk.BPTree Nat Nat) 50 =
        .error .indexOutOfBounds) := by
  obtain ⟨hwf1, horder1, hcase⟩ := Mem.remove_entry_contract t key hwf
  rcases hcase with ⟨E1, v0, E2, hdec, hres, hL1, hlen⟩ | ⟨habs, hres, hsame⟩
  · have hs := Mem.wf_toList_sorted hwf
    rw [hdec, List.map_append, List.map_cons, List.pairwise_append] at hs
    have hb1 : ∀ p ∈ E1, p.1 < key := fun p hp =>
      hs.2.2 p.1 (List.mem_map.2 ⟨p, hp, rfl⟩) key (by simp)
    have hb2 : ∀ p ∈ E2, key < p.1 := fun p hp =>
      (List.pairwise_cons.1 hs.2.1).1 p.1 (List.mem_map.2 ⟨p, hp, rfl⟩)
    have hnone : ∀ p ∈ (t.remove_entry key).2.toList, p.1 ≠ key := by
      rw [hL1]
      intro p hp
      rcases List.mem_append.1 hp with hm | hm
      · exact ne_of_lt (hb1 p hm)
      · exact ne_of_gt (hb2 p hm)
    obtain ⟨hwf2, horder2, hcase2⟩ :=
      Mem.remove_entry_contract (t.remove_entry key).2 key hwf1
    rcases hcase2 with ⟨F1, w0, F2, hdec2, hres2x, hL2, hlen2⟩ | ⟨habs2, hres2, hsame2⟩
    · exfalso
      have hmem : ((key, w0) : K × V) ∈ (t.remove_entry key).2.toList := by
        rw [hdec2]; simp
      exact hnone _ hmem rfl
    · exact ⟨hwf1, .inl ⟨E1, v0, E2, hdec, hres, hL1, hlen⟩, hres2, hsame2,
        by decide, rfl⟩
  · refine ⟨hwf1, .inr ⟨habs, hres, hsame⟩, ?_, ?_, by decide, rfl⟩
    · rw [hsame]
      exact hres
    · rw [hsame]
      exact hsame

theorem claim_C3_witness :
    ((Mem.BPTreeMap.with_order 3 : Mem.BPTreeMap Nat Nat).remove_entry 1).2.Wf :=
  (claim_C3 (Mem.BPTreeMap.with_order 3) 1 (by decide)).1

/-- C4: in every tree of order m reachable from an empty tree by insert and
remove_entry operations, every non-root leaf holds between (m + 1) / 2 and
m keys, every non-root internal node holds between m / 2 and m keys, every
internal node has exactly one more child than it has keys, and only the
root is exempt from the minimum (property P1). -/
theorem claim_C4 {K V : Type} [LinearOrder K] (t : Mem.BPTreeMap K V)
    (h : Mem.Reachable t) (r : Mem.Node K V) (hr : t.root = some r) :
    Mem.SizeOk t.order true r := by
  have hwf := Mem.reachable_wf h
  obtain ⟨horder, hroot⟩ := hwf
  rw [hr] at hroot
  exact Mem.nodeWf_sizeOk_root hroot.1

theorem claim_C4_witness :
    Mem.SizeOk ((Mem.BPTreeMap.with_order 3 : Mem.BPTreeMap Nat Nat).insert 1 10).2.order
      true (Mem.Node.leaf [1] [10]) :=
  claim_C4 _ (Mem.Reachable.insert _ 1 10 (Mem.Reachable.empty 3 (by decide)))
    (Mem.Node.leaf [1] [10]) rfl

/-- C5: when an insert splits the node that is currently the root, a new
internal root holding exactly the promoted separator and the children
[old root, new sibling] is installed, and both children's parent pointers
are set to it.  The in-memory backend (src/mem/insert.rs) does this; the
older disk variant kept in src/disk/mod.rs diverges on the leaf-split
root-growth path (lines 200-222): both parent-connection blocks
dereference the cursor, so the old root's parent is set twice and the
fresh sibling leaf keeps parent None. -/
theorem claim_C5 :
    (let t := (((((MemHeap.HTree.with_order 3 : MemHeap.HTree Nat Nat).insert 1 10).2.insert
        2 20).2.insert 3 30).2.insert 4 40).2
     t.root = some 2 ∧
     t.store[2]? = some (MemHeap.HNode.internal [3] [0, 1] none) ∧
     t.store[0]? = some (MemHeap.HNode.leaf [1, 2] [10, 20] (some 2) (some 1)) ∧
     t.store[1]? = some (MemHeap.HNode.leaf [3, 4] [30, 40] (some 2) none)) ∧
    (let t := (((((OldDisk.HTree.with_order 3 : OldDisk.HTree Nat Nat).insert 1 10).2.insert
        2 20).2.insert 3 30).2.insert 4 40).2
     t.root = some 2 ∧
     t.store[2]? = some (OldDisk.HNode.internal 2 [3] [0, 1] none) ∧
     t.parentOf 0 = some (some 2) ∧
     t.parentOf 1 = some none) := by
  exact ⟨⟨rfl, rfl, rfl, rfl⟩, rfl, rfl, rfl, rfl⟩

/-- C6: on every well-formed tree the iterator — which starts at the
leftmost leaf and follows the next_leaf chain, yielding at most len
entries — produces exactly the in-order entry list: len entries in
strictly ascending key order.  On the pointer-faithful model of the
in-memory backend, inserting 25, 4, 1, 16, 9, 20, 13, 15, 10, 11, 12 into
a fresh order-3 tree and draining iter yields the keys
1, 4, 9, 10, 11, 12, 13, 15, 16, 20, 25 in order with len = 11. -/
theorem claim_C6 {K V : Type} [LinearOrder K] (t : Mem.BPTreeMap K V) (hwf : t.Wf) :
    (t.iterEntries = t.toList ∧
     (t.iterEntries.map Prod.fst).Pairwise (· < ·) ∧
     t.iterEntries.length = t.len) ∧
    (let t11 := ((((((((((((MemHeap.HTree.new : MemHeap.HTree Nat Nat).insert 25 25).2.insert
        4 4).2.insert 1 1).2.insert 16 16).2.insert 9 9).2.insert 20 20).2.insert
        13 13).2.insert 15 15).2.insert 10 10).2.insert 11 11).2.insert 12 12).2
     t11.iterList = [(1, 1), (4, 4), (9, 9), (10, 10), (11, 11), (12, 12), (13, 13),
        (15, 15), (16, 16), (20, 20), (25, 25)] ∧
     t11.len = 11) := by
  refine ⟨⟨Mem.wf_iterEntries_eq_toList hwf, ?_, ?_⟩, rfl, rfl⟩
  · rw [Mem.wf_iterEntries_eq_toList hwf]
    exact Mem.wf_toList_sorted hwf
  · rw [Mem.wf_iterEntries_eq_toList hwf]
    obtain ⟨horder, hroot⟩ := hwf
    rcases ht : t.root with _ | r
    · rw [Mem.BPTreeMap.toList, ht]
      rw [ht] at hroot
      exact (hroot : t.len = 0).symm
    · rw [Mem.BPTreeMap.toList, ht]
      rw [ht] at hroot
      exact hroot.2.symm

theorem claim_C6_witness :
    (Mem.BPTreeMap.with_order 3 : Mem.BPTreeMap Nat Nat).iterEntries =
      (Mem.BPTreeMap.with_order 3 : Mem.BPTreeMap Nat Nat).toList :=
  (claim_C6 (Mem.BPTreeMap.with_order 3) (by decide)).1.1

/-- C7: the dirty-discipline claim fails on the disk backend: a successful
insert that modifies an existing resident leaf in place leaves the leaf's
dirty flag clear — src/disk/insert.rs constructs only freshly created
nodes with dirty: true and never sets the flag on the nodes of the
affected root-to-leaf path that it mutates through access_mut — so the
next persist() skips the modified node. -/
theorem claim_C7 :
    (Disk.BPTree.insert
      ({ root := some (Disk.Node.leaf 0 [1] [10] false), root_is_dirty := false,
         order := 3, order_is_dirty := false, len := 1, len_is_dirty := false,
         nextUuid := 1 } : Disk.BPTree Nat Nat) 2 20).2.root =
      some (Disk.Node.leaf 0 [1, 2] [10, 20] false) ∧
    Disk.persist_recursive (Disk.Node.leaf 0 [1, 2] [10, 20] false : Disk.Node Nat Nat) =
      (Disk.Node.leaf 0 [1, 2] [10, 20] false, []) := by
  exact ⟨rfl, rfl⟩

/-- C8: the disk backend never removes the backing file of a structurally
deleted node: remove drops merged-away leaves and collapsed roots with
Link::free, which only releases memory, and no code path of remove calls
Link::reclaim — after a remove whose merge consumes the right leaf (here
node 2) and whose root shrink discards the old root (node 0), the
filesystem image is returned unchanged, the files of both deleted nodes
still present; the reclaim the claim requires would have erased the
file. -/
theorem claim_C8 :
    Disk.BPTree.remove_entryFs
      ({ root := some (Disk.Node.internal 0 [10]
          [Disk.Node.leaf 1 [1, 2] [101, 102] false,
           Disk.Node.leaf 2 [10, 11] [110, 111] false] false),
         root_is_dirty := false, order := 3, order_is_dirty := false,
         len := 4, len_is_dirty := false, nextUuid := 3 } : Disk.BPTree Nat Nat) 10
      [.rootMeta, .orderMeta, .lenMeta, .node 0, .node 1, .node 2] =
      .ok ((some (10, 110),
        { root := some (Disk.Node.leaf 1 [1, 2, 11] [101, 102, 111] false),
          root_is_dirty := false, order := 3, order_is_dirty := false,
          len := 3, len_is_dirty := false, nextUuid := 3 }),
        [.rootMeta, .orderMeta, .lenMeta, .node 0, .node 1, .node 2]) ∧
    Disk.reclaim 2 [.rootMeta, .orderMeta, .lenMeta, .node 0, .node 1, .node 2] =
      ([.rootMeta, .orderMeta, .lenMeta, .node 0, .node 1], none) ∧
    Disk.reclaim 2 [.rootMeta, .orderMeta, .lenMeta, .node 0, .node 1] =
      ([.rootMeta, .orderMeta, .lenMeta, .node 0, .node 1], none) := by
  exact ⟨rfl, rfl, rfl⟩

/-- C9: persist_key(k) first performs the metadata step — creating the
directory and writing exactly the dirty metadata files in the order root,
order, len, clearing their flags — and then descends along the search
path for k, writing exactly the dirty resident nodes of that path in
top-down order; it fails with UnknownKey exactly when the node the path
ends at is a leaf whose keys do not contain k (by binary search), in which
case that leaf's own write is skipped (the check precedes the write). -/
theorem claim_C9 {K V : Type} [LinearOrder K] (t : Disk.BPTree K V) (key : K)
    (r : Disk.Node K V) (hr : t.root = some r) :
    ((t.persist_key key).1.root_is_dirty = false ∧
     (t.persist_key key).1.order_is_dirty = false ∧
     (t.persist_key key).1.len_is_dirty = false) ∧
    (t.persist_key key).2.1 =
      Disk.metadataWrites t ++
      ((if (t.persist_key key).2.2 = some (Sum.inr Disk.Error.UnknownKey)
          then (Disk.searchPath key r).dropLast
          else Disk.searchPath key r).filter (fun x => Disk.Node.dirtyOf x)).map
        (fun x => Disk.FsEvent.write (Disk.FileName.node (Disk.Node.uuidOf x))) ∧
    ((t.persist_key key).2.2 = some (Sum.inr Disk.Error.UnknownKey) ↔
      ∃ u2 ks2 vs2 d2 i2,
        (Disk.searchPath key r).getLast? = some (Disk.Node.leaf u2 ks2 vs2 d2) ∧
        Mem.binarySearch ks2 key = Except.error i2) := by
  have hpm := Disk.persist_metadata_sem t
  have hsem := Disk.persist_key_walk_sem key r
  rcases hwalk : Disk.persist_key_walk key r with ⟨r1, e2, err⟩
  rw [hwalk] at hsem
  obtain ⟨hsem1, hsem2⟩ := hsem
  have hpk : t.persist_key key =
      ({ (t.persist_metadata).1 with root := some r1 }, (t.persist_metadata).2 ++ e2, err) := by
    simp [Disk.BPTree.persist_key, hr, hwalk]
  rw [hpk, hpm]
  refine ⟨⟨rfl, rfl, rfl⟩, ?_, ?_⟩
  · have hsem1b : e2 =
        ((if err = some (Sum.inr Disk.Error.UnknownKey)
            then (Disk.searchPath key r).dropLast else Disk.searchPath key r).filter
          (fun x => Disk.Node.dirtyOf x)).map
          (fun x => Disk.FsEvent.write (Disk.FileName.node (Disk.Node.uuidOf x))) := hsem1
    show Disk.metadataWrites t ++ e2 = _
    rw [hsem1b]
  · show (err = some (Sum.inr Disk.Error.UnknownKey) ↔ _)
    exact hsem2

theorem claim_C9_witness :
    (({ root := some (Disk.Node.internal 0 [10]
          [Disk.Node.leaf 1 [1, 2] [101, 102] true,
           Disk.Node.leaf 2 [10, 11] [110, 111] false] true),
         root_is_dirty := true, order := 3, order_is_dirty := false,
         len := 4, len_is_dirty := true, nextUuid := 3 } : Disk.BPTree Nat Nat).persist_key
        1).1.root_is_dirty = false :=
  (claim_C9 _ 1 (Disk.Node.internal 0 [10]
      [Disk.Node.leaf 1 [1, 2] [101, 102] true,
       Disk.Node.leaf 2 [10, 11] [110, 111] false] true) rfl).1.1

/-- C10: persist() on a tree whose root is absent returns success without
touching the filesystem: no event is emitted — no directory creation and
no metadata write, even for dirty metadata flags — the tree (dirty flags
included) is returned unchanged, and replaying the (empty) event list
leaves any on-disk image exactly as it was. -/
theorem claim_C10 {K V : Type} (t : Disk.BPTree K V) (h : t.root = none) :
    t.persist = (t, []) ∧ ∀ fs, Disk.applyEvents fs (t.persist).2 = fs := by
  have hp : t.persist = (t, []) := by
    simp [Disk.BPTree.persist, h]
  exact ⟨hp, fun fs => by rw [hp]; rfl⟩

theorem claim_C10_witness :
    (Disk.BPTree.with_order 3 : Disk.BPTree Nat Nat).persist =
      (Disk.BPTree.with_order 3, []) :=
  (claim_C10 (Disk.BPTree.with_order 3) rfl).1
